import Mathlib

/-!
# The echo provisioner: replay of recorded responses

A shallow embedding of `provisioner/echo/serve.go`: the two stream handlers
`Parse` and `Provision`, the log filter `filterLogResponses` and the archive
writer `Tar`, followed by the properties proved about them.

Conventions of the embedding.

* The handlers' unbounded `for` loops take a fuel argument; `none` means the
  fuel ran out before the loop left.
* A handler call is described by a `Run`: the messages handed to `Send`
  successfully, whether the call went through `<-stream.Context().Done()`,
  and how it ended.
* Packages that are not part of the sources (`filepath`, `strings`, the
  generated `proto` tables, the protobuf codec) are the fields of `Deps`.
  The text `%d` of an index is its decimal numeral, `toString` of a natural
  number. Two instances serve to evaluate the definitions: `sampleDeps`,
  and `unixDeps` whose `Join` cleans the joined path as `filepath.Join`
  does.
* A store holds an archive (`Extracted`) when it answers for every entry
  name as the archive does; `Fs.unpack` is the store obtained by writing
  the entries of an archive into a directory.
* Where a property is stated in the words of the specification, the
  definition that follows those words is named for it (`suppresses`,
  `specCatalog`) and related to the definition taken from the code.
* A tar archive is the list of its entries (name, content) in write order;
  the tar writer itself is taken not to fail, so that `Tar` fails only when
  `Marshal` does.
* Messages are values: the elements of a response sequence are messages,
  not pointers that may be nil.
* Errors of collaborators are kept apart from the errors `serve.go` builds,
  so that "no state" is never confused with an error of the transport.
-/

namespace Echo

/-- The content of a file or of an archive entry. -/
abbrev Bytes := List Nat

/-- An error value produced by a collaborator (file system, codec,
transport, stream context), identified by its message. -/
abbrev ExtError := String

/-- The error values a handler or `Tar` returns. `external` is a
collaborator's error handed on unchanged; the other constructors are the
errors built in `serve.go`: `xerrors.New("no state")` and the three wrapping
`xerrors.Errorf` calls, each around a collaborator's error. -/
inductive Error where
  | external (err : ExtError)
  | noState
  | noStateWrap (cause : ExtError)
  | readFile (path : String) (cause : ExtError)
  | unmarshal (cause : ExtError)
  deriving DecidableEq, Repr

/-- Modelled from the spec: the parse response of the protocol (package
`proto` is not among the sources). Payloads are opaque; the `Type` oneof is
a log, a completion, or unset. -/
inductive Parse_Response where
  | Log (Level : Int) (Output : String)
  | Complete (payload : String)
  | Unset
  deriving DecidableEq, Repr

/-- Modelled from the spec: the provision response of the protocol (package
`proto` is not among the sources). The handler looks only at the log
discriminant and at the level of a log. -/
inductive Provision_Response where
  | Log (Level : Int) (Output : String)
  | Complete (payload : String)
  | Unset
  deriving DecidableEq, Repr

/-- Modelled from the spec: the metadata of a provision configuration; the
workspace transition is an open enum carried as its number. -/
structure Provision_Metadata where
  WorkspaceTransition : Int
  deriving DecidableEq, Repr

/-- Modelled from the spec: the provision configuration (directory,
transition tag inside the optional metadata, log-level threshold string). -/
structure Provision_Config where
  Directory : String
  Metadata : Option Provision_Metadata
  ProvisionerLogLevel : String
  deriving DecidableEq, Repr

/-- Nil-safe getter chain `config.GetMetadata().GetWorkspaceTransition()`:
the zero value when the metadata pointer is nil. -/
def Provision_Config.GetWorkspaceTransition (config : Provision_Config) : Int :=
  match config.Metadata with
  | none => 0
  | some m => m.WorkspaceTransition

/-- Modelled from the spec: the first message of a provision stream. The
configuration pointer of a plan or an apply may be nil. -/
inductive Provision_Request where
  | Plan (Config : Option Provision_Config)
  | Apply (Config : Option Provision_Config)
  | Cancel
  | Unset
  deriving DecidableEq, Repr

/-- The test `msg.GetPlan() != nil`. -/
def Provision_Request.isPlan : Provision_Request → Bool
  | .Plan _ => true
  | _ => false

/-- The test `msg.GetApply() != nil`. -/
def Provision_Request.isApply : Provision_Request → Bool
  | .Apply _ => true
  | _ => false

/-- Modelled from the spec: the parse request, which carries the directory. -/
structure Parse_Request where
  Directory : String
  deriving DecidableEq, Repr

/-- What the handlers and `Tar` use from packages outside the sources. -/
structure Deps where
  /-- The function `filepath.Join` on a directory and an entry name. -/
  Join : String → String → String
  /-- The function `strings.ToLower`. -/
  ToLower : String → String
  /-- The function `strings.ToUpper`. -/
  ToUpper : String → String
  /-- The method `String()` of `proto.WorkspaceTransition`. -/
  TransitionString : Int → String
  /-- The table `proto.LogLevel_value`; `none` where the key is absent. -/
  LogLevel_value : String → Option Int
  /-- The function `protobuf.Marshal` on parse responses. -/
  MarshalParse : Parse_Response → Except ExtError Bytes
  /-- The function `protobuf.Unmarshal` into a parse response. -/
  UnmarshalParse : Bytes → Except ExtError Parse_Response
  /-- The function `protobuf.Marshal` on provision responses. -/
  MarshalProvision : Provision_Response → Except ExtError Bytes
  /-- The function `protobuf.Unmarshal` into a provision response. -/
  UnmarshalProvision : Bytes → Except ExtError Provision_Response

/-- The injected file system `afero.Fs`, as far as the handlers use it.
`Stat` gives `none` when the call succeeds and the error otherwise. -/
structure Fs where
  Stat : String → Option ExtError
  ReadFile : String → Except ExtError Bytes

/-- The context of a stream: whether its cancellation signal ever fires and
the value of `Err()` once it has. -/
structure Context where
  Done : Bool
  Err : Option ExtError

/-- The sending side of a stream. `Send k r` is the outcome of the call of
`Send` made after `k` earlier calls: `none` on success. -/
structure Stream (R : Type) where
  Send : Nat → R → Option ExtError
  Context : Context

/-- The provision stream: the sending side and the outcome of the first
`Recv`. -/
structure ProvisionStream where
  Recv : Except ExtError Provision_Request
  toStream : Stream Provision_Response

/-- How a handler call ends. -/
inductive Return where
  | returned (err : Option Error)
  | panicked
  | blocked
  deriving DecidableEq, Repr

/-- One call of a handler: the messages sent, in order; whether the call
reached the wait on the context; and how it ended. -/
structure Run (R : Type) where
  sent : List R
  waited : Bool
  ret : Return
  deriving DecidableEq, Repr

/-- The tail of both handlers: `<-stream.Context().Done()` followed by
`return stream.Context().Err()`. -/
def awaitDone {R : Type} (stream : Stream R) (sent : List R) : Run R :=
  if stream.Context.Done then ⟨sent, true, .returned (stream.Context.Err.map .external)⟩
  else ⟨sent, true, .blocked⟩

/-- The entry name `fmt.Sprintf("%d.parse.protobuf", index)`. -/
def parseName (index : Nat) : String :=
  toString index ++ ".parse.protobuf"

/-- The extension chosen at the head of the provision loop. -/
def extension (plan : Bool) : String :=
  if plan then ".plan.protobuf" else ".apply.protobuf"

/-- The entry name `fmt.Sprintf("%d.provision"+extension, i)`. -/
def defaultName (plan : Bool) (i : Nat) : String :=
  toString i ++ ".provision" ++ extension plan

/-- The entry name `fmt.Sprintf("%d.%s.provision"+extension, i, t)` with
`t` the lower-cased name of the transition. -/
def transitionName (d : Deps) (plan : Bool) (transition : Int) (i : Nat) : String :=
  toString i ++ "." ++ d.ToLower (d.TransitionString transition) ++ ".provision" ++ extension plan

/-- The loop of `Parse` from `index` on, with `sent` the messages sent so
far. -/
def ParseLoop (d : Deps) (fs : Fs) (request : Parse_Request) (stream : Stream Parse_Response) :
    Nat → Nat → List Parse_Response → Option (Run Parse_Response)
  | 0, _, _ => none
  | fuel + 1, index, sent =>
    let path := d.Join request.Directory (parseName index)
    match fs.Stat path with
    | some err =>
      if index = 0 then some ⟨sent, false, .returned (some (.noStateWrap err))⟩
      else some (awaitDone stream sent)
    | none =>
      match fs.ReadFile path with
      | .error err => some ⟨sent, false, .returned (some (.readFile path err))⟩
      | .ok data =>
        match d.UnmarshalParse data with
        | .error err => some ⟨sent, false, .returned (some (.unmarshal err))⟩
        | .ok response =>
          match stream.Send sent.length response with
          | some err => some ⟨sent, false, .returned (some (.external err))⟩
          | none => ParseLoop d fs request stream fuel (index + 1) (sent ++ [response])

/-- The handler `Parse`. -/
def Parse (d : Deps) (fs : Fs) (request : Parse_Request) (stream : Stream Parse_Response)
    (fuel : Nat) : Option (Run Parse_Response) :=
  ParseLoop d fs request stream fuel 0 []

/-- The function `filterLogResponses`; `none` stands for the pair
`(nil, false)` and `some r` for `(r, true)`. The configuration pointer is
not nil here: `Provision` has read `config.Directory` before the call. -/
def filterLogResponses (d : Deps) (config : Provision_Config)
    (response : Provision_Response) : Option Provision_Response :=
  match response with
  | .Log Level _ =>
    if config.ProvisionerLogLevel = "" then some response
    else
      let provisionerLogLevel := (d.LogLevel_value (d.ToUpper config.ProvisionerLogLevel)).getD 0
      if Level < provisionerLogLevel then none else some response
  | _ => some response

/-- The two candidate paths of index `i`: the transition-specific one
first, then the generic one. -/
def provisionPaths (d : Deps) (plan : Bool) (config : Provision_Config) (i : Nat) : List String :=
  [ d.Join config.Directory (transitionName d plan config.GetWorkspaceTransition i),
    d.Join config.Directory (defaultName plan i) ]

/-- The inner loop `for pathIndex, path = range paths`: the first path whose
`Stat` succeeds, or `none` when the last one fails too. -/
def firstExisting (fs : Fs) : List String → Option String
  | [] => none
  | path :: rest =>
    match fs.Stat path with
    | none => some path
    | some _ => firstExisting fs rest

/-- The rest of one iteration of the provision loop once `path` is chosen:
read, decode, filter and send. The result is either the end of the call or
the list of messages sent so far, with which the loop goes on. -/
def readAndSend (d : Deps) (fs : Fs) (config : Provision_Config)
    (stream : Stream Provision_Response) (path : String) (sent : List Provision_Response) :
    Run Provision_Response ⊕ List Provision_Response :=
  match fs.ReadFile path with
  | .error err => .inl ⟨sent, false, .returned (some (.readFile path err))⟩
  | .ok data =>
    match d.UnmarshalProvision data with
    | .error err => .inl ⟨sent, false, .returned (some (.unmarshal err))⟩
    | .ok response =>
      match filterLogResponses d config response with
      | none => .inr sent
      | some r =>
        match stream.Send sent.length r with
        | some err => .inl ⟨sent, false, .returned (some (.external err))⟩
        | none => .inr (sent ++ [r])

/-- The loop `outer` of `Provision` from index `i` on. -/
def ProvisionLoop (d : Deps) (fs : Fs) (plan : Bool) (config : Provision_Config)
    (stream : Stream Provision_Response) :
    Nat → Nat → List Provision_Response → Option (Run Provision_Response)
  | 0, _, _ => none
  | fuel + 1, i, sent =>
    match firstExisting fs (provisionPaths d plan config i) with
    | none =>
      if i = 0 then some ⟨sent, false, .returned (some .noState)⟩
      else some (awaitDone stream sent)
    | some path =>
      match readAndSend d fs config stream path sent with
      | .inl run => some run
      | .inr sent' => ProvisionLoop d fs plan config stream fuel (i + 1) sent'

/-- The handler `Provision`. A plan or an apply whose configuration pointer
is nil panics at `config.Directory`. -/
def Provision (d : Deps) (fs : Fs) (stream : ProvisionStream) (fuel : Nat) :
    Option (Run Provision_Response) :=
  match stream.Recv with
  | .error err => some ⟨[], false, .returned (some (.external err))⟩
  | .ok msg =>
    match msg with
    | .Plan config | .Apply config =>
      match config with
      | none => some ⟨[], false, .panicked⟩
      | some config => ProvisionLoop d fs msg.isPlan config stream.toStream fuel 0 []
    | _ => some ⟨[], false, .returned none⟩

/-- A Go slice value: `none` is the nil slice. -/
abbrev Slice (α : Type) := Option (List α)

/-- The elements a `range` over the slice visits. -/
def Slice.elems {α : Type} : Slice α → List α
  | none => []
  | some xs => xs

/-- The struct `Responses`. A map is the list of its key/value pairs in the
order in which `range` visits them. -/
structure Responses where
  Parse : Slice Parse_Response
  ProvisionApply : Slice Provision_Response
  ProvisionPlan : Slice Provision_Response
  ProvisionApplyMap : List (Int × List Provision_Response)
  ProvisionPlanMap : List (Int × List Provision_Response)
  deriving DecidableEq, Repr

/-- The helper `ParseComplete`. -/
def ParseComplete : List Parse_Response := [.Complete ""]

/-- The helper `ProvisionComplete`. -/
def ProvisionComplete : List Provision_Response := [.Complete ""]

/-- A tar archive: its entries in the order in which they were written. -/
abbrev Archive := List (String × Bytes)

/-- The closure `writeProto`: serialise the message and append the entry. -/
def writeProto {M : Type} (Marshal : M → Except ExtError Bytes) (writer : Archive)
    (name : String) (message : M) : Except Error Archive :=
  match Marshal message with
  | .error err => .error (.external err)
  | .ok data => .ok (writer ++ [(name, data)])

/-- One loop `for index, response := range ...` of `Tar`, from `index` on. -/
def writeAll {M : Type} (Marshal : M → Except ExtError Bytes) (name : Nat → String) :
    Nat → List M → Archive → Except Error Archive
  | _, [], writer => .ok writer
  | index, response :: rest, writer =>
    match writeProto Marshal writer (name index) response with
    | .error err => .error err
    | .ok writer' => writeAll Marshal name (index + 1) rest writer'

/-- One loop `for trans, m := range ...` of `Tar` over a transition map. -/
def writeMap (d : Deps) (plan : Bool) :
    List (Int × List Provision_Response) → Archive → Except Error Archive
  | [], writer => .ok writer
  | (transition, m) :: rest, writer =>
    match writeAll d.MarshalProvision (transitionName d plan transition) 0 m writer with
    | .error err => .error err
    | .ok writer' => writeMap d plan rest writer'

/-- The outcome of `Tar`: the struct behind the caller's pointer after the
call (`none` for a nil pointer) and the returned pair. -/
structure TarResult where
  responses : Option Responses
  ret : Except Error Archive

/-- The first two statements of `Tar`: the default set for a nil pointer,
then the plan sequence defaulted to the apply sequence. -/
def tarDefaults (responses : Option Responses) : Responses :=
  let r : Responses :=
    match responses with
    | none => ⟨some ParseComplete, some ProvisionComplete, some ProvisionComplete, [], []⟩
    | some r => r
  if r.ProvisionPlan = none then { r with ProvisionPlan := r.ProvisionApply } else r

/-- The five loops of `Tar` over the struct `r`. -/
def tarWrite (d : Deps) (r : Responses) : Except Error Archive :=
  match writeAll d.MarshalParse parseName 0 r.Parse.elems [] with
  | .error err => .error err
  | .ok w1 =>
    match writeAll d.MarshalProvision (defaultName false) 0 r.ProvisionApply.elems w1 with
    | .error err => .error err
    | .ok w2 =>
      match writeAll d.MarshalProvision (defaultName true) 0 r.ProvisionPlan.elems w2 with
      | .error err => .error err
      | .ok w3 =>
        match writeMap d false r.ProvisionApplyMap w3 with
        | .error err => .error err
        | .ok w4 => writeMap d true r.ProvisionPlanMap w4

/-- The function `Tar`. The assignment to `responses.ProvisionPlan` goes
through the caller's pointer when that pointer is not nil. -/
def Tar (d : Deps) (responses : Option Responses) : TarResult :=
  { responses := responses.map (fun _ => tarDefaults responses)
    ret := tarWrite d (tarDefaults responses) }


/-- The entry the archive holds under `name` once it is unpacked: a later
entry replaces an earlier one of the same name. -/
def Archive.lookup : Archive → String → Option Bytes
  | [], _ => none
  | (n, data) :: rest, name =>
    match Archive.lookup rest name with
    | some later => some later
    | none => if n = name then some data else none

/-- The key of a store entry: the operation kind, the transition tag (absent
for a parse entry and for an entry of a default sequence) and the index. -/
inductive EntryKey where
  | parse (index : Nat)
  | generic (plan : Bool) (index : Nat)
  | specific (plan : Bool) (transition : Int) (index : Nat)
  deriving DecidableEq, Repr

/-- The entry name `Tar` writes, and the handlers look up, for a key. -/
def EntryKey.name (d : Deps) : EntryKey → String
  | .parse index => parseName index
  | .generic plan index => defaultName plan index
  | .specific plan transition index => transitionName d plan transition index

/-- The file system `fs` holds the entries of `archive` as the files of the
directory `dir`: for every entry key, the file `Join dir name` of its name
exists with the content the archive has under that name, and does not exist
when the archive has no entry of that name. Only entry names are
constrained, the names `Tar` writes and the handlers ask for; the file
system may hold anything else. -/
def Extracted (d : Deps) (fs : Fs) (dir : String) (archive : Archive) : Prop :=
  ∀ key : EntryKey,
    match archive.lookup (key.name d) with
    | some data =>
      fs.Stat (d.Join dir (key.name d)) = none ∧
        fs.ReadFile (d.Join dir (key.name d)) = .ok data
    | none => fs.Stat (d.Join dir (key.name d)) ≠ none

/-- A file system whose files are the entries of an archive, each under its
own name. -/
def Fs.ofArchive (archive : Archive) : Fs where
  Stat path :=
    match archive.lookup path with
    | some _ => none
    | none => some "file does not exist"
  ReadFile path :=
    match archive.lookup path with
    | some data => .ok data
    | none => .error "file does not exist"

/-- A stream on which every `Send` succeeds and whose context is cancelled
with the error `err`. -/
def Stream.reliable (R : Type) (err : Option ExtError) : Stream R where
  Send _ _ := none
  Context := ⟨true, err⟩

/-- Sample codec: a string as the list of its character codes. -/
def encodeString (s : String) : Bytes := s.data.map Char.toNat

/-- Sample codec: the string with the given character codes. -/
def decodeString (b : Bytes) : String := String.mk (b.map Char.ofNat)

/-- Sample codec for provision responses: a tag followed by the fields. -/
def sampleMarshalProvision : Provision_Response → Except ExtError Bytes
  | .Unset => .ok [0]
  | .Log Level Output =>
    .ok (1 :: (if Level < 0 then 1 else 0) :: Level.natAbs :: encodeString Output)
  | .Complete payload => .ok (2 :: encodeString payload)

/-- Sample codec for provision responses: the decoder. -/
def sampleUnmarshalProvision : Bytes → Except ExtError Provision_Response
  | [0] => .ok .Unset
  | 1 :: sign :: n :: rest =>
    .ok (.Log (if sign = 1 then -(n : Int) else (n : Int)) (decodeString rest))
  | 2 :: rest => .ok (.Complete (decodeString rest))
  | _ => .error "proto: cannot parse invalid wire-format data"

/-- Sample codec for parse responses: a tag followed by the fields. -/
def sampleMarshalParse : Parse_Response → Except ExtError Bytes
  | .Unset => .ok [0]
  | .Log Level Output =>
    .ok (1 :: (if Level < 0 then 1 else 0) :: Level.natAbs :: encodeString Output)
  | .Complete payload => .ok (2 :: encodeString payload)

/-- Sample codec for parse responses: the decoder. -/
def sampleUnmarshalParse : Bytes → Except ExtError Parse_Response
  | [0] => .ok .Unset
  | 1 :: sign :: n :: rest =>
    .ok (.Log (if sign = 1 then -(n : Int) else (n : Int)) (decodeString rest))
  | 2 :: rest => .ok (.Complete (decodeString rest))
  | _ => .error "proto: cannot parse invalid wire-format data"

/-- Modelled from the spec: one instance of the declarations outside the
sources, used to evaluate the definitions on concrete inputs. The
transitions are start, stop and destroy (numbers 0, 1, 2; any other number
prints in decimal), the log levels are TRACE to ERROR (0 to 4), the case
mappings act on ASCII letters, and `Join` puts a slash between a non-empty
directory and the name. -/
def sampleDeps : Deps where
  Join dir name := if dir = "" then name else dir ++ "/" ++ name
  ToLower s := String.mk (s.data.map Char.toLower)
  ToUpper s := String.mk (s.data.map Char.toUpper)
  TransitionString t :=
    if t = 0 then "START" else if t = 1 then "STOP" else if t = 2 then "DESTROY"
    else toString t
  LogLevel_value s :=
    if s = "TRACE" then some 0 else if s = "DEBUG" then some 1 else if s = "INFO" then some 2
    else if s = "WARN" then some 3 else if s = "ERROR" then some 4 else none
  MarshalParse := sampleMarshalParse
  UnmarshalParse := sampleUnmarshalParse
  MarshalProvision := sampleMarshalProvision
  UnmarshalProvision := sampleUnmarshalProvision

/-- The value of a decimal digit character. -/
def digitValue (c : Char) : Nat := c.toNat - 48

/-- The number a list of decimal digit characters writes. -/
def decimalValue (cs : List Char) : Nat := cs.foldl (fun acc c => acc * 10 + digitValue c) 0

/-- The last fifteen characters of a name, last first: they tell the three
kinds of entry apart. -/
def kindTag (name : String) : List Char := name.data.reverse.take 15

/-- The tag of the provision names of a kind. -/
def provisionTag (plan : Bool) : List Char :=
  if plan then "n.plan.protobuf".data.reverse else ".apply.protobuf".data.reverse

/-- The bytes `Marshal` gives for a message that serialises (the empty
content stands in for a message that does not). -/
def serialized {M : Type} (Marshal : M → Except ExtError Bytes) (m : M) : Bytes :=
  match Marshal m with
  | .ok data => data
  | .error _ => []

/-- One entry for each response of a sequence: the response at position `k`
is stored under `name (start + k)`, and the entry holds its serialisation. -/
def entriesFrom {M : Type} (Marshal : M → Except ExtError Bytes) (name : Nat → String)
    (start : Nat) (msgs : List M) : Archive :=
  (msgs.enumFrom start).map (fun p => (name p.1, serialized Marshal p.2))

/-- The entries of the transition map of one kind: for each transition, one
entry for each response of its sequence. -/
def mapEntries (d : Deps) (plan : Bool) (m : List (Int × List Provision_Response)) : Archive :=
  (m.map (fun p => entriesFrom d.MarshalProvision (transitionName d plan p.1) 0 p.2)).flatten

/-- The catalog the specification describes for a response set. -/
def catalog (d : Deps) (r : Responses) : Archive :=
  entriesFrom d.MarshalParse parseName 0 r.Parse.elems
    ++ entriesFrom d.MarshalProvision (defaultName false) 0 r.ProvisionApply.elems
    ++ entriesFrom d.MarshalProvision (defaultName true) 0 r.ProvisionPlan.elems
    ++ mapEntries d false r.ProvisionApplyMap
    ++ mapEntries d true r.ProvisionPlanMap

/-- Every message of the list serialises. -/
def AllSerialize {M : Type} (Marshal : M → Except ExtError Bytes) (msgs : List M) : Prop :=
  ∀ m ∈ msgs, ∃ data, Marshal m = .ok data

/-- Every message of the response set serialises. -/
def Serializes (d : Deps) (r : Responses) : Prop :=
  AllSerialize d.MarshalParse r.Parse.elems ∧
  AllSerialize d.MarshalProvision r.ProvisionApply.elems ∧
  AllSerialize d.MarshalProvision r.ProvisionPlan.elems ∧
  (∀ p ∈ r.ProvisionApplyMap, AllSerialize d.MarshalProvision p.2) ∧
  (∀ p ∈ r.ProvisionPlanMap, AllSerialize d.MarshalProvision p.2)

/-- The plan sequence of a response set: the apply sequence when no plan
sequence is given. -/
def planSequence (r : Responses) : List Provision_Response :=
  match r.ProvisionPlan with
  | none => r.ProvisionApply.elems
  | some plan => plan

deriving instance DecidableEq for Except

/-- A response set with a low-severity log in its apply sequence. -/
def loggedResponses : Responses :=
  ⟨some [.Complete "parsed"], some [.Log 0 "trace line", .Complete "applied"],
    some [.Complete "planned"], [], []⟩

/-- The archive `Tar` writes for `loggedResponses` under the sample codec. -/
def loggedArchive : Archive :=
  [("0.parse.protobuf", 2 :: encodeString "parsed"),
   ("0.provision.apply.protobuf", 1 :: 0 :: 0 :: encodeString "trace line"),
   ("1.provision.apply.protobuf", 2 :: encodeString "applied"),
   ("0.provision.plan.protobuf", 2 :: encodeString "planned")]

/-- A response set without logs and without a plan sequence. -/
def plainResponses : Responses :=
  ⟨some [.Complete "parsed"], some [.Complete "first", .Complete "second"], none, [], []⟩

/-- The archive `Tar` writes for `plainResponses` under the sample codec. -/
def plainArchive : Archive :=
  [("0.parse.protobuf", 2 :: encodeString "parsed"),
   ("0.provision.apply.protobuf", 2 :: encodeString "first"),
   ("1.provision.apply.protobuf", 2 :: encodeString "second"),
   ("0.provision.plan.protobuf", 2 :: encodeString "first"),
   ("1.provision.plan.protobuf", 2 :: encodeString "second")]

/-- A response set with a default apply sequence and a shorter sequence for
the start transition. -/
def overrideResponses : Responses :=
  ⟨some [.Complete "parsed"], some [.Complete "default 0", .Complete "default 1"], none,
    [(0, [.Complete "start 0"])], []⟩

/-- The archive `Tar` writes for `overrideResponses` under the sample codec. -/
def overrideArchive : Archive :=
  [("0.parse.protobuf", 2 :: encodeString "parsed"),
   ("0.provision.apply.protobuf", 2 :: encodeString "default 0"),
   ("1.provision.apply.protobuf", 2 :: encodeString "default 1"),
   ("0.provision.plan.protobuf", 2 :: encodeString "default 0"),
   ("1.provision.plan.protobuf", 2 :: encodeString "default 1"),
   ("0.start.provision.apply.protobuf", 2 :: encodeString "start 0")]

/-- A response set whose apply sequence starts with a debug log and that has
no plan sequence. -/
def debugResponses : Responses :=
  ⟨some [.Complete "parsed"], some [.Log 1 "debug line", .Complete "done"], none, [], []⟩

/-- The archive `Tar` writes for `debugResponses` under the sample codec. -/
def debugArchive : Archive :=
  [("0.parse.protobuf", 2 :: encodeString "parsed"),
   ("0.provision.apply.protobuf", 1 :: 0 :: 1 :: encodeString "debug line"),
   ("1.provision.apply.protobuf", 2 :: encodeString "done"),
   ("0.provision.plan.protobuf", 1 :: 0 :: 1 :: encodeString "debug line"),
   ("1.provision.plan.protobuf", 2 :: encodeString "done")]

/-- A store that holds entries at index 1 only, for each operation. -/
def laterOnlyArchive : Archive :=
  [("1.parse.protobuf", 2 :: encodeString "parsed"),
   ("1.provision.apply.protobuf", 2 :: encodeString "applied"),
   ("1.provision.plan.protobuf", 2 :: encodeString "planned"),
   ("1.start.provision.apply.protobuf", 2 :: encodeString "started")]

/-- A provision configuration for the start transition in the directory of
the sample stores, without a log-level threshold. -/
def startConfig : Provision_Config := ⟨"", some ⟨0⟩, ""⟩

/-- A provision configuration with the threshold "warn". -/
def warnConfig : Provision_Config := ⟨"", none, "warn"⟩

/-- The default response set `Tar` builds for a nil pointer. -/
def defaultResponses : Responses :=
  ⟨some ParseComplete, some ProvisionComplete, some ProvisionComplete, [], []⟩

/-- A stream whose context is cancelled with an error and on which every
`Send` succeeds. -/
def cancelledStream (R : Type) : Stream R := Stream.reliable R (some "context canceled")

/-- The content of the file at `path`, decoded: the outcome of `ReadFile`
followed by `Unmarshal` when both succeed. -/
def decodeFile {M : Type} (fs : Fs) (Unmarshal : Bytes → Except ExtError M) (path : String) :
    Except ExtError M :=
  match fs.ReadFile path with
  | .error err => .error err
  | .ok data => Unmarshal data

/-- The store holds the parse entries of the indices below `msgs.length`,
they decode to `msgs`, and the stream accepts each of them in turn. -/
def ParseResolves (d : Deps) (fs : Fs) (request : Parse_Request) (stream : Stream Parse_Response)
    (msgs : List Parse_Response) : Prop :=
  ∀ i, (h : i < msgs.length) →
    fs.Stat (d.Join request.Directory (parseName i)) = none ∧
    decodeFile fs d.UnmarshalParse (d.Join request.Directory (parseName i)) = .ok msgs[i] ∧
    stream.Send i msgs[i] = none

/-- The messages of `msgs` that pass the log filter of the request. -/
def kept (d : Deps) (config : Provision_Config) (msgs : List Provision_Response) :
    List Provision_Response :=
  msgs.filter (fun m => (filterLogResponses d config m).isSome)

/-- The entry the provision loop resolves at index `i`, decoded: `none`
when neither name exists. -/
def resolved (d : Deps) (fs : Fs) (plan : Bool) (config : Provision_Config) (i : Nat) :
    Option (Except ExtError Provision_Response) :=
  (firstExisting fs (provisionPaths d plan config i)).map
    (decodeFile fs d.UnmarshalProvision)

/-- The store resolves the indices below `msgs.length` for the request, the
resolved entries decode to `msgs`, and the stream accepts each message that
passes the filter, in turn. -/
def ProvisionResolves (d : Deps) (fs : Fs) (plan : Bool) (config : Provision_Config)
    (stream : Stream Provision_Response) (msgs : List Provision_Response) : Prop :=
  ∀ i, (h : i < msgs.length) →
    resolved d fs plan config i = some (.ok msgs[i]) ∧
    ((filterLogResponses d config msgs[i]).isSome = true →
      stream.Send (kept d config (msgs.take i)).length msgs[i] = none)

/-- Whether a store and a stream carry a given parse sequence can be
checked index by index. -/
instance (d : Deps) (fs : Fs) (request : Parse_Request) (stream : Stream Parse_Response)
    (msgs : List Parse_Response) : Decidable (ParseResolves d fs request stream msgs) := by
  unfold ParseResolves
  infer_instance

/-- Whether a store and a stream carry a given provision sequence can be
checked index by index. -/
instance (d : Deps) (fs : Fs) (plan : Bool) (config : Provision_Config)
    (stream : Stream Provision_Response) (msgs : List Provision_Response) :
    Decidable (ProvisionResolves d fs plan config stream msgs) := by
  unfold ProvisionResolves
  infer_instance

/-- The type assertion `response.Type.(*proto.Provision_Response_Log)`. -/
def Provision_Response.isLog : Provision_Response → Bool
  | .Log _ _ => true
  | _ => false

/-- The messages of a sequence that are not logs. -/
def nonLogs (msgs : List Provision_Response) : List Provision_Response :=
  msgs.filter (fun m => !m.isLog)

/-- The keys of the responses of a transition map of one kind. -/
def mapKeys (plan : Bool) (m : List (Int × List Provision_Response)) : List EntryKey :=
  (m.map (fun p => (List.range p.2.length).map (EntryKey.specific plan p.1))).flatten

/-- The keys of the responses of a response set, in the order of `catalog`. -/
def responseKeys (r : Responses) : List EntryKey :=
  (List.range r.Parse.elems.length).map EntryKey.parse
    ++ (List.range r.ProvisionApply.elems.length).map (EntryKey.generic false)
    ++ (List.range r.ProvisionPlan.elems.length).map (EntryKey.generic true)
    ++ mapKeys false r.ProvisionApplyMap
    ++ mapKeys true r.ProvisionPlanMap

/-- The characters of a decimal numeral, with or without sign. -/
def numeralChar (c : Char) : Prop := c = '-' ∨ ∃ k, k < 10 ∧ c = Nat.digitChar k

/-- A file system in which every path exists and only the two entries of
index 0 can be read. -/
def unreadableFs : Fs where
  Stat _ := none
  ReadFile path :=
    if path = "0.parse.protobuf" ∨ path = "0.start.provision.apply.protobuf"
    then .ok (2 :: encodeString "first") else .error "input/output error"

/-- A store whose entries of index 1 do not decode. -/
def garbledArchive : Archive :=
  [("0.parse.protobuf", 2 :: encodeString "parsed"), ("1.parse.protobuf", [7]),
   ("0.provision.apply.protobuf", 2 :: encodeString "first"),
   ("1.provision.apply.protobuf", [7])]

/-- A stream on which the `Send` made after `n` earlier ones fails. -/
def brokenStream (R : Type) (n : Nat) : Stream R where
  Send k _ := if k = n then some "broken pipe" else none
  Context := ⟨true, none⟩

/-- The file system `fs` without the file `gone`. -/
def Fs.without (fs : Fs) (gone : String) : Fs where
  Stat path := if path = gone then some "file does not exist" else fs.Stat path
  ReadFile path := if path = gone then .error "file does not exist" else fs.ReadFile path

/-- A store whose parse sequence starts with a trace log. -/
def loggedParseArchive : Archive :=
  [("0.parse.protobuf", 1 :: 0 :: 0 :: encodeString "trace line"),
   ("1.parse.protobuf", 2 :: encodeString "parsed")]

/-- A provision configuration with the threshold "debug". -/
def debugConfig : Provision_Config := ⟨"", none, "debug"⟩

/-- The log-level filter in the words of the specification: a log response
is suppressed when the threshold is not empty and the level of the log is
strictly below the level the threshold names (0 for a string that names no
level); a response that is not a log is never suppressed. -/
def suppresses (d : Deps) (config : Provision_Config) : Provision_Response → Bool
  | .Log level _ =>
    decide (config.ProvisionerLogLevel ≠ "" ∧
      level < (d.LogLevel_value (d.ToUpper config.ProvisionerLogLevel)).getD 0)
  | _ => false

/-- The file system obtained by unpacking an archive into the directory
`dir`: each entry is written to `Join dir name`, a later entry replacing an
earlier one at the same path; there is no other file. -/
def Fs.unpack (d : Deps) (dir : String) (archive : Archive) : Fs :=
  Fs.ofArchive (archive.map (fun entry => (d.Join dir entry.1, entry.2)))

/-- In the directory `dir`, `Join` sends different entry names to different
paths. -/
def JoinKeepsNames (d : Deps) (dir : String) : Prop :=
  ∀ key other : EntryKey,
    d.Join dir (key.name d) = d.Join dir (other.name d) → key.name d = other.name d

/-- The elements of a slash-separated path. -/
def splitSlash : List Char → List (List Char)
  | [] => [[]]
  | c :: rest =>
    if c = '/' then [] :: splitSlash rest
    else
      match splitSlash rest with
      | [] => [[c]]
      | first :: others => (c :: first) :: others

/-- The elements that `Clean` keeps, given those already kept (last first):
empty and `.` elements go, a `..` element removes the element before it, is
dropped at the root and is kept at the start of a path that is not rooted. -/
def cleanParts (rooted : Bool) : List (List Char) → List (List Char) → List (List Char)
  | [], kept => kept.reverse
  | part :: rest, kept =>
    if part = [] ∨ part = ['.'] then cleanParts rooted rest kept
    else if part = ['.', '.'] then
      match kept with
      | last :: before =>
        if last = ['.', '.'] then cleanParts rooted rest (part :: kept)
        else cleanParts rooted rest before
      | [] => if rooted then cleanParts rooted rest [] else cleanParts rooted rest [part]
    else cleanParts rooted rest (part :: kept)

/-- The elements joined by slashes. -/
def joinSlash : List (List Char) → List Char
  | [] => []
  | [part] => part
  | part :: rest => part ++ '/' :: joinSlash rest

/-- The function `Clean` of Go's `path/filepath` on slash-separated paths. -/
def filepathClean (path : List Char) : List Char :=
  if path = [] then ['.']
  else
    let rooted := path.head? = some '/'
    let body := joinSlash (cleanParts rooted (splitSlash path) [])
    if rooted then '/' :: body else if body = [] then ['.'] else body

/-- The function `Join` of Go's `path/filepath` on a directory and a name,
for slash-separated paths: the two are joined by a slash, an empty directory
being left out, and the result is cleaned. -/
def filepathJoin (dir name : String) : String :=
  if dir = "" then (if name = "" then "" else String.mk (filepathClean name.data))
  else String.mk (filepathClean (dir.data ++ '/' :: name.data))

/-- The sample declarations with a `Join` that cleans paths as
`filepath.Join` does. -/
def unixDeps : Deps := { sampleDeps with Join := filepathJoin }

/-- One entry for each response of a sequence, in the words of the
specification: the response at index `i` is stored under `label i` and the
entry holds its serialisation. -/
def specEntries {M : Type} (Marshal : M → Except ExtError Bytes) (label : Nat → String)
    (msgs : List M) : Archive :=
  msgs.enum.map (fun p => (label p.1, serialized Marshal p.2))

/-- The catalog the specification describes for a response set, with the
entry names spelled as the specification spells them: `{i}.parse.protobuf`,
`{i}.provision.apply.protobuf`, `{i}.provision.plan.protobuf`, and for the
transition maps `{i}.{t}.provision.apply.protobuf` and
`{i}.{t}.provision.plan.protobuf` with `t` the lower-cased transition name. -/
def specCatalog (d : Deps) (r : Responses) : Archive :=
  specEntries d.MarshalParse (fun i => toString i ++ ".parse.protobuf") r.Parse.elems
    ++ specEntries d.MarshalProvision (fun i => toString i ++ ".provision.apply.protobuf")
        r.ProvisionApply.elems
    ++ specEntries d.MarshalProvision (fun i => toString i ++ ".provision.plan.protobuf")
        r.ProvisionPlan.elems
    ++ (r.ProvisionApplyMap.map (fun p => specEntries d.MarshalProvision
          (fun i => toString i ++ "." ++ d.ToLower (d.TransitionString p.1)
            ++ ".provision.apply.protobuf") p.2)).flatten
    ++ (r.ProvisionPlanMap.map (fun p => specEntries d.MarshalProvision
          (fun i => toString i ++ "." ++ d.ToLower (d.TransitionString p.1)
            ++ ".provision.plan.protobuf") p.2)).flatten

/-- A response set with a default apply sequence of three responses and two
transition-specific apply sequences: one response for the stop transition,
and a debug log followed by a completion for the start transition. -/
def mixedResponses : Responses :=
  ⟨some [.Complete "parsed"],
    some [.Complete "default 0", .Complete "default 1", .Complete "default 2"], none,
    [(1, [.Complete "stop 0"]), (0, [.Log 1 "start log", .Complete "start 1"])], []⟩

/-- The archive `Tar` writes for `mixedResponses` under the sample codec. -/
def mixedArchive : Archive :=
  [("0.parse.protobuf", 2 :: encodeString "parsed"),
   ("0.provision.apply.protobuf", 2 :: encodeString "default 0"),
   ("1.provision.apply.protobuf", 2 :: encodeString "default 1"),
   ("2.provision.apply.protobuf", 2 :: encodeString "default 2"),
   ("0.provision.plan.protobuf", 2 :: encodeString "default 0"),
   ("1.provision.plan.protobuf", 2 :: encodeString "default 1"),
   ("2.provision.plan.protobuf", 2 :: encodeString "default 2"),
   ("0.stop.provision.apply.protobuf", 2 :: encodeString "stop 0"),
   ("0.start.provision.apply.protobuf", 1 :: 0 :: 1 :: encodeString "start log"),
   ("1.start.provision.apply.protobuf", 2 :: encodeString "start 1")]

/-- A request configuration for the directory `/tmp/echo`: no metadata, the
threshold "warn". -/
def echoWarnConfig : Provision_Config := ⟨"/tmp/echo", none, "warn"⟩

/-- A request configuration for the directory `/tmp/echo`: the start
transition, the threshold "warn". -/
def echoStartConfig : Provision_Config := ⟨"/tmp/echo", some ⟨0⟩, "warn"⟩

/-! ## Lemmas -/

theorem digitChar_value (n : Nat) (h : n < 10) : digitValue (Nat.digitChar n) = n := by
  interval_cases n <;> rfl

theorem digitChar_ne_dot (n : Nat) (h : n < 10) : Nat.digitChar n ≠ '.' := by
  interval_cases n <;> decide

theorem toDigitsCore_spec : ∀ (fuel n : Nat) (ds : List Char), n < fuel →
    ∃ xs : List Char, Nat.toDigitsCore 10 fuel n ds = xs ++ ds ∧ decimalValue xs = n ∧
      ∀ c ∈ xs, c ≠ '.' := by
  intro fuel
  induction fuel with
  | zero => intro n ds h; omega
  | succ fuel ih =>
    intro n ds h
    have hmod : n % 10 < 10 := Nat.mod_lt _ (by decide)
    by_cases hq : n / 10 = 0
    · refine ⟨[Nat.digitChar (n % 10)], ?_, ?_, ?_⟩
      · simp [Nat.toDigitsCore, hq]
      · have hv := digitChar_value _ hmod
        simp only [decimalValue, List.foldl, Nat.zero_mul, Nat.zero_add, hv]
        omega
      · intro c hc
        simp at hc
        subst hc
        exact digitChar_ne_dot _ hmod
    · obtain ⟨xs, hxs, hval, hdot⟩ := ih (n / 10) (Nat.digitChar (n % 10) :: ds) (by omega)
      refine ⟨xs ++ [Nat.digitChar (n % 10)], ?_, ?_, ?_⟩
      · simp [Nat.toDigitsCore, hq, hxs]
      · unfold decimalValue at hval ⊢
        rw [List.foldl_append, hval]
        simp [digitChar_value _ hmod]
        omega
      · intro c hc
        simp at hc
        rcases hc with hc | hc
        · exact hdot c hc
        · subst hc
          exact digitChar_ne_dot _ hmod

theorem toString_nat_data (n : Nat) : (toString n).data = Nat.toDigits 10 n := rfl

theorem toString_nat_value (n : Nat) : decimalValue (toString n).data = n := by
  obtain ⟨xs, hxs, hval, -⟩ := toDigitsCore_spec (n + 1) n [] (by omega)
  rw [toString_nat_data, Nat.toDigits, hxs]
  simpa using hval

theorem toString_nat_no_dot (n : Nat) : '.' ∉ (toString n).data := by
  obtain ⟨xs, hxs, -, hdot⟩ := toDigitsCore_spec (n + 1) n [] (by omega)
  rw [toString_nat_data, Nat.toDigits, hxs]
  intro h
  simp at h
  exact hdot _ h rfl

theorem toString_nat_injective {i j : Nat} (h : (toString i).data = (toString j).data) : i = j := by
  have := congrArg decimalValue h
  simpa [toString_nat_value] using this

theorem parseName_data (i : Nat) :
    (parseName i).data = (toString i).data ++ ".parse.protobuf".data := by
  simp [parseName, String.data_append]

theorem defaultName_data (plan : Bool) (i : Nat) :
    (defaultName plan i).data
      = (toString i).data ++ (".provision".data ++ (extension plan).data) := by
  simp [defaultName, String.data_append]

theorem transitionName_data (d : Deps) (plan : Bool) (t : Int) (i : Nat) :
    (transitionName d plan t i).data
      = ((toString i).data ++ '.' :: (d.ToLower (d.TransitionString t)).data)
          ++ (".provision".data ++ (extension plan).data) := by
  simp [transitionName, String.data_append]

theorem kindTag_of_suffix (xs suffix : List Char) (name : String)
    (h : name.data = xs ++ suffix) (hlen : 15 ≤ suffix.length) :
    kindTag name = suffix.reverse.take 15 := by
  unfold kindTag
  rw [h, List.reverse_append, List.take_append_of_le_length (by simpa using hlen)]

theorem kindTag_parseName (i : Nat) :
    kindTag (parseName i) = ".parse.protobuf".data.reverse :=
  kindTag_of_suffix _ _ _ (parseName_data i) (by decide)

theorem kindTag_defaultName (plan : Bool) (i : Nat) :
    kindTag (defaultName plan i) = provisionTag plan := by
  rw [kindTag_of_suffix _ _ _ (defaultName_data plan i) (by cases plan <;> decide)]
  cases plan <;> decide

theorem kindTag_transitionName (d : Deps) (plan : Bool) (t : Int) (i : Nat) :
    kindTag (transitionName d plan t i) = provisionTag plan := by
  rw [kindTag_of_suffix _ _ _ (transitionName_data d plan t i) (by cases plan <;> decide)]
  cases plan <;> decide

theorem parseName_injective {i j : Nat} (h : parseName i = parseName j) : i = j := by
  have h2 := congrArg String.data h
  rw [parseName_data, parseName_data] at h2
  exact toString_nat_injective (List.append_cancel_right h2)

theorem defaultName_injective {plan : Bool} {i j : Nat}
    (h : defaultName plan i = defaultName plan j) : i = j := by
  have h2 := congrArg String.data h
  rw [defaultName_data, defaultName_data] at h2
  exact toString_nat_injective (List.append_cancel_right h2)

theorem transitionName_injective {d : Deps} {plan : Bool} {t : Int} {i j : Nat}
    (h : transitionName d plan t i = transitionName d plan t j) : i = j := by
  have h2 := congrArg String.data h
  rw [transitionName_data, transitionName_data] at h2
  have h3 := List.append_cancel_right h2
  exact toString_nat_injective (List.append_cancel_right h3)

theorem parseName_ne_defaultName (plan : Bool) (i j : Nat) :
    parseName i ≠ defaultName plan j := by
  intro h
  have := congrArg kindTag h
  rw [kindTag_parseName, kindTag_defaultName] at this
  revert this
  cases plan <;> decide

theorem parseName_ne_transitionName (d : Deps) (plan : Bool) (t : Int) (i j : Nat) :
    parseName i ≠ transitionName d plan t j := by
  intro h
  have := congrArg kindTag h
  rw [kindTag_parseName, kindTag_transitionName] at this
  revert this
  cases plan <;> decide

theorem defaultName_ne_of_kind {p q : Bool} (hpq : p ≠ q) (i j : Nat) :
    defaultName p i ≠ defaultName q j := by
  intro h
  have := congrArg kindTag h
  rw [kindTag_defaultName, kindTag_defaultName] at this
  revert this hpq
  cases p <;> cases q <;> decide

theorem transitionName_ne_defaultName (d : Deps) (p q : Bool) (t : Int) (i j : Nat) :
    transitionName d p t i ≠ defaultName q j := by
  intro h
  by_cases hpq : p = q
  · subst hpq
    have h2 := congrArg String.data h
    rw [transitionName_data, defaultName_data] at h2
    have h3 := List.append_cancel_right h2
    have hmem : '.' ∈ (toString j).data := by
      rw [← h3]
      simp
    exact toString_nat_no_dot j hmem
  · have := congrArg kindTag h
    rw [kindTag_transitionName, kindTag_defaultName] at this
    revert this hpq
    cases p <;> cases q <;> decide

theorem transitionName_ne_of_kind (d : Deps) {p q : Bool} (hpq : p ≠ q) (s t : Int) (i j : Nat) :
    transitionName d p s i ≠ transitionName d q t j := by
  intro h
  have := congrArg kindTag h
  rw [kindTag_transitionName, kindTag_transitionName] at this
  revert this hpq
  cases p <;> cases q <;> decide

theorem writeAll_ok_iff {M : Type} (Marshal : M → Except ExtError Bytes) (name : Nat → String) :
    ∀ (msgs : List M) (index : Nat) (writer result : Archive),
      writeAll Marshal name index msgs writer = .ok result ↔
        AllSerialize Marshal msgs ∧ result = writer ++ entriesFrom Marshal name index msgs := by
  intro msgs
  induction msgs with
  | nil =>
    intro index writer result
    simp [writeAll, AllSerialize, entriesFrom, eq_comm]
  | cons m rest ih =>
    intro index writer result
    cases hm : Marshal m with
    | error e =>
      simp [writeAll, writeProto, hm, AllSerialize]
    | ok data =>
      simp only [writeAll, writeProto, hm, ih]
      simp [AllSerialize, hm, entriesFrom, List.enumFrom_cons, serialized]

theorem writeMap_ok_iff (d : Deps) (plan : Bool) :
    ∀ (m : List (Int × List Provision_Response)) (writer result : Archive),
      writeMap d plan m writer = .ok result ↔
        (∀ p ∈ m, AllSerialize d.MarshalProvision p.2) ∧
          result = writer ++ mapEntries d plan m := by
  intro m
  induction m with
  | nil => intro writer result; simp [writeMap, mapEntries, eq_comm]
  | cons p rest ih =>
    intro writer result
    obtain ⟨t, seq⟩ := p
    simp only [writeMap]
    cases hw : writeAll d.MarshalProvision (transitionName d plan t) 0 seq writer with
    | error e =>
      have := (writeAll_ok_iff d.MarshalProvision (transitionName d plan t) seq 0 writer
        (writer ++ entriesFrom d.MarshalProvision (transitionName d plan t) 0 seq)).not.mp
        (by rw [hw]; simp)
      simp at this
      simp [this]
    | ok w =>
      obtain ⟨hs, rfl⟩ := (writeAll_ok_iff _ _ _ _ _ _).mp hw
      simp [ih, hs, mapEntries, List.append_assoc]

theorem tarWrite_ok_iff (d : Deps) (r : Responses) (archive : Archive) :
    tarWrite d r = .ok archive ↔ Serializes d r ∧ archive = catalog d r := by
  constructor
  · intro h
    unfold tarWrite at h
    split at h
    · cases h
    · rename_i w1 h1
      split at h
      · cases h
      · rename_i w2 h2
        split at h
        · cases h
        · rename_i w3 h3
          split at h
          · cases h
          · rename_i w4 h4
            obtain ⟨s1, rfl⟩ := (writeAll_ok_iff _ _ _ _ _ _).mp h1
            obtain ⟨s2, rfl⟩ := (writeAll_ok_iff _ _ _ _ _ _).mp h2
            obtain ⟨s3, rfl⟩ := (writeAll_ok_iff _ _ _ _ _ _).mp h3
            obtain ⟨s4, rfl⟩ := (writeMap_ok_iff _ _ _ _ _).mp h4
            obtain ⟨s5, rfl⟩ := (writeMap_ok_iff _ _ _ _ _).mp h
            exact ⟨⟨s1, s2, s3, s4, s5⟩, by simp [catalog]⟩
  · rintro ⟨⟨s1, s2, s3, s4, s5⟩, rfl⟩
    unfold tarWrite
    rw [(writeAll_ok_iff _ _ _ _ _ _).mpr ⟨s1, rfl⟩]
    simp only
    rw [(writeAll_ok_iff _ _ _ _ _ _).mpr ⟨s2, rfl⟩]
    simp only
    rw [(writeAll_ok_iff _ _ _ _ _ _).mpr ⟨s3, rfl⟩]
    simp only
    rw [(writeMap_ok_iff _ _ _ _ _).mpr ⟨s4, rfl⟩]
    simp only
    rw [(writeMap_ok_iff _ _ _ _ _).mpr ⟨s5, rfl⟩]
    simp [catalog]

theorem lookup_append (a b : Archive) (name : String) :
    Archive.lookup (a ++ b) name
      = match Archive.lookup b name with
        | some data => some data
        | none => Archive.lookup a name := by
  induction a with
  | nil =>
    simp only [List.nil_append, Archive.lookup]
    cases Archive.lookup b name <;> rfl
  | cons e rest ih =>
    obtain ⟨n, data⟩ := e
    show Archive.lookup ((n, data) :: (rest ++ b)) name = _
    simp only [Archive.lookup]
    rw [ih]
    cases Archive.lookup b name <;> simp

theorem lookup_entriesFrom_none {M : Type} (Marshal : M → Except ExtError Bytes)
    (name : Nat → String) (target : String) (h : ∀ i, name i ≠ target) :
    ∀ (msgs : List M) (start : Nat),
      Archive.lookup (entriesFrom Marshal name start msgs) target = none := by
  intro msgs
  induction msgs with
  | nil => intro start; rfl
  | cons m rest ih =>
    intro start
    simp only [entriesFrom, List.enumFrom_cons, List.map_cons, Archive.lookup]
    have := ih (start + 1)
    simp only [entriesFrom] at this
    rw [this]
    simp [h start]

theorem lookup_entriesFrom_before {M : Type} (Marshal : M → Except ExtError Bytes)
    (name : Nat → String) (hinj : ∀ i j, name i = name j → i = j) (target : Nat) :
    ∀ (msgs : List M) (start : Nat), target < start →
      Archive.lookup (entriesFrom Marshal name start msgs) (name target) = none := by
  intro msgs
  induction msgs with
  | nil => intro start _; rfl
  | cons m rest ih =>
    intro start hs
    simp only [entriesFrom, List.enumFrom_cons, List.map_cons, Archive.lookup]
    have hrest := ih (start + 1) (by omega)
    simp only [entriesFrom] at hrest
    rw [hrest]
    have hne : name start ≠ name target := by
      intro h
      have := hinj _ _ h
      omega
    simp [hne]

theorem lookup_entriesFrom {M : Type} (Marshal : M → Except ExtError Bytes)
    (name : Nat → String) (hinj : ∀ i j, name i = name j → i = j) :
    ∀ (msgs : List M) (start k : Nat),
      Archive.lookup (entriesFrom Marshal name start msgs) (name (start + k))
        = (msgs[k]?).map (serialized Marshal) := by
  intro msgs
  induction msgs with
  | nil => intro start k; rfl
  | cons m rest ih =>
    intro start k
    simp only [entriesFrom, List.enumFrom_cons, List.map_cons, Archive.lookup]
    cases k with
    | zero =>
      have hnone := lookup_entriesFrom_before Marshal name hinj start rest (start + 1) (by omega)
      simp only [entriesFrom] at hnone
      simp [hnone]
    | succ k =>
      have hrest := ih (start + 1) k
      simp only [entriesFrom] at hrest
      have hidx : start + (k + 1) = start + 1 + k := by omega
      rw [hidx, hrest]
      cases hk : rest[k]? with
      | none =>
        have hne : name start ≠ name (start + 1 + k) := by
          intro h
          have := hinj _ _ h
          omega
        simp [hne, hk]
      | some x => simp [hk]

theorem firstExisting_pair (fs : Fs) (p q : String) :
    firstExisting fs [p, q] =
      if fs.Stat p = none then some p else if fs.Stat q = none then some q else none := by
  unfold firstExisting
  cases hp : fs.Stat p with
  | none => simp
  | some e =>
    simp only [firstExisting]
    cases hq : fs.Stat q <;> simp

theorem readAndSend_ne_noState (d : Deps) (fs : Fs) (config : Provision_Config)
    (stream : Stream Provision_Response) (path : String) (sent : List Provision_Response)
    (run : Run Provision_Response) (h : readAndSend d fs config stream path sent = .inl run) :
    run.ret ≠ .returned (some .noState) := by
  unfold readAndSend at h
  split at h
  · simp at h; subst h; simp
  · split at h
    · simp at h; subst h; simp
    · split at h
      · simp at h
      · split at h
        · simp at h; subst h; simp
        · simp at h

/-- The loop of `Provision` never builds the "no state" error past index 0. -/
theorem ProvisionLoop_ne_noState (d : Deps) (fs : Fs) (plan : Bool) (config : Provision_Config)
    (stream : Stream Provision_Response) :
    ∀ (fuel i : Nat) (sent : List Provision_Response) (run : Run Provision_Response),
      0 < i → ProvisionLoop d fs plan config stream fuel i sent = some run →
      run.ret ≠ .returned (some .noState) := by
  intro fuel
  induction fuel with
  | zero => intro i sent run _ h; simp [ProvisionLoop] at h
  | succ fuel ih =>
    intro i sent run hi h
    unfold ProvisionLoop at h
    cases hp : firstExisting fs (provisionPaths d plan config i) with
    | none =>
      rw [hp] at h
      simp only [if_neg (Nat.pos_iff_ne_zero.mp hi)] at h
      cases h
      unfold awaitDone
      split <;> simp
    | some path =>
      rw [hp] at h
      cases hr : readAndSend d fs config stream path sent with
      | inl r =>
        simp only [hr, Option.some.injEq] at h
        subst h
        exact readAndSend_ne_noState d fs config stream path sent r hr
      | inr sent' =>
        simp only [hr] at h
        exact ih _ _ _ (by omega) h

theorem readAndSend_ok (d : Deps) (fs : Fs) (config : Provision_Config)
    (stream : Stream Provision_Response) (path : String) (sent : List Provision_Response)
    (data : Bytes) (m : Provision_Response)
    (hread : fs.ReadFile path = .ok data) (hdecode : d.UnmarshalProvision data = .ok m)
    (hsend : ∀ k r, stream.Send k r = none) :
    readAndSend d fs config stream path sent
      = .inr (sent ++ (filterLogResponses d config m).toList) := by
  unfold readAndSend
  simp only [hread, hdecode]
  cases filterLogResponses d config m with
  | none => simp
  | some r => simp [hsend]

theorem drop_eq_cons_of_getElem? {α : Type} (xs : List α) (i : Nat) (x : α)
    (h : xs[i]? = some x) : xs.drop i = x :: xs.drop (i + 1) := by
  obtain ⟨hi, rfl⟩ := List.getElem?_eq_some.mp h
  exact List.drop_eq_getElem_cons hi

theorem ProvisionLoop_replay (d : Deps) (fs : Fs) (plan : Bool) (config : Provision_Config)
    (stream : Stream Provision_Response) (msgs : List Provision_Response)
    (hfound : ∀ i m, msgs[i]? = some m → ∃ path data,
      firstExisting fs (provisionPaths d plan config i) = some path ∧
      fs.ReadFile path = .ok data ∧ d.UnmarshalProvision data = .ok m)
    (hend : firstExisting fs (provisionPaths d plan config msgs.length) = none)
    (hsend : ∀ k r, stream.Send k r = none) (hne : msgs ≠ []) :
    ∀ (fuel i : Nat) (sent : List Provision_Response),
      i ≤ msgs.length → msgs.length - i < fuel →
      ProvisionLoop d fs plan config stream fuel i sent
        = some (awaitDone stream
            (sent ++ (msgs.drop i).filterMap (filterLogResponses d config))) := by
  intro fuel
  induction fuel with
  | zero => intro i sent _ h; omega
  | succ fuel ih =>
    intro i sent hi hfuel
    rcases Nat.lt_or_ge i msgs.length with hlt | hge
    · obtain ⟨path, data, hpath, hread, hdecode⟩ :=
        hfound i msgs[i] (List.getElem?_eq_getElem hlt)
      rw [ProvisionLoop, hpath]
      simp only [readAndSend_ok d fs config stream path sent data _ hread hdecode hsend]
      rw [ih (i + 1) _ (by omega) (by omega),
        drop_eq_cons_of_getElem? msgs i _ (List.getElem?_eq_getElem hlt), List.filterMap_cons]
      cases hf : filterLogResponses d config msgs[i] <;> simp
    · have hi2 : i = msgs.length := by omega
      subst hi2
      have hpos : msgs.length ≠ 0 := by
        intro h0
        exact hne (List.length_eq_zero.mp h0)
      rw [ProvisionLoop, hend]
      simp [hpos]

theorem ParseLoop_replay (d : Deps) (fs : Fs) (request : Parse_Request)
    (stream : Stream Parse_Response) (msgs : List Parse_Response)
    (hfound : ∀ i m, msgs[i]? = some m → ∃ data,
      fs.Stat (d.Join request.Directory (parseName i)) = none ∧
      fs.ReadFile (d.Join request.Directory (parseName i)) = .ok data ∧
      d.UnmarshalParse data = .ok m)
    (hend : fs.Stat (d.Join request.Directory (parseName msgs.length)) ≠ none)
    (hsend : ∀ k r, stream.Send k r = none) (hne : msgs ≠ []) :
    ∀ (fuel i : Nat) (sent : List Parse_Response),
      i ≤ msgs.length → msgs.length - i < fuel →
      ParseLoop d fs request stream fuel i sent
        = some (awaitDone stream (sent ++ msgs.drop i)) := by
  intro fuel
  induction fuel with
  | zero => intro i sent _ h; omega
  | succ fuel ih =>
    intro i sent hi hfuel
    rcases Nat.lt_or_ge i msgs.length with hlt | hge
    · obtain ⟨data, hstat, hread, hdecode⟩ :=
        hfound i msgs[i] (List.getElem?_eq_getElem hlt)
      rw [ParseLoop]
      simp only [hstat, hread, hdecode, hsend]
      rw [ih (i + 1) _ (by omega) (by omega),
        drop_eq_cons_of_getElem? msgs i _ (List.getElem?_eq_getElem hlt)]
      simp
    · have hi2 : i = msgs.length := by omega
      subst hi2
      have hpos : msgs.length ≠ 0 := by
        intro h0
        exact hne (List.length_eq_zero.mp h0)
      rw [ParseLoop]
      cases hs : fs.Stat (d.Join request.Directory (parseName msgs.length)) with
      | none => exact absurd hs hend
      | some err => simp [hpos]


theorem serialized_of_ok {M : Type} (Marshal : M → Except ExtError Bytes) (m : M) (data : Bytes)
    (h : Marshal m = .ok data) : serialized Marshal m = data := by
  simp [serialized, h]

theorem lookup_mapEntries_none (d : Deps) (plan : Bool) (target : String)
    (h : ∀ t i, transitionName d plan t i ≠ target) :
    ∀ m : List (Int × List Provision_Response),
      Archive.lookup (mapEntries d plan m) target = none := by
  intro m
  induction m with
  | nil => rfl
  | cons p rest ih =>
    have hcons : mapEntries d plan (p :: rest)
        = entriesFrom d.MarshalProvision (transitionName d plan p.1) 0 p.2
            ++ mapEntries d plan rest := by
      simp [mapEntries]
    rw [hcons, lookup_append, ih]
    exact lookup_entriesFrom_none _ _ _ (h p.1) _ _

theorem lookup_catalog_parseName (d : Deps) (r : Responses) (i : Nat) :
    Archive.lookup (catalog d r) (parseName i)
      = (r.Parse.elems[i]?).map (serialized d.MarshalParse) := by
  unfold catalog
  rw [lookup_append, lookup_mapEntries_none d true _
        (fun t j h => parseName_ne_transitionName d true t i j h.symm),
    lookup_append, lookup_mapEntries_none d false _
        (fun t j h => parseName_ne_transitionName d false t i j h.symm),
    lookup_append, lookup_entriesFrom_none _ _ _
        (fun j h => parseName_ne_defaultName true i j h.symm),
    lookup_append, lookup_entriesFrom_none _ _ _
        (fun j h => parseName_ne_defaultName false i j h.symm)]
  have := lookup_entriesFrom d.MarshalParse parseName (fun _ _ h => parseName_injective h)
    r.Parse.elems 0 i
  simpa using this

theorem lookup_catalog_defaultName (d : Deps) (r : Responses) (plan : Bool) (i : Nat) :
    Archive.lookup (catalog d r) (defaultName plan i)
      = (((if plan then r.ProvisionPlan else r.ProvisionApply).elems)[i]?).map
          (serialized d.MarshalProvision) := by
  unfold catalog
  rw [lookup_append, lookup_mapEntries_none d true _
        (fun t j => transitionName_ne_defaultName d true plan t j i),
    lookup_append, lookup_mapEntries_none d false _
        (fun t j => transitionName_ne_defaultName d false plan t j i)]
  have hsame := fun (seq : List Provision_Response) =>
    lookup_entriesFrom d.MarshalProvision (defaultName plan)
      (fun _ _ h => defaultName_injective h) seq 0 i
  simp only [Nat.zero_add] at hsame
  cases plan with
  | true =>
    simp only [lookup_append, hsame, if_true]
    cases h : r.ProvisionPlan.elems[i]? <;> simp
    · rw [lookup_entriesFrom_none _ _ _ (fun j => defaultName_ne_of_kind (by decide) j i),
        lookup_entriesFrom_none _ _ _ (fun j h => parseName_ne_defaultName true j i h)]
  | false =>
    simp only [lookup_append, Bool.false_eq_true, if_false]
    rw [lookup_entriesFrom_none _ _ _ (fun j => defaultName_ne_of_kind (by decide) j i), hsame]
    cases h : r.ProvisionApply.elems[i]? <;> simp
    · rw [lookup_entriesFrom_none _ _ _ (fun j h => parseName_ne_defaultName false j i h)]

theorem lookup_catalog_transitionName (d : Deps) (r : Responses) (plan : Bool) (t : Int)
    (i : Nat) :
    Archive.lookup (catalog d r) (transitionName d plan t i)
      = Archive.lookup
          (mapEntries d plan (if plan then r.ProvisionPlanMap else r.ProvisionApplyMap))
          (transitionName d plan t i) := by
  have hbase : Archive.lookup
      (entriesFrom d.MarshalParse parseName 0 r.Parse.elems
        ++ entriesFrom d.MarshalProvision (defaultName false) 0 r.ProvisionApply.elems
        ++ entriesFrom d.MarshalProvision (defaultName true) 0 r.ProvisionPlan.elems)
      (transitionName d plan t i) = none := by
    rw [lookup_append, lookup_entriesFrom_none _ _ _
          (fun j h => transitionName_ne_defaultName d plan true t i j h.symm),
      lookup_append, lookup_entriesFrom_none _ _ _
          (fun j h => transitionName_ne_defaultName d plan false t i j h.symm)]
    exact lookup_entriesFrom_none _ _ _
      (fun j h => parseName_ne_transitionName d plan t j i h) _ _
  unfold catalog
  cases plan with
  | true =>
    rw [lookup_append]
    cases h : Archive.lookup (mapEntries d true r.ProvisionPlanMap) (transitionName d true t i)
    · simp only [if_true, h]
      rw [lookup_append, lookup_mapEntries_none d false _
        (fun s j => transitionName_ne_of_kind d (by decide) s t j i)]
      exact hbase
    · simp [h]
  | false =>
    simp only [Bool.false_eq_true, if_false]
    rw [lookup_append, lookup_mapEntries_none d true _
        (fun s j => transitionName_ne_of_kind d (by decide) s t j i), lookup_append]
    cases h : Archive.lookup (mapEntries d false r.ProvisionApplyMap)
        (transitionName d false t i)
    · simp only [h]
      simpa using hbase
    · simp [h]


theorem Extracted.found {d : Deps} {fs : Fs} {dir : String} {archive : Archive}
    (h : Extracted d fs dir archive) (key : EntryKey) {data : Bytes}
    (hl : archive.lookup (key.name d) = some data) :
    fs.Stat (d.Join dir (key.name d)) = none ∧
      fs.ReadFile (d.Join dir (key.name d)) = .ok data := by
  have := h key
  rw [hl] at this
  exact this

theorem Extracted.missing {d : Deps} {fs : Fs} {dir : String} {archive : Archive}
    (h : Extracted d fs dir archive) (key : EntryKey)
    (hl : archive.lookup (key.name d) = none) : fs.Stat (d.Join dir (key.name d)) ≠ none := by
  have := h key
  rw [hl] at this
  exact this

theorem Extracted.found_parse {d : Deps} {fs : Fs} {dir : String} {archive : Archive}
    (h : Extracted d fs dir archive) {i : Nat} {data : Bytes}
    (hl : archive.lookup (parseName i) = some data) :
    fs.Stat (d.Join dir (parseName i)) = none ∧
      fs.ReadFile (d.Join dir (parseName i)) = .ok data :=
  h.found (.parse i) hl

theorem Extracted.missing_parse {d : Deps} {fs : Fs} {dir : String} {archive : Archive}
    (h : Extracted d fs dir archive) {i : Nat}
    (hl : archive.lookup (parseName i) = none) : fs.Stat (d.Join dir (parseName i)) ≠ none :=
  h.missing (.parse i) hl

theorem Extracted.found_generic {d : Deps} {fs : Fs} {dir : String} {archive : Archive}
    (h : Extracted d fs dir archive) {plan : Bool} {i : Nat} {data : Bytes}
    (hl : archive.lookup (defaultName plan i) = some data) :
    fs.Stat (d.Join dir (defaultName plan i)) = none ∧
      fs.ReadFile (d.Join dir (defaultName plan i)) = .ok data :=
  h.found (.generic plan i) hl

theorem Extracted.missing_generic {d : Deps} {fs : Fs} {dir : String} {archive : Archive}
    (h : Extracted d fs dir archive) {plan : Bool} {i : Nat}
    (hl : archive.lookup (defaultName plan i) = none) :
    fs.Stat (d.Join dir (defaultName plan i)) ≠ none :=
  h.missing (.generic plan i) hl

theorem Extracted.found_specific {d : Deps} {fs : Fs} {dir : String} {archive : Archive}
    (h : Extracted d fs dir archive) {plan : Bool} {t : Int} {i : Nat} {data : Bytes}
    (hl : archive.lookup (transitionName d plan t i) = some data) :
    fs.Stat (d.Join dir (transitionName d plan t i)) = none ∧
      fs.ReadFile (d.Join dir (transitionName d plan t i)) = .ok data :=
  h.found (.specific plan t i) hl

theorem Extracted.missing_specific {d : Deps} {fs : Fs} {dir : String} {archive : Archive}
    (h : Extracted d fs dir archive) {plan : Bool} {t : Int} {i : Nat}
    (hl : archive.lookup (transitionName d plan t i) = none) :
    fs.Stat (d.Join dir (transitionName d plan t i)) ≠ none :=
  h.missing (.specific plan t i) hl

theorem getElem?_append_drop {α : Type} (xs ys : List α) (i : Nat) :
    (xs ++ ys.drop xs.length)[i]? = if i < xs.length then xs[i]? else ys[i]? := by
  by_cases h : i < xs.length
  · rw [if_pos h, List.getElem?_append_left h]
  · rw [if_neg h, List.getElem?_append_right (by omega), List.getElem?_drop]
    congr 1
    omega

theorem unmarshal_serialized {M : Type} (Marshal : M → Except ExtError Bytes)
    (Unmarshal : Bytes → Except ExtError M)
    (hcodec : ∀ m data, Marshal m = .ok data → Unmarshal data = .ok m)
    (msgs : List M) (hs : AllSerialize Marshal msgs) (i : Nat) (m : M)
    (hm : msgs[i]? = some m) : Unmarshal (serialized Marshal m) = .ok m := by
  obtain ⟨hi, rfl⟩ := List.getElem?_eq_some.mp hm
  obtain ⟨data, hdata⟩ := hs _ (List.getElem_mem hi)
  rw [serialized_of_ok _ _ _ hdata]
  exact hcodec _ data hdata

/-- The sequence the provision loop resolves when the store holds the
transition-specific sequence `tseq` and the default sequence `dseq`. -/
theorem ProvisionLoop_extracted (d : Deps) (fs : Fs) (plan : Bool) (config : Provision_Config)
    (stream : Stream Provision_Response) (archive : Archive)
    (tseq dseq : List Provision_Response)
    (hfs : Extracted d fs config.Directory archive)
    (ht : ∀ i, archive.lookup (transitionName d plan config.GetWorkspaceTransition i)
      = (tseq[i]?).map (serialized d.MarshalProvision))
    (hd : ∀ i, archive.lookup (defaultName plan i)
      = (dseq[i]?).map (serialized d.MarshalProvision))
    (hst : AllSerialize d.MarshalProvision tseq) (hsd : AllSerialize d.MarshalProvision dseq)
    (hcodec : ∀ m data, d.MarshalProvision m = .ok data → d.UnmarshalProvision data = .ok m)
    (hsend : ∀ k r, stream.Send k r = none) (fuel : Nat)
    (hfuel : (tseq ++ dseq.drop tseq.length).length < fuel) :
    ProvisionLoop d fs plan config stream fuel 0 []
      = some (if tseq ++ dseq.drop tseq.length = []
          then ⟨[], false, .returned (some .noState)⟩
          else awaitDone stream
            ((tseq ++ dseq.drop tseq.length).filterMap (filterLogResponses d config))) := by
  have hmissing : ∀ i, tseq[i]? = none → dseq[i]? = none →
      firstExisting fs (provisionPaths d plan config i) = none := by
    intro i h1 h2
    have a1 := Extracted.missing_specific hfs (by rw [ht i, h1]; rfl)
    have a2 := Extracted.missing_generic hfs (by rw [hd i, h2]; rfl)
    simp [provisionPaths, firstExisting_pair, a1, a2]
  by_cases hnil : tseq ++ dseq.drop tseq.length = []
  · rw [if_pos hnil]
    obtain ⟨fuel, rfl⟩ : ∃ f, fuel = f + 1 := ⟨fuel - 1, by omega⟩
    have h1 : tseq[0]? = none := by
      have := getElem?_append_drop tseq dseq 0
      rw [hnil] at this
      by_cases h : 0 < tseq.length
      · rw [if_pos h] at this; simpa using this.symm
      · simp at h; simp [h]
    have h2 : dseq[0]? = none := by
      have := getElem?_append_drop tseq dseq 0
      rw [hnil] at this
      by_cases h : 0 < tseq.length
      · have : tseq = [] := by simpa using (List.append_eq_nil.mp hnil).1
        simp [this] at h
      · rw [if_neg h] at this; simpa using this.symm
    rw [ProvisionLoop, hmissing 0 h1 h2]
    simp
  · rw [if_neg hnil]
    have hrun := ProvisionLoop_replay d fs plan config stream (tseq ++ dseq.drop tseq.length)
      ?_ ?_ hsend hnil fuel 0 [] (by omega) (by omega)
    · simpa using hrun
    · intro i m hm
      rw [getElem?_append_drop] at hm
      by_cases h : i < tseq.length
      · rw [if_pos h] at hm
        have hfound := Extracted.found_specific hfs (by rw [ht i, hm]; rfl)
        refine ⟨_, _, ?_, hfound.2, unmarshal_serialized _ _ hcodec tseq hst i m hm⟩
        simp [provisionPaths, firstExisting_pair, hfound.1]
      · rw [if_neg h] at hm
        have hnone : tseq[i]? = none := List.getElem?_eq_none (by omega)
        have a1 := Extracted.missing_specific hfs (by rw [ht i, hnone]; rfl)
        have hfound := Extracted.found_generic hfs (by rw [hd i, hm]; rfl)
        refine ⟨_, _, ?_, hfound.2, unmarshal_serialized _ _ hcodec dseq hsd i m hm⟩
        simp [provisionPaths, firstExisting_pair, a1, hfound.1]
    · apply hmissing
      · exact List.getElem?_eq_none (by simp)
      · exact List.getElem?_eq_none (by simp; omega)

/-- The run of `Parse` on a store that holds the parse sequence `seq`. -/
theorem Parse_extracted (d : Deps) (fs : Fs) (request : Parse_Request)
    (stream : Stream Parse_Response) (archive : Archive) (seq : List Parse_Response)
    (hfs : Extracted d fs request.Directory archive)
    (hp : ∀ i, archive.lookup (parseName i) = (seq[i]?).map (serialized d.MarshalParse))
    (hs : AllSerialize d.MarshalParse seq)
    (hcodec : ∀ m data, d.MarshalParse m = .ok data → d.UnmarshalParse data = .ok m)
    (hsend : ∀ k r, stream.Send k r = none) (fuel : Nat) (hfuel : seq.length < fuel) :
    ∃ run, Parse d fs request stream fuel = some run ∧ run.sent = seq ∧
      (seq ≠ [] → run = awaitDone stream seq) := by
  have hend : fs.Stat (d.Join request.Directory (parseName seq.length)) ≠ none :=
    Extracted.missing_parse hfs (by rw [hp, List.getElem?_eq_none (le_refl _)]; rfl)
  by_cases hnil : seq = []
  · subst hnil
    obtain ⟨fuel, rfl⟩ : ∃ f, fuel = f + 1 := ⟨fuel - 1, by simp at hfuel; omega⟩
    cases hstat : fs.Stat (d.Join request.Directory (parseName 0)) with
    | none => exact absurd hstat hend
    | some err =>
      refine ⟨⟨[], false, .returned (some (.noStateWrap err))⟩, ?_, rfl, fun h => absurd rfl h⟩
      simp [Parse, ParseLoop, hstat]
  · refine ⟨awaitDone stream seq, ?_, ?_, fun _ => rfl⟩
    · have hrun := ParseLoop_replay d fs request stream seq ?_ hend hsend hnil fuel 0 []
        (by omega) (by omega)
      · simpa [Parse] using hrun
      · intro i m hm
        have hfound := Extracted.found_parse hfs (by rw [hp i, hm]; rfl)
        exact ⟨_, hfound.1, hfound.2, unmarshal_serialized _ _ hcodec seq hs i m hm⟩
    · unfold awaitDone
      split <;> rfl

theorem tarDefaults_some (r : Responses) :
    (tarDefaults (some r)).Parse = r.Parse ∧
    (tarDefaults (some r)).ProvisionApply = r.ProvisionApply ∧
    (tarDefaults (some r)).ProvisionPlan.elems = planSequence r ∧
    (tarDefaults (some r)).ProvisionApplyMap = r.ProvisionApplyMap ∧
    (tarDefaults (some r)).ProvisionPlanMap = r.ProvisionPlanMap := by
  unfold tarDefaults planSequence
  cases h : r.ProvisionPlan with
  | none => simp [h]
  | some plan => simp [h, Slice.elems]

theorem filterMap_empty_threshold (d : Deps) (config : Provision_Config)
    (h : config.ProvisionerLogLevel = "") (seq : List Provision_Response) :
    seq.filterMap (filterLogResponses d config) = seq := by
  have hall : ∀ r, filterLogResponses d config r = some r := by
    intro r
    cases r <;> simp [filterLogResponses, h]
  induction seq with
  | nil => rfl
  | cons x xs ih => simp [List.filterMap_cons, hall, ih]

theorem decodeString_encodeString (s : String) : decodeString (encodeString s) = s := by
  simp [decodeString, encodeString, List.map_map, Function.comp_def]

theorem sample_codec_provision (m : Provision_Response) (data : Bytes)
    (h : sampleMarshalProvision m = .ok data) : sampleUnmarshalProvision data = .ok m := by
  cases m with
  | Unset => simp [sampleMarshalProvision] at h; subst h; rfl
  | Complete p =>
    simp [sampleMarshalProvision] at h; subst h
    simp [sampleUnmarshalProvision, decodeString_encodeString]
  | Log l o =>
    simp [sampleMarshalProvision] at h; subst h
    by_cases hl : l < 0
    · simp [sampleUnmarshalProvision, decodeString_encodeString, hl, abs_of_neg hl]
    · simp [sampleUnmarshalProvision, decodeString_encodeString, hl, abs_of_nonneg (not_lt.mp hl)]

theorem sample_codec_parse (m : Parse_Response) (data : Bytes)
    (h : sampleMarshalParse m = .ok data) : sampleUnmarshalParse data = .ok m := by
  cases m with
  | Unset => simp [sampleMarshalParse] at h; subst h; rfl
  | Complete p =>
    simp [sampleMarshalParse] at h; subst h
    simp [sampleUnmarshalParse, decodeString_encodeString]
  | Log l o =>
    simp [sampleMarshalParse] at h; subst h
    by_cases hl : l < 0
    · simp [sampleUnmarshalParse, decodeString_encodeString, hl, abs_of_neg hl]
    · simp [sampleUnmarshalParse, decodeString_encodeString, hl, abs_of_nonneg (not_lt.mp hl)]

theorem extracted_ofArchive (archive : Archive) :
    Extracted sampleDeps (Fs.ofArchive archive) "" archive := by
  intro key
  have hjoin : ∀ n, sampleDeps.Join "" n = n := fun n => by simp [sampleDeps]
  simp only [hjoin]
  generalize key.name sampleDeps = name
  cases h : archive.lookup name <;> simp [Fs.ofArchive, h]

theorem tar_ok (d : Deps) (r : Responses) (archive : Archive)
    (h : (Tar d (some r)).ret = .ok archive) :
    Serializes d (tarDefaults (some r)) ∧ archive = catalog d (tarDefaults (some r)) :=
  (tarWrite_ok_iff d _ archive).mp h

theorem provision_some (d : Deps) (fs : Fs) (msg : Provision_Request)
    (config : Provision_Config) (stream : Stream Provision_Response) (fuel : Nat)
    (hmsg : msg = .Plan (some config) ∨ msg = .Apply (some config)) :
    Provision d fs ⟨.ok msg, stream⟩ fuel
      = ProvisionLoop d fs msg.isPlan config stream fuel 0 [] := by
  rcases hmsg with rfl | rfl <;> rfl

theorem awaitDone_sent {R : Type} (stream : Stream R) (sent : List R) :
    (awaitDone stream sent).sent = sent := by
  unfold awaitDone
  split <;> rfl

/-- The messages a provision request gets from a packed store in which the
request's transition has no entry of its own: the default sequence of the
request's kind, filtered. -/
theorem provision_default_replay (d : Deps) (r : Responses) (archive : Archive) (fs : Fs)
    (msg : Provision_Request) (config : Provision_Config)
    (stream : Stream Provision_Response) (fuel : Nat)
    (hmsg : msg = .Plan (some config) ∨ msg = .Apply (some config))
    (hcodec : ∀ m data, d.MarshalProvision m = .ok data → d.UnmarshalProvision data = .ok m)
    (htar : (Tar d (some r)).ret = .ok archive)
    (hfs : Extracted d fs config.Directory archive)
    (hnone : ∀ i, archive.lookup
      (transitionName d msg.isPlan config.GetWorkspaceTransition i) = none)
    (hsend : ∀ k m, stream.Send k m = none) :
    ∃ run, Provision d fs ⟨.ok msg, stream⟩
        ((if msg.isPlan then planSequence r else r.ProvisionApply.elems).length + 1 + fuel)
          = some run ∧
      run.sent = (if msg.isPlan then planSequence r else r.ProvisionApply.elems).filterMap
        (filterLogResponses d config) := by
  obtain ⟨hser, rfl⟩ := tar_ok d r archive htar
  obtain ⟨-, hA, hP, -, -⟩ := tarDefaults_some r
  have hseq : (if msg.isPlan then (tarDefaults (some r)).ProvisionPlan
        else (tarDefaults (some r)).ProvisionApply).elems
      = (if msg.isPlan then planSequence r else r.ProvisionApply.elems) := by
    cases msg.isPlan <;> simp [hA, hP]
  have hsd : AllSerialize d.MarshalProvision
      (if msg.isPlan then planSequence r else r.ProvisionApply.elems) := by
    rw [← hseq]
    cases msg.isPlan
    · simpa using hser.2.1
    · simpa using hser.2.2.1
  have hrun := ProvisionLoop_extracted d fs msg.isPlan config stream _ []
    (if msg.isPlan then planSequence r else r.ProvisionApply.elems) hfs
    (by intro i; rw [hnone i]; rfl)
    (by intro i; rw [lookup_catalog_defaultName, hseq])
    (by intro m hm; cases hm) hsd hcodec hsend
    ((if msg.isPlan then planSequence r else r.ProvisionApply.elems).length + 1 + fuel)
    (by simp; omega)
  rw [provision_some d fs msg config stream _ hmsg, hrun]
  refine ⟨_, rfl, ?_⟩
  simp only [List.nil_append, List.length_nil, List.drop_zero]
  generalize (if msg.isPlan then planSequence r else r.ProvisionApply.elems) = seq
  by_cases hnil : seq = []
  · simp [hnil]
  · rw [if_neg hnil]
    exact awaitDone_sent _ _

theorem lookup_transition_of_empty_map (d : Deps) (r : Responses) (archive : Archive)
    (plan : Bool) (t : Int)
    (htar : (Tar d (some r)).ret = .ok archive)
    (hmap : (if plan then r.ProvisionPlanMap else r.ProvisionApplyMap) = []) (i : Nat) :
    archive.lookup (transitionName d plan t i) = none := by
  obtain ⟨-, rfl⟩ := tar_ok d r archive htar
  obtain ⟨-, -, -, hAM, hPM⟩ := tarDefaults_some r
  rw [lookup_catalog_transitionName, hAM, hPM, hmap]
  rfl

theorem serializes_tarDefaults (d : Deps) (r : Responses) (h : Serializes d r) :
    Serializes d (tarDefaults (some r)) := by
  obtain ⟨h1, h2, h3, h4, h5⟩ := h
  unfold tarDefaults
  by_cases hp : r.ProvisionPlan = none
  · simp only [hp, if_true]
    exact ⟨h1, h2, h2, h4, h5⟩
  · simp only [hp, if_false]
    exact ⟨h1, h2, h3, h4, h5⟩

theorem sample_serializes (r : Responses) : Serializes sampleDeps r := by
  refine ⟨?_, ?_, ?_, ?_, ?_⟩
  · intro m _; cases m <;> exact ⟨_, rfl⟩
  · intro m _; cases m <;> exact ⟨_, rfl⟩
  · intro m _; cases m <;> exact ⟨_, rfl⟩
  · intro p _ m _; cases m <;> exact ⟨_, rfl⟩
  · intro p _ m _; cases m <;> exact ⟨_, rfl⟩

theorem firstExisting_congr (fs1 fs2 : Fs) :
    ∀ paths : List String, (∀ p ∈ paths, (fs1.Stat p = none ↔ fs2.Stat p = none)) →
      firstExisting fs1 paths = firstExisting fs2 paths := by
  intro paths
  induction paths with
  | nil => intro _; rfl
  | cons p rest ih =>
    intro h
    have hp := h p (List.mem_cons_self _ _)
    have hrest := ih (fun q hq => h q (List.mem_cons_of_mem _ hq))
    unfold firstExisting
    cases h1 : fs1.Stat p with
    | none =>
      rw [hp.mp h1]
    | some e1 =>
      cases h2 : fs2.Stat p with
      | none => rw [hp.mpr h2] at h1; cases h1
      | some e2 => exact hrest

theorem firstExisting_mem (fs : Fs) :
    ∀ (paths : List String) (path : String), firstExisting fs paths = some path →
      path ∈ paths := by
  intro paths
  induction paths with
  | nil => intro path h; simp [firstExisting] at h
  | cons p rest ih =>
    intro path h
    unfold firstExisting at h
    cases hp : fs.Stat p with
    | none =>
      rw [hp] at h
      simp only [Option.some.injEq] at h
      subst h
      exact List.mem_cons_self _ _
    | some e =>
      rw [hp] at h
      exact List.mem_cons_of_mem _ (ih _ h)

theorem readAndSend_congr (d : Deps) (fs1 fs2 : Fs) (config : Provision_Config)
    (stream : Stream Provision_Response) (path : String) (sent : List Provision_Response)
    (h : fs1.ReadFile path = fs2.ReadFile path) :
    readAndSend d fs1 config stream path sent = readAndSend d fs2 config stream path sent := by
  unfold readAndSend
  rw [h]

theorem ProvisionLoop_congr (d : Deps) (fs1 fs2 : Fs) (plan : Bool) (config : Provision_Config)
    (stream : Stream Provision_Response)
    (hagree : ∀ i, ∀ p ∈ provisionPaths d plan config i,
      (fs1.Stat p = none ↔ fs2.Stat p = none) ∧ fs1.ReadFile p = fs2.ReadFile p) :
    ∀ (fuel i : Nat) (sent : List Provision_Response),
      ProvisionLoop d fs1 plan config stream fuel i sent
        = ProvisionLoop d fs2 plan config stream fuel i sent := by
  intro fuel
  induction fuel with
  | zero => intro i sent; rfl
  | succ fuel ih =>
    intro i sent
    have hfirst := firstExisting_congr fs1 fs2 (provisionPaths d plan config i)
      (fun p hp => (hagree i p hp).1)
    rw [ProvisionLoop, ProvisionLoop, ← hfirst]
    cases hp : firstExisting fs1 (provisionPaths d plan config i) with
    | none => rfl
    | some path =>
      have hmem := firstExisting_mem fs1 _ _ hp
      simp only [readAndSend_congr d fs1 fs2 config stream path sent (hagree i path hmem).2, ih]

theorem decodeFile_ok {M : Type} (fs : Fs) (Unmarshal : Bytes → Except ExtError M)
    (path : String) (m : M) (h : decodeFile fs Unmarshal path = .ok m) :
    ∃ data, fs.ReadFile path = .ok data ∧ Unmarshal data = .ok m := by
  unfold decodeFile at h
  cases hr : fs.ReadFile path with
  | error e => rw [hr] at h; cases h
  | ok data => rw [hr] at h; exact ⟨data, rfl, h⟩

theorem filterLogResponses_some (d : Deps) (config : Provision_Config)
    (m r : Provision_Response) (h : filterLogResponses d config m = some r) : r = m := by
  unfold filterLogResponses at h
  split at h
  · split at h
    · exact (Option.some.inj h).symm
    · simp only at h
      split at h
      · cases h
      · exact (Option.some.inj h).symm
  · exact (Option.some.inj h).symm

theorem filterMap_eq_kept (d : Deps) (config : Provision_Config)
    (msgs : List Provision_Response) :
    msgs.filterMap (filterLogResponses d config) = kept d config msgs := by
  induction msgs with
  | nil => rfl
  | cons m rest ih =>
    unfold kept at ih ⊢
    rw [List.filterMap_cons, List.filter_cons]
    cases h : filterLogResponses d config m with
    | none => simpa using ih
    | some r =>
      have := filterLogResponses_some d config m r h
      subst this
      simpa using ih

theorem kept_take_succ (d : Deps) (config : Provision_Config)
    (msgs : List Provision_Response) (i : Nat) (h : i < msgs.length) :
    kept d config (msgs.take (i + 1))
      = kept d config (msgs.take i) ++ (filterLogResponses d config msgs[i]).toList := by
  unfold kept
  rw [List.take_succ, List.filter_append, List.getElem?_eq_getElem h]
  congr 1
  cases hf : filterLogResponses d config msgs[i] with
  | none => simp [hf]
  | some r =>
    have := filterLogResponses_some d config _ r hf
    subst this
    simp [hf]

theorem ParseLoop_initial (d : Deps) (fs : Fs) (request : Parse_Request)
    (stream : Stream Parse_Response) (msgs : List Parse_Response)
    (hinit : ParseResolves d fs request stream msgs) :
    ∀ (j i : Nat), i + j = msgs.length → ∀ fuel,
      ParseLoop d fs request stream (j + fuel) i (msgs.take i)
        = ParseLoop d fs request stream fuel msgs.length msgs := by
  intro j
  induction j with
  | zero =>
    intro i hi fuel
    have : i = msgs.length := by omega
    subst this
    simp
  | succ j ih =>
    intro i hi fuel
    have hlt : i < msgs.length := by omega
    obtain ⟨hstat, hdecode, hsend⟩ := hinit i hlt
    obtain ⟨data, hread, hun⟩ := decodeFile_ok _ _ _ _ hdecode
    have hfuel : j + 1 + fuel = (j + fuel) + 1 := by omega
    have hlen : (msgs.take i).length = i := by simp; omega
    rw [hfuel, ParseLoop]
    simp only [hstat, hread, hun, hlen, hsend]
    have htake : msgs.take i ++ [msgs[i]] = msgs.take (i + 1) := by
      rw [List.take_succ, List.getElem?_eq_getElem hlt]
      rfl
    rw [htake]
    exact ih (i + 1) (by omega) fuel

theorem ProvisionLoop_initial (d : Deps) (fs : Fs) (plan : Bool) (config : Provision_Config)
    (stream : Stream Provision_Response) (msgs : List Provision_Response)
    (hinit : ProvisionResolves d fs plan config stream msgs) :
    ∀ (j i : Nat), i + j = msgs.length → ∀ fuel,
      ProvisionLoop d fs plan config stream (j + fuel) i (kept d config (msgs.take i))
        = ProvisionLoop d fs plan config stream fuel msgs.length (kept d config msgs) := by
  intro j
  induction j with
  | zero =>
    intro i hi fuel
    have : i = msgs.length := by omega
    subst this
    simp
  | succ j ih =>
    intro i hi fuel
    have hlt : i < msgs.length := by omega
    obtain ⟨hres, hsend⟩ := hinit i hlt
    unfold resolved at hres
    cases hpath : firstExisting fs (provisionPaths d plan config i) with
    | none => rw [hpath] at hres; cases hres
    | some path =>
      rw [hpath] at hres
      have hdecode : decodeFile fs d.UnmarshalProvision path = .ok msgs[i] := by
        simpa using hres
      obtain ⟨data, hread, hun⟩ := decodeFile_ok _ _ _ _ hdecode
      have hfuel : j + 1 + fuel = (j + fuel) + 1 := by omega
      have hstep : readAndSend d fs config stream path (kept d config (msgs.take i))
          = .inr (kept d config (msgs.take (i + 1))) := by
        unfold readAndSend
        simp only [hread, hun]
        rw [kept_take_succ d config msgs i hlt]
        cases hf : filterLogResponses d config msgs[i] with
        | none => simp
        | some r =>
          have hr := filterLogResponses_some d config _ r hf
          subst hr
          have := hsend (by rw [hf]; rfl)
          simp [this]
      rw [hfuel, ProvisionLoop, hpath]
      simp only [hstep]
      exact ih (i + 1) (by omega) fuel

theorem Parse_after_initial (d : Deps) (fs : Fs) (request : Parse_Request)
    (stream : Stream Parse_Response) (msgs : List Parse_Response)
    (hinit : ParseResolves d fs request stream msgs) (fuel : Nat) :
    Parse d fs request stream (msgs.length + fuel)
      = ParseLoop d fs request stream fuel msgs.length msgs := by
  have := ParseLoop_initial d fs request stream msgs hinit msgs.length 0 (by omega) fuel
  simpa [Parse] using this

theorem Provision_after_initial (d : Deps) (fs : Fs) (msg : Provision_Request)
    (config : Provision_Config) (stream : Stream Provision_Response)
    (msgs : List Provision_Response)
    (hmsg : msg = .Plan (some config) ∨ msg = .Apply (some config))
    (hinit : ProvisionResolves d fs msg.isPlan config stream msgs) (fuel : Nat) :
    Provision d fs ⟨.ok msg, stream⟩ (msgs.length + fuel)
      = ProvisionLoop d fs msg.isPlan config stream fuel msgs.length (kept d config msgs) := by
  have := ProvisionLoop_initial d fs msg.isPlan config stream msgs hinit msgs.length 0
    (by omega) fuel
  rw [provision_some d fs msg config stream _ hmsg]
  simpa [kept] using this

theorem Parse_exhausted (d : Deps) (fs : Fs) (request : Parse_Request)
    (stream : Stream Parse_Response) (msgs : List Parse_Response) (fuel : Nat)
    (hne : msgs ≠ []) (hinit : ParseResolves d fs request stream msgs)
    (hend : fs.Stat (d.Join request.Directory (parseName msgs.length)) ≠ none) :
    Parse d fs request stream (msgs.length + 1 + fuel) = some (awaitDone stream msgs) := by
  have hpos : msgs.length ≠ 0 := fun h => hne (List.length_eq_zero.mp h)
  rw [Nat.add_assoc, Parse_after_initial d fs request stream msgs hinit, Nat.add_comm 1 fuel,
    ParseLoop]
  cases hs : fs.Stat (d.Join request.Directory (parseName msgs.length)) with
  | none => exact absurd hs hend
  | some err => simp [hpos]

theorem Provision_exhausted (d : Deps) (fs : Fs) (msg : Provision_Request)
    (config : Provision_Config) (stream : Stream Provision_Response)
    (msgs : List Provision_Response) (fuel : Nat)
    (hmsg : msg = .Plan (some config) ∨ msg = .Apply (some config))
    (hne : msgs ≠ []) (hinit : ProvisionResolves d fs msg.isPlan config stream msgs)
    (hend : firstExisting fs (provisionPaths d msg.isPlan config msgs.length) = none) :
    Provision d fs ⟨.ok msg, stream⟩ (msgs.length + 1 + fuel)
      = some (awaitDone stream (kept d config msgs)) := by
  have hpos : msgs.length ≠ 0 := fun h => hne (List.length_eq_zero.mp h)
  rw [Nat.add_assoc, Provision_after_initial d fs msg config stream msgs hmsg hinit,
    Nat.add_comm 1 fuel, ProvisionLoop, hend]
  simp [hpos]

theorem awaitDone_waited {R : Type} (stream : Stream R) (sent : List R) :
    (awaitDone stream sent).waited = true := by
  unfold awaitDone
  split <;> rfl

theorem awaitDone_ret {R : Type} (stream : Stream R) (sent : List R) :
    (awaitDone stream sent).ret
      = if stream.Context.Done then .returned (stream.Context.Err.map .external)
        else .blocked := by
  unfold awaitDone
  split <;> rfl

theorem firstExisting_stat (fs : Fs) :
    ∀ (paths : List String) (path : String), firstExisting fs paths = some path →
      fs.Stat path = none := by
  intro paths
  induction paths with
  | nil => intro path h; simp [firstExisting] at h
  | cons p rest ih =>
    intro path h
    unfold firstExisting at h
    cases hp : fs.Stat p with
    | none =>
      rw [hp] at h
      simp only [Option.some.injEq] at h
      subst h
      exact hp
    | some e =>
      rw [hp] at h
      exact ih _ h

theorem ProvisionLoop_agree (d : Deps) (fs1 fs2 : Fs) (plan : Bool) (config : Provision_Config)
    (stream : Stream Provision_Response)
    (hagree : ∀ i, ∀ p ∈ provisionPaths d plan config i,
      (fs1.Stat p = none ↔ fs2.Stat p = none) ∧
      (fs1.Stat p = none → fs1.ReadFile p = fs2.ReadFile p)) :
    ∀ (fuel i : Nat) (sent : List Provision_Response),
      ProvisionLoop d fs1 plan config stream fuel i sent
        = ProvisionLoop d fs2 plan config stream fuel i sent := by
  intro fuel
  induction fuel with
  | zero => intro i sent; rfl
  | succ fuel ih =>
    intro i sent
    have hfirst := firstExisting_congr fs1 fs2 (provisionPaths d plan config i)
      (fun p hp => (hagree i p hp).1)
    rw [ProvisionLoop, ProvisionLoop, ← hfirst]
    cases hp : firstExisting fs1 (provisionPaths d plan config i) with
    | none => rfl
    | some path =>
      have hmem := firstExisting_mem fs1 _ _ hp
      have hstat := firstExisting_stat fs1 _ _ hp
      simp only [readAndSend_congr d fs1 fs2 config stream path sent
        ((hagree i path hmem).2 hstat), ih]

theorem filterLogResponses_nonLog (d : Deps) (config : Provision_Config)
    (m : Provision_Response) (h : m.isLog = false) : filterLogResponses d config m = some m := by
  cases m with
  | Log l o => simp [Provision_Response.isLog] at h
  | Complete p => rfl
  | Unset => rfl

theorem filterLogResponses_mono (d : Deps) (config1 config2 : Provision_Config) (l1 l2 : Int)
    (h2 : config2.ProvisionerLogLevel ≠ "")
    (hl1 : d.LogLevel_value (d.ToUpper config1.ProvisionerLogLevel) = some l1)
    (hl2 : d.LogLevel_value (d.ToUpper config2.ProvisionerLogLevel) = some l2)
    (hle : l1 ≤ l2) (m : Provision_Response)
    (h : filterLogResponses d config2 m = some m) : filterLogResponses d config1 m = some m := by
  cases m with
  | Complete p => rfl
  | Unset => rfl
  | Log level output =>
    simp only [filterLogResponses, h2, hl2, if_false, Option.getD_some] at h
    have hge : ¬ level < l2 := by
      intro hlt
      simp [hlt] at h
    by_cases h1 : config1.ProvisionerLogLevel = ""
    · simp [filterLogResponses, h1]
    · have : ¬ level < l1 := by omega
      simp [filterLogResponses, h1, hl1, this]

theorem provisionPaths_congr (d : Deps) (plan : Bool) (config1 config2 : Provision_Config)
    (hdir : config1.Directory = config2.Directory) (hmeta : config1.Metadata = config2.Metadata)
    (i : Nat) : provisionPaths d plan config1 i = provisionPaths d plan config2 i := by
  simp [provisionPaths, Provision_Config.GetWorkspaceTransition, hdir, hmeta]

theorem nonLogs_append (xs ys : List Provision_Response) :
    nonLogs (xs ++ ys) = nonLogs xs ++ nonLogs ys := by
  simp [nonLogs]

theorem ProvisionLoop_monotone (d : Deps) (fs : Fs) (plan : Bool)
    (config1 config2 : Provision_Config) (stream : Stream Provision_Response) (l1 l2 : Int)
    (hdir : config1.Directory = config2.Directory) (hmeta : config1.Metadata = config2.Metadata)
    (h2 : config2.ProvisionerLogLevel ≠ "")
    (hl1 : d.LogLevel_value (d.ToUpper config1.ProvisionerLogLevel) = some l1)
    (hl2 : d.LogLevel_value (d.ToUpper config2.ProvisionerLogLevel) = some l2)
    (hle : l1 ≤ l2) (hsend : ∀ k r, stream.Send k r = none) :
    ∀ (fuel i : Nat) (s1 s2 : List Provision_Response), s2.Sublist s1 →
      nonLogs s1 = nonLogs s2 → ∀ run1,
      ProvisionLoop d fs plan config1 stream fuel i s1 = some run1 →
      ∃ run2, ProvisionLoop d fs plan config2 stream fuel i s2 = some run2 ∧
        run2.sent.Sublist run1.sent ∧ nonLogs run1.sent = nonLogs run2.sent ∧
        run2.waited = run1.waited ∧ run2.ret = run1.ret := by
  intro fuel
  induction fuel with
  | zero => intro i s1 s2 _ _ run1 h; simp [ProvisionLoop] at h
  | succ fuel ih =>
    intro i s1 s2 hsub hnon run1 h
    rw [ProvisionLoop] at h
    rw [ProvisionLoop, ← provisionPaths_congr d plan config1 config2 hdir hmeta i]
    cases hp : firstExisting fs (provisionPaths d plan config1 i) with
    | none =>
      rw [hp] at h
      by_cases hi : i = 0
      · simp only [hi, if_true, Option.some.injEq] at h
        subst h
        exact ⟨⟨s2, false, .returned (some .noState)⟩, by simp [hi], hsub, hnon, rfl, rfl⟩
      · simp only [hi, if_false, Option.some.injEq] at h
        subst h
        refine ⟨awaitDone stream s2, by simp [hi], ?_, ?_, ?_, ?_⟩
        · simpa [awaitDone_sent] using hsub
        · simpa [awaitDone_sent] using hnon
        · unfold awaitDone; split <;> rfl
        · unfold awaitDone; split <;> rfl
    | some path =>
      rw [hp] at h
      simp only
      unfold readAndSend at h ⊢
      cases hread : fs.ReadFile path with
      | error e =>
        simp only [hread, Option.some.injEq] at h ⊢
        subst h
        exact ⟨⟨s2, false, .returned (some (.readFile path e))⟩, rfl, hsub, hnon, rfl, rfl⟩
      | ok data =>
        simp only [hread] at h ⊢
        cases hun : d.UnmarshalProvision data with
        | error e =>
          simp only [hun, Option.some.injEq] at h ⊢
          subst h
          exact ⟨⟨s2, false, .returned (some (.unmarshal e))⟩, rfl, hsub, hnon, rfl, rfl⟩
        | ok response =>
          simp only [hun] at h ⊢
          cases hf2 : filterLogResponses d config2 response with
          | some r2 =>
            have hr2 := filterLogResponses_some d config2 response r2 hf2
            subst hr2
            have hf1 := filterLogResponses_mono d config1 config2 l1 l2 h2 hl1 hl2 hle _ hf2
            simp only [hf1, hsend] at h
            simp only [hsend]
            exact ih (i + 1) _ _ (List.Sublist.append hsub (List.Sublist.refl _))
              (by rw [nonLogs_append, nonLogs_append, hnon]) run1 h
          | none =>
            simp only
            have hlog : response.isLog = true := by
              cases hl : response.isLog with
              | true => rfl
              | false =>
                rw [filterLogResponses_nonLog d config2 response hl] at hf2
                cases hf2
            cases hf1 : filterLogResponses d config1 response with
            | none =>
              simp only [hf1] at h
              exact ih (i + 1) _ _ hsub hnon run1 h
            | some r1 =>
              have hr1 := filterLogResponses_some d config1 response r1 hf1
              subst hr1
              simp only [hf1, hsend] at h
              exact ih (i + 1) _ _
                (hsub.trans (List.sublist_append_left _ _))
                (by rw [nonLogs_append, hnon]; simp [nonLogs, hlog]) run1 h

theorem append_cons_split {α : Type} (c : α) :
    ∀ (xs xs2 ys ys2 : List α), c ∉ xs → c ∉ xs2 → xs ++ c :: ys = xs2 ++ c :: ys2 →
      xs = xs2 ∧ ys = ys2 := by
  intro xs
  induction xs with
  | nil =>
    intro xs2 ys ys2 _ h2 h
    cases xs2 with
    | nil => simpa using h
    | cons x rest =>
      simp only [List.nil_append, List.cons_append, List.cons.injEq] at h
      exact absurd (by rw [← h.1]; exact List.mem_cons_self _ _) h2
  | cons x rest ih =>
    intro xs2 ys ys2 h1 h2 h
    cases xs2 with
    | nil =>
      simp only [List.nil_append, List.cons_append, List.cons.injEq] at h
      exact absurd (by rw [h.1]; exact List.mem_cons_self _ _) h1
    | cons x2 rest2 =>
      simp only [List.cons_append, List.cons.injEq] at h
      obtain ⟨hx, hrest⟩ := h
      have := ih rest2 ys ys2 (fun hm => h1 (List.mem_cons_of_mem _ hm))
        (fun hm => h2 (List.mem_cons_of_mem _ hm)) hrest
      exact ⟨by rw [hx, this.1], this.2⟩

theorem transitionName_eq {d : Deps} {plan : Bool} {s t : Int} {i j : Nat}
    (h : transitionName d plan s i = transitionName d plan t j) :
    i = j ∧ d.ToLower (d.TransitionString s) = d.ToLower (d.TransitionString t) := by
  have h2 := congrArg String.data h
  rw [transitionName_data, transitionName_data] at h2
  have h3 := List.append_cancel_right h2
  obtain ⟨hi, ht⟩ := append_cons_split '.' _ _ _ _ (toString_nat_no_dot i)
    (toString_nat_no_dot j) h3
  exact ⟨toString_nat_injective hi, String.ext ht⟩

theorem EntryKey.name_injective (d : Deps)
    (hinj : Function.Injective (fun t : Int => d.ToLower (d.TransitionString t))) :
    Function.Injective (EntryKey.name d) := by
  intro a b h
  cases a with
  | parse i =>
    cases b with
    | parse j => rw [parseName_injective h]
    | generic q j => exact absurd h (parseName_ne_defaultName q i j)
    | specific q t j => exact absurd h (parseName_ne_transitionName d q t i j)
  | generic p i =>
    cases b with
    | parse j => exact absurd h.symm (parseName_ne_defaultName p j i)
    | generic q j =>
      by_cases hpq : p = q
      · subst hpq
        rw [defaultName_injective h]
      · exact absurd h (defaultName_ne_of_kind hpq i j)
    | specific q t j => exact absurd h.symm (transitionName_ne_defaultName d q p t j i)
  | specific p s i =>
    cases b with
    | parse j => exact absurd h.symm (parseName_ne_transitionName d p s j i)
    | generic q j => exact absurd h (transitionName_ne_defaultName d p q s i j)
    | specific q t j =>
      by_cases hpq : p = q
      · subst hpq
        obtain ⟨hi, ht⟩ := transitionName_eq h
        rw [hi, hinj ht]
      · exact absurd h (transitionName_ne_of_kind d hpq s t i j)

theorem entriesFrom_names {M : Type} (Marshal : M → Except ExtError Bytes)
    (name : Nat → String) (msgs : List M) :
    (entriesFrom Marshal name 0 msgs).map Prod.fst = (List.range msgs.length).map name := by
  unfold entriesFrom
  rw [List.map_map, List.range_eq_range', ← List.enumFrom_map_fst 0 msgs, List.map_map]
  rfl

theorem mapEntries_names (d : Deps) (plan : Bool) (m : List (Int × List Provision_Response)) :
    (mapEntries d plan m).map Prod.fst = (mapKeys plan m).map (EntryKey.name d) := by
  unfold mapEntries mapKeys
  rw [List.map_flatten, List.map_flatten, List.map_map, List.map_map]
  congr 1
  apply List.map_congr_left
  intro p _
  simp only [Function.comp, entriesFrom_names, List.map_map]
  rfl

theorem catalog_names (d : Deps) (r : Responses) :
    (catalog d r).map Prod.fst = (responseKeys r).map (EntryKey.name d) := by
  unfold catalog responseKeys
  simp only [List.map_append, entriesFrom_names, mapEntries_names, List.map_map]
  rfl

theorem mapKeys_nodup (plan : Bool) (m : List (Int × List Provision_Response))
    (hkeys : (m.map Prod.fst).Nodup) : (mapKeys plan m).Nodup := by
  unfold mapKeys
  rw [List.nodup_flatten]
  constructor
  · intro l hl
    simp only [List.mem_map] at hl
    obtain ⟨p, -, rfl⟩ := hl
    exact (List.nodup_range _).map (fun a b h => by cases h; rfl)
  · rw [List.pairwise_map]
    have hp : m.Pairwise (fun a b => a.1 ≠ b.1) := by
      simpa [List.Nodup, List.pairwise_map] using hkeys
    refine hp.imp ?_
    intro a b hab
    intro x hx hy
    simp only [List.mem_map, List.mem_range] at hx hy
    obtain ⟨i, -, rfl⟩ := hx
    obtain ⟨j, -, hj⟩ := hy
    simp only [EntryKey.specific.injEq, true_and] at hj
    exact hab hj.1.symm

theorem responseKeys_nodup (r : Responses)
    (happly : (r.ProvisionApplyMap.map Prod.fst).Nodup)
    (hplan : (r.ProvisionPlanMap.map Prod.fst).Nodup) : (responseKeys r).Nodup := by
  unfold responseKeys
  have hP : ((List.range r.Parse.elems.length).map EntryKey.parse).Nodup :=
    (List.nodup_range _).map (fun a b h => by cases h; rfl)
  have hA : ((List.range r.ProvisionApply.elems.length).map (EntryKey.generic false)).Nodup :=
    (List.nodup_range _).map (fun a b h => by cases h; rfl)
  have hPl : ((List.range r.ProvisionPlan.elems.length).map (EntryKey.generic true)).Nodup :=
    (List.nodup_range _).map (fun a b h => by cases h; rfl)
  have hmem : ∀ (plan : Bool) (m : List (Int × List Provision_Response)) (k : EntryKey),
      k ∈ mapKeys plan m → ∃ t i, k = .specific plan t i := by
    intro plan m k hk
    simp only [mapKeys, List.mem_flatten, List.mem_map] at hk
    obtain ⟨l, ⟨p, -, rfl⟩, hk⟩ := hk
    simp only [List.mem_map] at hk
    obtain ⟨i, -, rfl⟩ := hk
    exact ⟨_, _, rfl⟩
  refine List.Nodup.append (List.Nodup.append (List.Nodup.append (List.Nodup.append hP hA ?_)
    hPl ?_) (mapKeys_nodup false _ happly) ?_) (mapKeys_nodup true _ hplan) ?_
  · intro k h1 h2
    simp only [List.mem_map] at h1 h2
    obtain ⟨i, -, rfl⟩ := h1
    obtain ⟨j, -, hj⟩ := h2
    cases hj
  · intro k h1 h2
    simp only [List.mem_append, List.mem_map] at h1 h2
    obtain ⟨j, -, rfl⟩ := h2
    rcases h1 with ⟨i, -, hi⟩ | ⟨i, -, hi⟩ <;> cases hi
  · intro k h1 h2
    obtain ⟨t, i, rfl⟩ := hmem _ _ _ h2
    simp only [List.mem_append, List.mem_map] at h1
    rcases h1 with (⟨i, -, hi⟩ | ⟨i, -, hi⟩) | ⟨i, -, hi⟩ <;> cases hi
  · intro k h1 h2
    obtain ⟨t, i, rfl⟩ := hmem _ _ _ h2
    simp only [List.mem_append, List.mem_map] at h1
    rcases h1 with ((⟨i, -, hi⟩ | ⟨i, -, hi⟩) | ⟨i, -, hi⟩) | h1
    · cases hi
    · cases hi
    · cases hi
    · obtain ⟨s, j, hs⟩ := hmem _ _ _ h1
      cases hs

theorem toDigitsCore_digits : ∀ (fuel n : Nat) (ds : List Char),
    ∃ xs : List Char, Nat.toDigitsCore 10 fuel n ds = xs ++ ds ∧
      ∀ c ∈ xs, ∃ k, k < 10 ∧ c = Nat.digitChar k := by
  intro fuel
  induction fuel with
  | zero => intro n ds; exact ⟨[], rfl, by simp⟩
  | succ fuel ih =>
    intro n ds
    have hmod : n % 10 < 10 := Nat.mod_lt _ (by decide)
    by_cases hq : n / 10 = 0
    · refine ⟨[Nat.digitChar (n % 10)], by simp [Nat.toDigitsCore, hq], ?_⟩
      intro c hc
      simp only [List.mem_singleton] at hc
      exact ⟨_, hmod, hc⟩
    · obtain ⟨xs, hxs, hdig⟩ := ih (n / 10) (Nat.digitChar (n % 10) :: ds)
      refine ⟨xs ++ [Nat.digitChar (n % 10)], by simp [Nat.toDigitsCore, hq, hxs], ?_⟩
      intro c hc
      simp only [List.mem_append, List.mem_singleton] at hc
      rcases hc with hc | hc
      · exact hdig c hc
      · exact ⟨_, hmod, hc⟩

theorem toString_nat_digits (n : Nat) :
    ∀ c ∈ (toString n).data, ∃ k, k < 10 ∧ c = Nat.digitChar k := by
  obtain ⟨xs, hxs, hdig⟩ := toDigitsCore_digits (n + 1) n []
  rw [toString_nat_data, Nat.toDigits, hxs]
  simpa using hdig

theorem toString_int_data (n : Int) :
    (toString n).data = match n with
      | Int.ofNat m => (toString m).data
      | Int.negSucc m => '-' :: (toString (m + 1)).data := by
  cases n <;> rfl

theorem toString_int_chars (n : Int) : ∀ c ∈ (toString n).data, numeralChar c := by
  intro c hc
  rw [toString_int_data] at hc
  cases n with
  | ofNat m => exact Or.inr (toString_nat_digits m c hc)
  | negSucc m =>
    simp only [List.mem_cons] at hc
    rcases hc with rfl | hc
    · exact Or.inl rfl
    · exact Or.inr (toString_nat_digits _ c hc)

theorem digitChar_ne_minus (k : Nat) (h : k < 10) : Nat.digitChar k ≠ '-' := by
  interval_cases k <;> decide

theorem toString_int_injective {a b : Int} (h : toString a = toString b) : a = b := by
  have hd := congrArg String.data h
  rw [toString_int_data, toString_int_data] at hd
  cases a with
  | ofNat m =>
    cases b with
    | ofNat n => rw [toString_nat_injective hd]
    | negSucc n =>
      simp only at hd
      have hmem : '-' ∈ (toString m).data := by rw [hd]; exact List.mem_cons_self _ _
      obtain ⟨k, hk, hc⟩ := toString_nat_digits m _ hmem
      exact absurd hc.symm (digitChar_ne_minus k hk)
  | negSucc m =>
    cases b with
    | ofNat n =>
      simp only at hd
      have hmem : '-' ∈ (toString n).data := by rw [← hd]; exact List.mem_cons_self _ _
      obtain ⟨k, hk, hc⟩ := toString_nat_digits n _ hmem
      exact absurd hc.symm (digitChar_ne_minus k hk)
    | negSucc n =>
      simp only [List.cons.injEq, true_and] at hd
      have := toString_nat_injective hd
      have hmn : m = n := by omega
      rw [hmn]

theorem numeralChar_toLower (c : Char) (h : numeralChar c) : c.toLower = c := by
  rcases h with rfl | ⟨k, hk, rfl⟩
  · decide
  · interval_cases k <;> decide

theorem numeralChar_not_letter (c : Char) (h : numeralChar c) : c ≠ 's' ∧ c ≠ 'd' := by
  rcases h with rfl | ⟨k, hk, rfl⟩
  · decide
  · interval_cases k <;> decide

theorem sample_lower_numeral (t : Int) :
    sampleDeps.ToLower (toString t) = toString t := by
  apply String.ext
  show (toString t).data.map Char.toLower = (toString t).data
  have : ∀ (l : List Char), (∀ c ∈ l, numeralChar c) → l.map Char.toLower = l := by
    intro l
    induction l with
    | nil => intro _; rfl
    | cons c rest ih =>
      intro h
      rw [List.map_cons, numeralChar_toLower c (h c (List.mem_cons_self _ _)),
        ih (fun x hx => h x (List.mem_cons_of_mem _ hx))]
  exact this _ (toString_int_chars t)

theorem sample_transition_names_injective :
    Function.Injective (fun t : Int => sampleDeps.ToLower (sampleDeps.TransitionString t)) := by
  have hnum : ∀ t : Int, t ≠ 0 → t ≠ 1 → t ≠ 2 →
      sampleDeps.ToLower (sampleDeps.TransitionString t) = toString t := by
    intro t h0 h1 h2
    have : sampleDeps.TransitionString t = toString t := by
      simp [sampleDeps, h0, h1, h2]
    rw [this, sample_lower_numeral]
  have hnamed : ∀ t : Int, t = 0 ∨ t = 1 ∨ t = 2 →
      's' ∈ (sampleDeps.ToLower (sampleDeps.TransitionString t)).data ∨
      'd' ∈ (sampleDeps.ToLower (sampleDeps.TransitionString t)).data := by
    intro t ht
    rcases ht with rfl | rfl | rfl <;> decide
  have hclash : ∀ s t : Int, (s = 0 ∨ s = 1 ∨ s = 2) → t ≠ 0 → t ≠ 1 → t ≠ 2 →
      sampleDeps.ToLower (sampleDeps.TransitionString s)
        ≠ sampleDeps.ToLower (sampleDeps.TransitionString t) := by
    intro s t hs h0 h1 h2 h
    rw [hnum t h0 h1 h2] at h
    rcases hnamed s hs with hm | hm
    · rw [h] at hm
      exact (numeralChar_not_letter _ (toString_int_chars t _ hm)).1 rfl
    · rw [h] at hm
      exact (numeralChar_not_letter _ (toString_int_chars t _ hm)).2 rfl
  intro s t h
  simp only at h
  by_cases hs : s = 0 ∨ s = 1 ∨ s = 2
  · by_cases ht : t = 0 ∨ t = 1 ∨ t = 2
    · rcases hs with rfl | rfl | rfl <;> rcases ht with rfl | rfl | rfl <;>
        first | rfl | (exact absurd h (by decide))
    · simp only [not_or] at ht
      exact absurd h (hclash s t hs ht.1 ht.2.1 ht.2.2)
  · simp only [not_or] at hs
    by_cases ht : t = 0 ∨ t = 1 ∨ t = 2
    · exact absurd h.symm (hclash t s ht hs.1 hs.2.1 hs.2.2)
    · simp only [not_or] at ht
      rw [hnum s hs.1 hs.2.1 hs.2.2, hnum t ht.1 ht.2.1 ht.2.2] at h
      exact toString_int_injective h

theorem sample_join_empty (name : String) : sampleDeps.Join "" name = name := by
  simp [sampleDeps]

theorem filter_isSome_eq (d : Deps) (config : Provision_Config) (m : Provision_Response) :
    (filterLogResponses d config m).isSome = !suppresses d config m := by
  cases m with
  | Complete p => rfl
  | Unset => rfl
  | Log level output =>
    by_cases h : config.ProvisionerLogLevel = ""
    · simp [filterLogResponses, suppresses, h]
    · by_cases hl : level < (d.LogLevel_value (d.ToUpper config.ProvisionerLogLevel)).getD 0
      · simp [filterLogResponses, suppresses, h, hl]
      · simp [filterLogResponses, suppresses, h, hl]

theorem kept_eq_filter (d : Deps) (config : Provision_Config) (msgs : List Provision_Response) :
    kept d config msgs = msgs.filter (fun m => !suppresses d config m) := by
  unfold kept
  congr 1
  funext m
  exact filter_isSome_eq d config m

theorem filterMap_eq_filter (d : Deps) (config : Provision_Config)
    (msgs : List Provision_Response) :
    msgs.filterMap (filterLogResponses d config)
      = msgs.filter (fun m => !suppresses d config m) := by
  rw [filterMap_eq_kept, kept_eq_filter]

theorem filter_empty_threshold (d : Deps) (config : Provision_Config)
    (h : config.ProvisionerLogLevel = "") (msgs : List Provision_Response) :
    msgs.filter (fun m => !suppresses d config m) = msgs := by
  rw [← filterMap_eq_filter]
  exact filterMap_empty_threshold d config h msgs

theorem lookup_map_join (d : Deps) (dir : String) (name : String) :
    ∀ archive : Archive,
      (∀ entry ∈ archive, d.Join dir entry.1 = d.Join dir name → entry.1 = name) →
      Archive.lookup (archive.map (fun entry => (d.Join dir entry.1, entry.2)))
          (d.Join dir name)
        = archive.lookup name := by
  intro archive
  induction archive with
  | nil => intro _; rfl
  | cons e rest ih =>
    intro h
    obtain ⟨n, data⟩ := e
    simp only [List.map_cons, Archive.lookup]
    rw [ih (fun entry hmem => h entry (List.mem_cons_of_mem _ hmem))]
    cases Archive.lookup rest name with
    | some later => rfl
    | none =>
      simp only
      by_cases hn : n = name
      · subst hn
        simp
      · have : d.Join dir n ≠ d.Join dir name :=
          fun hj => hn (h (n, data) (List.mem_cons_self _ _) hj)
        simp [hn, this]

theorem extracted_unpack (d : Deps) (dir : String) (archive : Archive)
    (hnames : ∀ entry ∈ archive, ∃ key : EntryKey, key.name d = entry.1)
    (hjoin : JoinKeepsNames d dir) :
    Extracted d (Fs.unpack d dir archive) dir archive := by
  intro key
  have hl := lookup_map_join d dir (key.name d) archive (by
    intro entry hmem hj
    obtain ⟨other, hother⟩ := hnames entry hmem
    rw [← hother] at hj ⊢
    exact hjoin other key hj)
  cases h : archive.lookup (key.name d) with
  | none => simp [Fs.unpack, Fs.ofArchive, hl, h]
  | some data => simp [Fs.unpack, Fs.ofArchive, hl, h]

theorem catalog_entry_names (d : Deps) (r : Responses) :
    ∀ entry ∈ catalog d r, ∃ key : EntryKey, key.name d = entry.1 := by
  intro entry hmem
  have h1 : entry.1 ∈ (catalog d r).map Prod.fst := List.mem_map_of_mem _ hmem
  rw [catalog_names] at h1
  obtain ⟨key, -, hkey⟩ := List.mem_map.mp h1
  exact ⟨key, hkey⟩

theorem tar_entry_names (d : Deps) (r : Responses) (archive : Archive)
    (htar : (Tar d (some r)).ret = .ok archive) :
    ∀ entry ∈ archive, ∃ key : EntryKey, key.name d = entry.1 := by
  obtain ⟨-, rfl⟩ := tar_ok d r archive htar
  exact catalog_entry_names d _

theorem ProvisionLoop_terminates (d : Deps) (fs : Fs) (plan : Bool) (config : Provision_Config)
    (stream : Stream Provision_Response) (n : Nat)
    (hend : firstExisting fs (provisionPaths d plan config n) = none) :
    ∀ (fuel i : Nat) (sent : List Provision_Response), i ≤ n → n - i < fuel →
      ∃ run, ProvisionLoop d fs plan config stream fuel i sent = some run := by
  intro fuel
  induction fuel with
  | zero => intro i sent _ h; omega
  | succ fuel ih =>
    intro i sent hi hfuel
    rw [ProvisionLoop]
    cases hp : firstExisting fs (provisionPaths d plan config i) with
    | none =>
      by_cases h0 : i = 0
      · exact ⟨⟨sent, false, .returned (some .noState)⟩, by simp [h0]⟩
      · exact ⟨awaitDone stream sent, by simp [h0]⟩
    | some path =>
      have hne : i ≠ n := by
        intro h
        rw [h, hend] at hp
        cases hp
      simp only
      cases hr : readAndSend d fs config stream path sent with
      | inl run => exact ⟨run, rfl⟩
      | inr sent2 => exact ih (i + 1) sent2 (by omega) (by omega)

theorem splitSlash_ne_nil : ∀ cs : List Char, splitSlash cs ≠ [] := by
  intro cs
  cases cs with
  | nil => simp [splitSlash]
  | cons c rest =>
    unfold splitSlash
    split
    · simp
    · split <;> simp

theorem splitSlash_of_noSlash : ∀ cs : List Char, '/' ∉ cs → splitSlash cs = [cs] := by
  intro cs
  induction cs with
  | nil => intro _; rfl
  | cons c rest ih =>
    intro h
    have hc : c ≠ '/' := fun hc => h (hc ▸ List.mem_cons_self _ _)
    have hrest := ih (fun hm => h (List.mem_cons_of_mem _ hm))
    simp [splitSlash, hc, hrest]

theorem splitSlash_append_slash (a b : List Char) :
    splitSlash (a ++ '/' :: b) = splitSlash a ++ splitSlash b := by
  induction a with
  | nil => simp [splitSlash]
  | cons c rest ih =>
    by_cases hc : c = '/'
    · simp [splitSlash, hc, ih]
    · simp only [List.cons_append, splitSlash, hc, if_false]
      have ih2 : splitSlash (rest.append ('/' :: b)) = splitSlash rest ++ splitSlash b := ih
      rw [ih2]
      cases hs : splitSlash rest with
      | nil => exact absurd hs (splitSlash_ne_nil rest)
      | cons first others => simp

theorem cleanParts_cons (rooted : Bool) (part : List Char) (rest kept : List (List Char)) :
    cleanParts rooted (part :: rest) kept
      = if part = [] ∨ part = ['.'] then cleanParts rooted rest kept
        else if part = ['.', '.'] then
          match kept with
          | last :: before =>
            if last = ['.', '.'] then cleanParts rooted rest (part :: kept)
            else cleanParts rooted rest before
          | [] => if rooted then cleanParts rooted rest [] else cleanParts rooted rest [part]
        else cleanParts rooted rest (part :: kept) := by
  cases kept <;> simp only [cleanParts]

theorem cleanParts_append (rooted : Bool) :
    ∀ (parts kept : List (List Char)), ∃ kept2 : List (List Char),
      ∀ more, cleanParts rooted (parts ++ more) kept = cleanParts rooted more kept2 := by
  intro parts
  induction parts with
  | nil => intro kept; exact ⟨kept, fun _ => rfl⟩
  | cons part rest ih =>
    intro kept
    by_cases h1 : part = [] ∨ part = ['.']
    · obtain ⟨kept2, h⟩ := ih kept
      exact ⟨kept2, fun more => by rw [List.cons_append, cleanParts_cons, if_pos h1]; exact h more⟩
    · by_cases h2 : part = ['.', '.']
      · cases kept with
        | nil =>
          cases rooted with
          | true =>
            obtain ⟨kept2, h⟩ := ih []
            exact ⟨kept2, fun more => by
              rw [List.cons_append, cleanParts_cons, if_neg h1, if_pos h2]; exact h more⟩
          | false =>
            obtain ⟨kept2, h⟩ := ih [part]
            exact ⟨kept2, fun more => by
              rw [List.cons_append, cleanParts_cons, if_neg h1, if_pos h2]; exact h more⟩
        | cons last before =>
          by_cases h3 : last = ['.', '.']
          · obtain ⟨kept2, h⟩ := ih (part :: last :: before)
            exact ⟨kept2, fun more => by
              rw [List.cons_append, cleanParts_cons, if_neg h1, if_pos h2]
              simp only [if_pos h3]
              exact h more⟩
          · obtain ⟨kept2, h⟩ := ih before
            exact ⟨kept2, fun more => by
              rw [List.cons_append, cleanParts_cons, if_neg h1, if_pos h2]
              simp only [if_neg h3]
              exact h more⟩
      · obtain ⟨kept2, h⟩ := ih (part :: kept)
        exact ⟨kept2, fun more => by
          rw [List.cons_append, cleanParts_cons, if_neg h1, if_neg h2]; exact h more⟩

theorem cleanParts_single (rooted : Bool) (name : List Char) (hlen : 3 ≤ name.length)
    (kept : List (List Char)) : cleanParts rooted [name] kept = kept.reverse ++ [name] := by
  have h0 : name ≠ [] := by intro h; rw [h] at hlen; simp at hlen
  have h1 : name ≠ ['.'] := by intro h; rw [h] at hlen; simp at hlen
  have h2 : name ≠ ['.', '.'] := by intro h; rw [h] at hlen; simp at hlen
  simp [cleanParts, h0, h1, h2]

theorem joinSlash_append_single (name : List Char) :
    ∀ parts : List (List Char),
      joinSlash (parts ++ [name])
        = (if parts = [] then [] else joinSlash parts ++ ['/']) ++ name := by
  intro parts
  induction parts with
  | nil => simp [joinSlash]
  | cons part rest ih =>
    cases rest with
    | nil => simp [joinSlash]
    | cons next others =>
      have ih2 : joinSlash (next :: (others ++ [name]))
          = joinSlash (next :: others) ++ ['/'] ++ name := by
        simpa using ih
      have hstep : joinSlash (part :: next :: (others ++ [name]))
          = part ++ '/' :: joinSlash (next :: (others ++ [name])) := rfl
      have hjoin : joinSlash (part :: next :: others)
          = part ++ '/' :: joinSlash (next :: others) := rfl
      rw [List.cons_append, List.cons_append, hstep, ih2, hjoin]
      simp

/-- Joining a directory with a name that is one proper path element puts the
name, unchanged, behind a text that depends on the directory alone. -/
theorem filepathJoin_appends (dir : String) :
    ∃ before : List Char, ∀ name : String, '/' ∉ name.data → 3 ≤ name.data.length →
      (filepathJoin dir name).data = before ++ name.data := by
  by_cases hdir : dir = ""
  · refine ⟨[], fun name hslash hlen => ?_⟩
    have hname : name ≠ "" := by
      intro h; rw [h] at hlen; simp at hlen
    have hdata : name.data ≠ [] := by intro h; rw [h] at hlen; simp at hlen
    have hhead : ¬ name.data.head? = some '/' := by
      intro h
      exact hslash (List.mem_of_mem_head? h)
    simp only [filepathJoin, hdir, if_true, hname, if_false, filepathClean, hdata, hhead,
      splitSlash_of_noSlash _ hslash, decide_False, List.nil_append]
    rw [cleanParts_single false _ hlen]
    simp [joinSlash, hdata]
  · have hdata : dir.data ≠ [] := fun h => hdir (String.ext h)
    obtain ⟨kept2, hkept⟩ := cleanParts_append (decide (dir.data.head? = some '/'))
      (splitSlash dir.data) []
    refine ⟨(if dir.data.head? = some '/' then ['/'] else [])
      ++ (if kept2.reverse = [] then [] else joinSlash kept2.reverse ++ ['/']),
      fun name hslash hlen => ?_⟩
    have hname : name.data ≠ [] := by intro h; rw [h] at hlen; simp at hlen
    have hpath : dir.data ++ '/' :: name.data ≠ [] := by simp
    have hhead : (dir.data ++ '/' :: name.data).head? = dir.data.head? := by
      cases hd : dir.data with
      | nil => exact absurd hd hdata
      | cons c rest => rfl
    simp only [filepathJoin, hdir, if_false, filepathClean, hpath, hhead,
      splitSlash_append_slash, splitSlash_of_noSlash _ hslash]
    rw [hkept, cleanParts_single _ _ hlen, joinSlash_append_single]
    by_cases hroot : dir.data.head? = some '/'
    · simp [hroot]
    · simp [hroot, hname]

/-- Under `/tmp/echo`, a name that is one proper path element goes to the
path that ends in that name. -/
theorem filepathJoin_element (name : String) (hslash : '/' ∉ name.data)
    (hlen : 3 ≤ name.data.length) :
    filepathJoin "/tmp/echo" name = "/tmp/echo/" ++ name := by
  have h0 : name.data ≠ [] := by intro h; rw [h] at hlen; simp at hlen
  have h1 : name.data ≠ ['.'] := by intro h; rw [h] at hlen; simp at hlen
  have h2 : name.data ≠ ['.', '.'] := by intro h; rw [h] at hlen; simp at hlen
  apply String.ext
  have hsplit : splitSlash ("/tmp/echo".data ++ '/' :: name.data)
      = [[], ['t', 'm', 'p'], ['e', 'c', 'h', 'o'], name.data] := by
    have hdirs : splitSlash "/tmp/echo".data = [[], ['t', 'm', 'p'], ['e', 'c', 'h', 'o']] := by
      decide
    rw [splitSlash_append_slash, splitSlash_of_noSlash _ hslash, hdirs]
    rfl
  have hdir : ("/tmp/echo" : String) ≠ "" := by decide
  simp only [filepathJoin, hdir, if_false, filepathClean]
  rw [hsplit]
  simp [cleanParts, joinSlash, h0, h1, h2, String.data_append]

theorem digitChar_ne_slash (k : Nat) (h : k < 10) : Nat.digitChar k ≠ '/' := by
  interval_cases k <;> decide

theorem toString_nat_noSlash (n : Nat) : '/' ∉ (toString n).data := by
  intro h
  obtain ⟨k, hk, hc⟩ := toString_nat_digits n _ h
  exact digitChar_ne_slash k hk hc.symm

theorem numeralChar_ne_slash (c : Char) (h : numeralChar c) : c ≠ '/' := by
  rcases h with rfl | ⟨k, hk, rfl⟩
  · decide
  · exact digitChar_ne_slash k hk

theorem sample_tag_noSlash (t : Int) :
    '/' ∉ (sampleDeps.ToLower (sampleDeps.TransitionString t)).data := by
  by_cases h0 : t = 0
  · subst h0; decide
  · by_cases h1 : t = 1
    · subst h1; decide
    · by_cases h2 : t = 2
      · subst h2; decide
      · have hts : sampleDeps.TransitionString t = toString t := by
          simp [sampleDeps, h0, h1, h2]
        rw [hts, sample_lower_numeral]
        intro hm
        exact numeralChar_ne_slash _ (toString_int_chars t _ hm) rfl

theorem extension_noSlash (plan : Bool) : '/' ∉ (extension plan).data := by
  cases plan <;> decide

theorem entry_name_noSlash (d : Deps)
    (htag : ∀ t, '/' ∉ (d.ToLower (d.TransitionString t)).data) (key : EntryKey) :
    '/' ∉ (key.name d).data := by
  have hprov : '/' ∉ ".provision".data := by decide
  cases key with
  | parse i =>
    show '/' ∉ (parseName i).data
    rw [parseName_data]
    simp only [List.mem_append, not_or]
    exact ⟨toString_nat_noSlash i, by decide⟩
  | generic plan i =>
    show '/' ∉ (defaultName plan i).data
    rw [defaultName_data]
    simp only [List.mem_append, not_or]
    exact ⟨toString_nat_noSlash i, hprov, extension_noSlash plan⟩
  | specific plan t i =>
    show '/' ∉ (transitionName d plan t i).data
    rw [transitionName_data]
    intro hm
    rcases List.mem_append.mp hm with h1 | h2
    · rcases List.mem_append.mp h1 with h3 | h4
      · exact toString_nat_noSlash i h3
      · rcases List.mem_cons.mp h4 with h5 | h6
        · exact absurd h5 (by decide)
        · exact htag t h6
    · rcases List.mem_append.mp h2 with h3 | h4
      · exact hprov h3
      · exact extension_noSlash plan h4

theorem extension_length (plan : Bool) : 3 ≤ (extension plan).data.length := by
  cases plan <;> decide

theorem entry_name_length (d : Deps) (key : EntryKey) : 3 ≤ (key.name d).data.length := by
  cases key with
  | parse i =>
    show 3 ≤ (parseName i).data.length
    rw [parseName_data, List.length_append]
    have : (".parse.protobuf".data).length = 15 := by decide
    omega
  | generic plan i =>
    show 3 ≤ (defaultName plan i).data.length
    rw [defaultName_data, List.length_append, List.length_append]
    have := extension_length plan
    omega
  | specific plan t i =>
    show 3 ≤ (transitionName d plan t i).data.length
    rw [transitionName_data, List.length_append, List.length_append, List.length_append]
    have := extension_length plan
    omega

theorem filepathJoin_keeps_names (d : Deps) (hjoin : d.Join = filepathJoin)
    (htag : ∀ t, '/' ∉ (d.ToLower (d.TransitionString t)).data) (dir : String) :
    JoinKeepsNames d dir := by
  intro key other h
  obtain ⟨before, hbefore⟩ := filepathJoin_appends dir
  have hd := congrArg String.data h
  rw [hjoin, hbefore _ (entry_name_noSlash d htag key) (entry_name_length d key),
    hbefore _ (entry_name_noSlash d htag other) (entry_name_length d other)] at hd
  exact String.ext (List.append_cancel_left hd)

theorem unixDeps_keeps_names (dir : String) : JoinKeepsNames unixDeps dir :=
  filepathJoin_keeps_names unixDeps rfl sample_tag_noSlash dir

/-- With paths joined and cleaned as `filepath.Join` does, unpacking the
archive `Tar` returns into any directory gives a store that holds it. -/
theorem extracted_unpack_tar (r : Responses) (archive : Archive) (dir : String)
    (htar : (Tar unixDeps (some r)).ret = .ok archive) :
    Extracted unixDeps (Fs.unpack unixDeps dir archive) dir archive :=
  extracted_unpack unixDeps dir archive (tar_entry_names unixDeps r archive htar)
    (unixDeps_keeps_names dir)

/-- The cleaning of `filepath.Join` at work: a leading `./` of the name does
not change the path. -/
theorem filepathJoin_dot_slash (name : String) (hslash : '/' ∉ name.data)
    (hlen : 3 ≤ name.data.length) :
    filepathJoin "/tmp/echo" ("./" ++ name) = filepathJoin "/tmp/echo" name := by
  rw [filepathJoin_element name hslash hlen]
  have h0 : name.data ≠ [] := by intro h; rw [h] at hlen; simp at hlen
  have h1 : name.data ≠ ['.'] := by intro h; rw [h] at hlen; simp at hlen
  have h2 : name.data ≠ ['.', '.'] := by intro h; rw [h] at hlen; simp at hlen
  apply String.ext
  have hdirs : splitSlash "/tmp/echo".data = [[], ['t', 'm', 'p'], ['e', 'c', 'h', 'o']] := by
    decide
  have hsplit : splitSlash ("/tmp/echo".data ++ '/' :: ("./" ++ name).data)
      = [[], ['t', 'm', 'p'], ['e', 'c', 'h', 'o'], ['.'], name.data] := by
    have hdot : ("./" ++ name).data = ['.'] ++ '/' :: name.data := by
      rw [String.data_append]
      rfl
    rw [splitSlash_append_slash, hdot, splitSlash_append_slash,
      splitSlash_of_noSlash _ hslash, hdirs]
    rfl
  have hdir : ("/tmp/echo" : String) ≠ "" := by decide
  simp only [filepathJoin, hdir, if_false, filepathClean]
  rw [hsplit]
  simp [cleanParts, joinSlash, h0, h1, h2, String.data_append]

theorem specEntries_eq {M : Type} (Marshal : M → Except ExtError Bytes)
    (label name : Nat → String) (h : ∀ i, label i = name i) (msgs : List M) :
    specEntries Marshal label msgs = entriesFrom Marshal name 0 msgs := by
  have : label = name := funext h
  subst this
  rfl

theorem defaultName_spelled (plan : Bool) (i : Nat) :
    defaultName plan i
      = toString i ++ (if plan then ".provision.plan.protobuf" else ".provision.apply.protobuf") := by
  unfold defaultName extension
  rw [String.append_assoc]
  cases plan <;> rfl

theorem transitionName_spelled (d : Deps) (plan : Bool) (t : Int) (i : Nat) :
    transitionName d plan t i
      = toString i ++ "." ++ d.ToLower (d.TransitionString t)
          ++ (if plan then ".provision.plan.protobuf" else ".provision.apply.protobuf") := by
  unfold transitionName extension
  rw [String.append_assoc _ ".provision"]
  cases plan <;> rfl

theorem specCatalog_eq (d : Deps) (r : Responses) : specCatalog d r = catalog d r := by
  have hparse : ∀ msgs, specEntries d.MarshalParse (fun i => toString i ++ ".parse.protobuf") msgs
      = entriesFrom d.MarshalParse parseName 0 msgs :=
    specEntries_eq d.MarshalParse _ parseName (fun _ => rfl)
  have happly : ∀ msgs,
      specEntries d.MarshalProvision (fun i => toString i ++ ".provision.apply.protobuf") msgs
        = entriesFrom d.MarshalProvision (defaultName false) 0 msgs :=
    specEntries_eq d.MarshalProvision _ (defaultName false)
      (fun i => by rw [defaultName_spelled]; rfl)
  have hplan : ∀ msgs,
      specEntries d.MarshalProvision (fun i => toString i ++ ".provision.plan.protobuf") msgs
        = entriesFrom d.MarshalProvision (defaultName true) 0 msgs :=
    specEntries_eq d.MarshalProvision _ (defaultName true)
      (fun i => by rw [defaultName_spelled]; rfl)
  have hmapApply : ∀ p : Int × List Provision_Response,
      specEntries d.MarshalProvision
          (fun i => toString i ++ "." ++ d.ToLower (d.TransitionString p.1)
            ++ ".provision.apply.protobuf") p.2
        = entriesFrom d.MarshalProvision (transitionName d false p.1) 0 p.2 :=
    fun p => specEntries_eq d.MarshalProvision _ (transitionName d false p.1)
      (fun i => by rw [transitionName_spelled]; rfl) p.2
  have hmapPlan : ∀ p : Int × List Provision_Response,
      specEntries d.MarshalProvision
          (fun i => toString i ++ "." ++ d.ToLower (d.TransitionString p.1)
            ++ ".provision.plan.protobuf") p.2
        = entriesFrom d.MarshalProvision (transitionName d true p.1) 0 p.2 :=
    fun p => specEntries_eq d.MarshalProvision _ (transitionName d true p.1)
      (fun i => by rw [transitionName_spelled]; rfl) p.2
  unfold specCatalog catalog mapEntries
  rw [hparse, happly, hplan, funext hmapApply, funext hmapPlan]

theorem mapEntries_cons (d : Deps) (plan : Bool) (p : Int × List Provision_Response)
    (rest : List (Int × List Provision_Response)) :
    mapEntries d plan (p :: rest)
      = entriesFrom d.MarshalProvision (transitionName d plan p.1) 0 p.2
          ++ mapEntries d plan rest := by
  simp [mapEntries]

theorem lookup_mapEntries_other (d : Deps) (plan : Bool)
    (hinj : Function.Injective (fun t : Int => d.ToLower (d.TransitionString t)))
    (t : Int) (i : Nat) :
    ∀ m : List (Int × List Provision_Response), (∀ p ∈ m, p.1 ≠ t) →
      Archive.lookup (mapEntries d plan m) (transitionName d plan t i) = none := by
  intro m
  induction m with
  | nil => intro _; rfl
  | cons p rest ih =>
    intro h
    rw [mapEntries_cons, lookup_append, ih (fun q hq => h q (List.mem_cons_of_mem _ hq))]
    exact lookup_entriesFrom_none _ _ _
      (fun j hj => h p (List.mem_cons_self _ _) (hinj (transitionName_eq hj).2)) _ _

theorem lookup_mapEntries_of_mem (d : Deps) (plan : Bool)
    (hinj : Function.Injective (fun t : Int => d.ToLower (d.TransitionString t)))
    (t : Int) (tseq : List Provision_Response) (i : Nat) :
    ∀ m : List (Int × List Provision_Response), (m.map Prod.fst).Nodup → (t, tseq) ∈ m →
      Archive.lookup (mapEntries d plan m) (transitionName d plan t i)
        = (tseq[i]?).map (serialized d.MarshalProvision) := by
  intro m
  induction m with
  | nil => intro _ h; cases h
  | cons p rest ih =>
    intro hnodup hmem
    rw [List.map_cons, List.nodup_cons] at hnodup
    obtain ⟨hnot, hrest⟩ := hnodup
    rw [mapEntries_cons, lookup_append]
    rcases List.mem_cons.mp hmem with hp | hin
    · subst hp
      rw [lookup_mapEntries_other d plan hinj t i rest
        (fun q hq hqt => hnot (List.mem_map.mpr ⟨q, hq, hqt⟩))]
      have := lookup_entriesFrom d.MarshalProvision (transitionName d plan t)
        (fun _ _ h => transitionName_injective h) tseq 0 i
      simpa using this
    · rw [ih hrest hin]
      cases hget : tseq[i]? with
      | some x => rfl
      | none =>
        have hne : p.1 ≠ t := by
          intro hpt
          exact hnot (List.mem_map.mpr ⟨(t, tseq), hin, hpt.symm⟩)
        simp only [Option.map_none']
        exact lookup_entriesFrom_none _ _ _
          (fun j hj => hne (hinj (transitionName_eq hj).2)) _ _

theorem sample_unix_transition_names_injective :
    Function.Injective (fun t : Int => unixDeps.ToLower (unixDeps.TransitionString t)) :=
  sample_transition_names_injective

/-- The messages a provision request gets from a packed store in which the
request's transition has no entry of its own: the default sequence of the
request's kind, without the log responses the request's threshold
suppresses. -/
theorem provision_default_filtered (d : Deps) (r : Responses) (archive : Archive) (fs : Fs)
    (msg : Provision_Request) (config : Provision_Config)
    (stream : Stream Provision_Response) (fuel : Nat)
    (hmsg : msg = .Plan (some config) ∨ msg = .Apply (some config))
    (hcodec : ∀ m data, d.MarshalProvision m = .ok data → d.UnmarshalProvision data = .ok m)
    (htar : (Tar d (some r)).ret = .ok archive)
    (hfs : Extracted d fs config.Directory archive)
    (hnone : ∀ i, archive.lookup
      (transitionName d msg.isPlan config.GetWorkspaceTransition i) = none)
    (hsend : ∀ k m, stream.Send k m = none) :
    ∃ run, Provision d fs ⟨.ok msg, stream⟩
        ((if msg.isPlan then planSequence r else r.ProvisionApply.elems).length + 1 + fuel)
          = some run ∧
      run.sent = if config.ProvisionerLogLevel = ""
        then (if msg.isPlan then planSequence r else r.ProvisionApply.elems)
        else (if msg.isPlan then planSequence r else r.ProvisionApply.elems).filter
          (fun m => !suppresses d config m) := by
  obtain ⟨run, hrun, hsent⟩ := provision_default_replay d r archive fs msg config stream fuel
    hmsg hcodec htar hfs hnone hsend
  refine ⟨run, hrun, ?_⟩
  rw [hsent, filterMap_eq_filter]
  generalize (if msg.isPlan then planSequence r else r.ProvisionApply.elems) = seq
  by_cases h : config.ProvisionerLogLevel = ""
  · rw [if_pos h]
    exact filter_empty_threshold d config h _
  · rw [if_neg h]

/-! ## The claims -/

/-- Claim C1, as stated, fails: a response set with default sequences only is
packed and laid out as a store, and an apply request whose threshold is
"error" is sent the completion alone, not the whole apply sequence: the
trace log of the sequence is lost. -/
theorem round_trip_drops_filtered_log :
    (Tar sampleDeps (some loggedResponses)).ret = .ok loggedArchive ∧
    Provision sampleDeps (Fs.ofArchive loggedArchive)
      ⟨.ok (.Apply (some ⟨"", none, "error"⟩)), Stream.reliable _ none⟩ 3
        = some ⟨[.Complete "applied"], true, .returned none⟩ ∧
    [Provision_Response.Complete "applied"] ≠ loggedResponses.ProvisionApply.elems := by
  decide

/-- Claim C1, amended: for a response set with both transition maps empty
and a codec whose `Unmarshal` inverts `Marshal`, whenever `Tar` returns an
archive and a file system holds its entries as the files of a directory,
then on streams whose sends succeed and with enough fuel `Parse` on that
directory sends exactly `responses.Parse`, and `Provision` sends, in the
original order, the responses of `responses.ProvisionApply` (apply request)
or of the plan sequence (`ProvisionPlan`, or `ProvisionApply` when
`ProvisionPlan` is nil; plan request) except the log responses whose level is
below the threshold of the request: all of them when the request has no
threshold. -/
theorem tar_round_trip (d : Deps) (r : Responses) (archive : Archive) (fs : Fs) (dir : String)
    (pstream : Stream Parse_Response) (stream : Stream Provision_Response)
    (config : Provision_Config) (fuel : Nat)
    (hamap : r.ProvisionApplyMap = []) (hpmap : r.ProvisionPlanMap = [])
    (hparse : ∀ m data, d.MarshalParse m = .ok data → d.UnmarshalParse data = .ok m)
    (hprov : ∀ m data, d.MarshalProvision m = .ok data → d.UnmarshalProvision data = .ok m)
    (htar : (Tar d (some r)).ret = .ok archive)
    (hfs : Extracted d fs dir archive) (hdir : config.Directory = dir)
    (hpsend : ∀ k m, pstream.Send k m = none) (hsend : ∀ k m, stream.Send k m = none) :
    (∃ run, Parse d fs ⟨dir⟩ pstream (r.Parse.elems.length + 1 + fuel) = some run ∧
      run.sent = r.Parse.elems) ∧
    (∃ run, Provision d fs ⟨.ok (.Apply (some config)), stream⟩
        (r.ProvisionApply.elems.length + 1 + fuel) = some run ∧
      run.sent = if config.ProvisionerLogLevel = "" then r.ProvisionApply.elems
        else r.ProvisionApply.elems.filter (fun m => !suppresses d config m)) ∧
    (∃ run, Provision d fs ⟨.ok (.Plan (some config)), stream⟩
        ((planSequence r).length + 1 + fuel) = some run ∧
      run.sent = if config.ProvisionerLogLevel = "" then planSequence r
        else (planSequence r).filter (fun m => !suppresses d config m)) := by
  subst hdir
  have hser := (tar_ok d r archive htar).1
  have harch := (tar_ok d r archive htar).2
  obtain ⟨hP, -, -, -, -⟩ := tarDefaults_some r
  refine ⟨?_, ?_, ?_⟩
  · obtain ⟨run, hrun, hsent, -⟩ := Parse_extracted d fs ⟨config.Directory⟩ pstream archive
      r.Parse.elems hfs (by intro i; rw [harch, lookup_catalog_parseName, hP])
      (by simpa [hP] using hser.1) hparse hpsend (r.Parse.elems.length + 1 + fuel) (by omega)
    exact ⟨run, hrun, hsent⟩
  · exact provision_default_filtered d r archive fs
      (.Apply (some config)) config stream fuel (Or.inr rfl) hprov htar hfs
      (lookup_transition_of_empty_map d r archive false _ htar (by simpa using hamap)) hsend
  · exact provision_default_filtered d r archive fs
      (.Plan (some config)) config stream fuel (Or.inl rfl) hprov htar hfs
      (lookup_transition_of_empty_map d r archive true _ htar (by simpa using hpmap)) hsend

/-- Witness of claim C1: the amended round trip of a debug log and a
completion through the directory `/tmp/echo`, with paths joined and cleaned
as `filepath.Join` does and the threshold "warn": the parse sequence comes
back whole, the apply and plan requests get the completion. -/
theorem tar_round_trip_witness :
    (Tar unixDeps (some debugResponses)).ret = .ok debugArchive ∧
    Provision unixDeps (Fs.unpack unixDeps "/tmp/echo" debugArchive)
        ⟨.ok (.Apply (some echoWarnConfig)), Stream.reliable _ none⟩ 3
      = some ⟨[.Complete "done"], true, .returned none⟩ ∧
    (∃ run, Parse unixDeps (Fs.unpack unixDeps "/tmp/echo" debugArchive) ⟨"/tmp/echo"⟩
        (Stream.reliable _ none) (debugResponses.Parse.elems.length + 1 + 0) = some run ∧
      run.sent = debugResponses.Parse.elems) ∧
    (∃ run, Provision unixDeps (Fs.unpack unixDeps "/tmp/echo" debugArchive)
        ⟨.ok (.Apply (some echoWarnConfig)), Stream.reliable _ none⟩
        (debugResponses.ProvisionApply.elems.length + 1 + 0) = some run ∧
      run.sent = if echoWarnConfig.ProvisionerLogLevel = ""
        then debugResponses.ProvisionApply.elems
        else debugResponses.ProvisionApply.elems.filter
          (fun m => !suppresses unixDeps echoWarnConfig m)) ∧
    (∃ run, Provision unixDeps (Fs.unpack unixDeps "/tmp/echo" debugArchive)
        ⟨.ok (.Plan (some echoWarnConfig)), Stream.reliable _ none⟩
        ((planSequence debugResponses).length + 1 + 0) = some run ∧
      run.sent = if echoWarnConfig.ProvisionerLogLevel = ""
        then planSequence debugResponses
        else (planSequence debugResponses).filter
          (fun m => !suppresses unixDeps echoWarnConfig m)) :=
  ⟨by decide, by decide,
   tar_round_trip unixDeps debugResponses debugArchive
     (Fs.unpack unixDeps "/tmp/echo" debugArchive) "/tmp/echo"
     (Stream.reliable _ none) (Stream.reliable _ none) echoWarnConfig 0 rfl rfl
     sample_codec_parse sample_codec_provision (by decide)
     (extracted_unpack_tar debugResponses debugArchive "/tmp/echo" (by decide))
     rfl (fun _ _ => rfl) (fun _ _ => rfl)⟩

/-- Claim C2: when the store has no entry at index 0 for the requested
operation, the call fails with the "no state" error and sends nothing,
whatever the store holds elsewhere. For `Parse` the missing entry is
`0.parse.protobuf` and the error wraps the error of `Stat`; for a plan or an
apply both the transition-specific and the default name of index 0 are
missing. -/
theorem zero_state_failure (d : Deps) (fs : Fs) (request : Parse_Request)
    (pstream : Stream Parse_Response) (msg : Provision_Request) (config : Provision_Config)
    (stream : Stream Provision_Response) (fuel : Nat) :
    (fs.Stat (d.Join request.Directory (parseName 0)) ≠ none →
      ∃ err, fs.Stat (d.Join request.Directory (parseName 0)) = some err ∧
        Parse d fs request pstream (fuel + 1)
          = some ⟨[], false, .returned (some (.noStateWrap err))⟩) ∧
    ((msg = .Plan (some config) ∨ msg = .Apply (some config)) →
      fs.Stat (d.Join config.Directory
        (transitionName d msg.isPlan config.GetWorkspaceTransition 0)) ≠ none →
      fs.Stat (d.Join config.Directory (defaultName msg.isPlan 0)) ≠ none →
      Provision d fs ⟨.ok msg, stream⟩ (fuel + 1)
        = some ⟨[], false, .returned (some .noState)⟩) := by
  constructor
  · intro h
    cases hs : fs.Stat (d.Join request.Directory (parseName 0)) with
    | none => exact absurd hs h
    | some err =>
      refine ⟨err, rfl, ?_⟩
      simp [Parse, ParseLoop, hs]
  · intro hmsg ht hd
    have key : ProvisionLoop d fs msg.isPlan config stream (fuel + 1) 0 []
        = some ⟨[], false, .returned (some .noState)⟩ := by
      unfold ProvisionLoop
      simp [provisionPaths, firstExisting_pair, ht, hd]
    rcases hmsg with rfl | rfl <;> simpa [Provision] using key

/-- Witness of claim C2: a store with entries at index 1 only. -/
theorem zero_state_failure_witness :
    (Fs.ofArchive laterOnlyArchive).Stat (sampleDeps.Join "" (parseName 0)) ≠ none ∧
    (∃ err, (Fs.ofArchive laterOnlyArchive).Stat (sampleDeps.Join "" (parseName 0)) = some err ∧
      Parse sampleDeps (Fs.ofArchive laterOnlyArchive) ⟨""⟩ (Stream.reliable _ none) (0 + 1)
        = some ⟨[], false, .returned (some (.noStateWrap err))⟩) ∧
    Provision sampleDeps (Fs.ofArchive laterOnlyArchive)
        ⟨.ok (.Apply (some startConfig)), Stream.reliable _ none⟩ (0 + 1)
      = some ⟨[], false, .returned (some .noState)⟩ :=
  ⟨by decide,
   (zero_state_failure sampleDeps (Fs.ofArchive laterOnlyArchive) ⟨""⟩ (Stream.reliable _ none)
      (.Apply (some startConfig)) startConfig (Stream.reliable _ none) 0).1 (by decide),
   (zero_state_failure sampleDeps (Fs.ofArchive laterOnlyArchive) ⟨""⟩ (Stream.reliable _ none)
      (.Apply (some startConfig)) startConfig (Stream.reliable _ none) 0).2
      (Or.inr rfl) (by decide) (by decide)⟩

/-- Claim C3: at every index the provision loop reaches, if the
transition-specific entry exists then the path the loop chooses is the
transition-specific one, and the iteration reads, decodes, filters and sends
the content of that entry, whether or not the default entry exists. -/
theorem transition_override_precedence (d : Deps) (fs : Fs) (msg : Provision_Request)
    (config : Provision_Config) (stream : Stream Provision_Response)
    (fuel i : Nat) (sent : List Provision_Response)
    (hspecific : fs.Stat (d.Join config.Directory
      (transitionName d msg.isPlan config.GetWorkspaceTransition i)) = none) :
    firstExisting fs (provisionPaths d msg.isPlan config i)
      = some (d.Join config.Directory
          (transitionName d msg.isPlan config.GetWorkspaceTransition i)) ∧
    ProvisionLoop d fs msg.isPlan config stream (fuel + 1) i sent
      = match readAndSend d fs config stream (d.Join config.Directory
          (transitionName d msg.isPlan config.GetWorkspaceTransition i)) sent with
        | .inl run => some run
        | .inr sent' => ProvisionLoop d fs msg.isPlan config stream fuel (i + 1) sent' := by
  have hp : firstExisting fs (provisionPaths d msg.isPlan config i)
      = some (d.Join config.Directory
          (transitionName d msg.isPlan config.GetWorkspaceTransition i)) := by
    simp [provisionPaths, firstExisting_pair, hspecific]
  refine ⟨hp, ?_⟩
  rw [ProvisionLoop, hp]

/-- Witness of claim C3: a store that holds, at index 0, both the start entry
and the default entry; the apply request for the start transition is sent
the start entry. -/
theorem transition_override_precedence_witness :
    (Fs.ofArchive overrideArchive).Stat (sampleDeps.Join startConfig.Directory
      (transitionName sampleDeps false startConfig.GetWorkspaceTransition 0)) = none ∧
    (Fs.ofArchive overrideArchive).Stat
      (sampleDeps.Join startConfig.Directory (defaultName false 0)) = none ∧
    firstExisting (Fs.ofArchive overrideArchive)
        (provisionPaths sampleDeps false startConfig 0)
      = some "0.start.provision.apply.protobuf" ∧
    ProvisionLoop sampleDeps (Fs.ofArchive overrideArchive) false startConfig
        (Stream.reliable _ none) (2 + 1) 0 []
      = some ⟨[.Complete "start 0", .Complete "default 1"], true, .returned none⟩ :=
  ⟨by decide, by decide,
   (transition_override_precedence sampleDeps (Fs.ofArchive overrideArchive)
      (.Apply (some startConfig)) startConfig (Stream.reliable _ none) 2 0 []
      (by decide)).1.trans (by decide),
   (transition_override_precedence sampleDeps (Fs.ofArchive overrideArchive)
      (.Apply (some startConfig)) startConfig (Stream.reliable _ none) 2 0 []
      (by decide)).2.trans (by decide)⟩

/-- Claim C4, as stated, fails: the store holds a default apply sequence of
two responses and a start sequence of one; the apply request for the start
transition is sent the start response of index 0 and then the default
response of index 1, not the start sequence alone. -/
theorem missing_transition_index_is_backfilled :
    (Tar sampleDeps (some overrideResponses)).ret = .ok overrideArchive ∧
    Provision sampleDeps (Fs.ofArchive overrideArchive)
      ⟨.ok (.Apply (some ⟨"", some ⟨0⟩, ""⟩)), Stream.reliable _ none⟩ 3
        = some ⟨[.Complete "start 0", .Complete "default 1"], true, .returned none⟩ ∧
    [Provision_Response.Complete "start 0", .Complete "default 1"]
      ≠ [Provision_Response.Complete "start 0"] := by
  decide

/-- Claim C4, amended: when `Tar` packs a default apply sequence `dseq` and
a map of transition-specific apply sequences that holds `tseq` for the
transition the apply request names (the map may hold other transitions,
each once as a Go map does, and distinct transitions have distinct names),
then (codec an inverse pair, sends succeeding, enough fuel) every index of `tseq` is served from `tseq` and every
later index that `dseq` has is served from `dseq`: resolution is not found
only where both are absent. The call fails with "no state" when both are
empty, and otherwise sends the responses of `tseq ++ dseq.drop tseq.length`
except the log responses below the threshold of the request, and then waits
for the cancellation. -/
theorem transition_sequence_then_default (d : Deps) (r : Responses) (archive : Archive)
    (fs : Fs) (config : Provision_Config) (stream : Stream Provision_Response) (fuel : Nat)
    (tseq dseq : List Provision_Response)
    (hdefault : r.ProvisionApply.elems = dseq)
    (hkeys : (r.ProvisionApplyMap.map Prod.fst).Nodup)
    (hmem : (config.GetWorkspaceTransition, tseq) ∈ r.ProvisionApplyMap)
    (hinj : Function.Injective (fun t : Int => d.ToLower (d.TransitionString t)))
    (hcodec : ∀ m data, d.MarshalProvision m = .ok data → d.UnmarshalProvision data = .ok m)
    (htar : (Tar d (some r)).ret = .ok archive)
    (hfs : Extracted d fs config.Directory archive)
    (hsend : ∀ k m, stream.Send k m = none) :
    Provision d fs ⟨.ok (.Apply (some config)), stream⟩
        ((tseq ++ dseq.drop tseq.length).length + 1 + fuel)
      = some (if tseq ++ dseq.drop tseq.length = []
          then ⟨[], false, .returned (some .noState)⟩
          else awaitDone stream
            ((tseq ++ dseq.drop tseq.length).filter (fun m => !suppresses d config m))) := by
  obtain ⟨hser, rfl⟩ := tar_ok d r archive htar
  obtain ⟨-, hA, -, hAM, -⟩ := tarDefaults_some r
  have hst : AllSerialize d.MarshalProvision tseq := by
    have := hser.2.2.2.1
    rw [hAM] at this
    exact this _ hmem
  have hsd : AllSerialize d.MarshalProvision dseq := by
    have := hser.2.1
    rw [hA, hdefault] at this
    exact this
  have ht : ∀ i, Archive.lookup (catalog d (tarDefaults (some r)))
      (transitionName d false config.GetWorkspaceTransition i)
        = (tseq[i]?).map (serialized d.MarshalProvision) := by
    intro i
    rw [lookup_catalog_transitionName]
    simp only [Bool.false_eq_true, if_false, hAM]
    exact lookup_mapEntries_of_mem d false hinj _ tseq i _ hkeys hmem
  have hd : ∀ i, Archive.lookup (catalog d (tarDefaults (some r))) (defaultName false i)
      = (dseq[i]?).map (serialized d.MarshalProvision) := by
    intro i
    rw [lookup_catalog_defaultName]
    simp [hA, hdefault]
  rw [← filterMap_eq_filter]
  exact ProvisionLoop_extracted d fs false config stream _ tseq dseq hfs ht hd hst hsd hcodec
    hsend _ (by omega)

/-- Witness of claim C4: a map with a stop and a start sequence, packed and
laid out under `/tmp/echo`; the apply request for the start transition, with
the threshold "warn", gets the start sequence without its debug log, followed
by the response the default sequence has at index 2. -/
theorem transition_sequence_then_default_witness :
    (Tar unixDeps (some mixedResponses)).ret = .ok mixedArchive ∧
    Provision unixDeps (Fs.unpack unixDeps "/tmp/echo" mixedArchive)
        ⟨.ok (.Apply (some echoStartConfig)), Stream.reliable _ none⟩ (3 + 1 + 0)
      = some ⟨[.Complete "start 1", .Complete "default 2"], true, .returned none⟩ :=
  ⟨by decide,
   (transition_sequence_then_default unixDeps mixedResponses mixedArchive
    (Fs.unpack unixDeps "/tmp/echo" mixedArchive) echoStartConfig (Stream.reliable _ none) 0
    [.Log 1 "start log", .Complete "start 1"]
    [.Complete "default 0", .Complete "default 1", .Complete "default 2"] rfl
    (by decide) (by decide) sample_unix_transition_names_injective
    sample_codec_provision (by decide)
    (extracted_unpack_tar mixedResponses mixedArchive "/tmp/echo" (by decide))
    (fun _ _ => rfl)).trans (by decide)⟩

/-- Claim C5: when the transition-specific entry of index 0 is missing and
the default entry of index 0 exists, a plan or an apply does not fail with
"no state": the first iteration reads the default entry and the loop goes on
at index 1, and whatever the call returns is not the "no state" error. -/
theorem fall_through_at_index_zero (d : Deps) (fs : Fs) (msg : Provision_Request)
    (config : Provision_Config) (stream : Stream Provision_Response) (fuel : Nat)
    (hmsg : msg = .Plan (some config) ∨ msg = .Apply (some config))
    (hspecific : fs.Stat (d.Join config.Directory
      (transitionName d msg.isPlan config.GetWorkspaceTransition 0)) ≠ none)
    (hdefault : fs.Stat (d.Join config.Directory (defaultName msg.isPlan 0)) = none) :
    Provision d fs ⟨.ok msg, stream⟩ (fuel + 1)
      = (match readAndSend d fs config stream
            (d.Join config.Directory (defaultName msg.isPlan 0)) [] with
         | .inl run => some run
         | .inr sent' => ProvisionLoop d fs msg.isPlan config stream fuel 1 sent') ∧
    ∀ run, Provision d fs ⟨.ok msg, stream⟩ (fuel + 1) = some run →
      run.ret ≠ .returned (some .noState) := by
  have hp : firstExisting fs (provisionPaths d msg.isPlan config 0)
      = some (d.Join config.Directory (defaultName msg.isPlan 0)) := by
    simp [provisionPaths, firstExisting_pair, hspecific, hdefault]
  have hloop : Provision d fs ⟨.ok msg, stream⟩ (fuel + 1)
      = ProvisionLoop d fs msg.isPlan config stream (fuel + 1) 0 [] := by
    rcases hmsg with rfl | rfl <;> rfl
  have hstep : ProvisionLoop d fs msg.isPlan config stream (fuel + 1) 0 []
      = (match readAndSend d fs config stream
            (d.Join config.Directory (defaultName msg.isPlan 0)) [] with
         | .inl run => some run
         | .inr sent' => ProvisionLoop d fs msg.isPlan config stream fuel 1 sent') := by
    rw [ProvisionLoop, hp]
  refine ⟨hloop.trans hstep, ?_⟩
  intro run hrun
  rw [hloop, hstep] at hrun
  cases hr : readAndSend d fs config stream
      (d.Join config.Directory (defaultName msg.isPlan 0)) [] with
  | inl r =>
    simp only [hr, Option.some.injEq] at hrun
    subst hrun
    exact readAndSend_ne_noState d fs config stream _ [] r hr
  | inr sent' =>
    simp only [hr] at hrun
    exact ProvisionLoop_ne_noState d fs msg.isPlan config stream fuel 1 sent' run (by omega) hrun

/-- Witness of claim C5: a store with default entries only and an apply
request for the start transition. -/
theorem fall_through_at_index_zero_witness :
    (Fs.ofArchive plainArchive).Stat (sampleDeps.Join startConfig.Directory
      (transitionName sampleDeps false startConfig.GetWorkspaceTransition 0)) ≠ none ∧
    (Fs.ofArchive plainArchive).Stat
      (sampleDeps.Join startConfig.Directory (defaultName false 0)) = none ∧
    Provision sampleDeps (Fs.ofArchive plainArchive)
        ⟨.ok (.Apply (some startConfig)), Stream.reliable _ none⟩ (2 + 1)
      = some ⟨[.Complete "first", .Complete "second"], true, .returned none⟩ :=
  ⟨by decide, by decide,
   (fall_through_at_index_zero sampleDeps (Fs.ofArchive plainArchive)
      (.Apply (some startConfig)) startConfig (Stream.reliable _ none) 2 (Or.inr rfl)
      (by decide) (by decide)).1.trans (by decide)⟩

/-- Claim C6: with a non-empty threshold string that names the level `l`,
`filterLogResponses` keeps a response that is not a log, keeps a log whose
level is at least `l`, and drops a log whose level is below `l`; with the
empty threshold it keeps every response, logs included. -/
theorem log_filtering (d : Deps) (config : Provision_Config) (r : Provision_Response) :
    (∀ l : Int, config.ProvisionerLogLevel ≠ "" →
      d.LogLevel_value (d.ToUpper config.ProvisionerLogLevel) = some l →
      ((∀ level output, r ≠ .Log level output) → filterLogResponses d config r = some r) ∧
      (∀ level output, r = .Log level output → l ≤ level →
        filterLogResponses d config r = some r) ∧
      (∀ level output, r = .Log level output → level < l →
        filterLogResponses d config r = none)) ∧
    (config.ProvisionerLogLevel = "" → filterLogResponses d config r = some r) := by
  refine ⟨fun l hne hl => ⟨?_, ?_, ?_⟩, ?_⟩
  · intro hr
    cases r with
    | Log level output => exact absurd rfl (hr level output)
    | Complete p => rfl
    | Unset => rfl
  · rintro level output rfl hle
    simp [filterLogResponses, hne, hl, not_lt.mpr hle]
  · rintro level output rfl hlt
    simp [filterLogResponses, hne, hl, hlt]
  · intro he
    cases r <;> simp [filterLogResponses, he]

/-- Witness of claim C6: under the threshold "warn" (level 3) a debug log is
dropped, an error log and a completion are kept; without a threshold the
debug log is kept. -/
theorem log_filtering_witness :
    warnConfig.ProvisionerLogLevel ≠ "" ∧
    sampleDeps.LogLevel_value (sampleDeps.ToUpper warnConfig.ProvisionerLogLevel) = some 3 ∧
    filterLogResponses sampleDeps warnConfig (.Complete "done") = some (.Complete "done") ∧
    filterLogResponses sampleDeps warnConfig (.Log 4 "error line")
      = some (.Log 4 "error line") ∧
    filterLogResponses sampleDeps warnConfig (.Log 1 "debug line") = none ∧
    filterLogResponses sampleDeps startConfig (.Log 1 "debug line")
      = some (.Log 1 "debug line") :=
  ⟨by decide, by decide,
   ((log_filtering sampleDeps warnConfig (.Complete "done")).1 3 (by decide) (by decide)).1
     (by intro level output h; cases h),
   ((log_filtering sampleDeps warnConfig (.Log 4 "error line")).1 3
     (by decide) (by decide)).2.1 4 "error line" rfl (by decide),
   ((log_filtering sampleDeps warnConfig (.Log 1 "debug line")).1 3
     (by decide) (by decide)).2.2 1 "debug line" rfl (by decide),
   (log_filtering sampleDeps startConfig (.Log 1 "debug line")).2 rfl⟩

/-- Claim C8, as stated, fails: for a response set whose `ProvisionPlan` is
nil the archive is not one entry per response of the set. The set has three
responses (one parse, two apply, no plan), and `Tar` returns five entries:
the three of the catalog and a plan entry for each apply response. -/
theorem tar_adds_plan_entries_for_nil_plan :
    plainResponses.ProvisionPlan = none ∧
    Serializes sampleDeps plainResponses ∧
    specCatalog sampleDeps plainResponses
      = [("0.parse.protobuf", 2 :: encodeString "parsed"),
         ("0.provision.apply.protobuf", 2 :: encodeString "first"),
         ("1.provision.apply.protobuf", 2 :: encodeString "second")] ∧
    (Tar sampleDeps (some plainResponses)).ret
      = .ok (specCatalog sampleDeps plainResponses
          ++ [("0.provision.plan.protobuf", 2 :: encodeString "first"),
              ("1.provision.plan.protobuf", 2 :: encodeString "second")]) ∧
    (Tar sampleDeps (some plainResponses)).ret
      ≠ .ok (specCatalog sampleDeps plainResponses) :=
  ⟨rfl, sample_serializes _, by decide, by decide, by decide⟩

/-- Claim C8, amended: for a response set whose messages all serialise,
`Tar` returns exactly the catalog of the set in which a nil `ProvisionPlan`
is replaced by `ProvisionApply`: one entry per response of that set and
nothing else, named `{i}.parse.protobuf`, `{i}.provision.apply.protobuf`,
`{i}.provision.plan.protobuf` and, for the transition maps,
`{i}.{t}.provision.apply.protobuf` and `{i}.{t}.provision.plan.protobuf`, each
holding the serialisation of its response. -/
theorem tar_catalog (d : Deps) (r : Responses) (hser : Serializes d r) :
    (Tar d (some r)).ret = .ok (specCatalog d { r with ProvisionPlan :=
      if r.ProvisionPlan = none then r.ProvisionApply else r.ProvisionPlan }) := by
  have h : tarDefaults (some r) = { r with ProvisionPlan :=
      if r.ProvisionPlan = none then r.ProvisionApply else r.ProvisionPlan } := by
    unfold tarDefaults
    by_cases h : r.ProvisionPlan = none <;> simp [h]
  rw [specCatalog_eq, ← h]
  exact (tarWrite_ok_iff d _ _).mpr ⟨serializes_tarDefaults d r hser, rfl⟩

/-- Witness of claim C8: a set with a parse response, two apply responses,
no plan sequence and one start response; the archive has the six entries of
the catalog of the set with the plan sequence defaulted. -/
theorem tar_catalog_witness :
    specCatalog sampleDeps { overrideResponses with
        ProvisionPlan := overrideResponses.ProvisionApply }
      = [("0.parse.protobuf", 2 :: encodeString "parsed"),
         ("0.provision.apply.protobuf", 2 :: encodeString "default 0"),
         ("1.provision.apply.protobuf", 2 :: encodeString "default 1"),
         ("0.provision.plan.protobuf", 2 :: encodeString "default 0"),
         ("1.provision.plan.protobuf", 2 :: encodeString "default 1"),
         ("0.start.provision.apply.protobuf", 2 :: encodeString "start 0")] ∧
    (Tar sampleDeps (some overrideResponses)).ret
      = .ok (specCatalog sampleDeps { overrideResponses with
          ProvisionPlan := if overrideResponses.ProvisionPlan = none
            then overrideResponses.ProvisionApply else overrideResponses.ProvisionPlan }) :=
  ⟨by decide, tar_catalog sampleDeps overrideResponses (sample_serializes _)⟩

/-- Claim C9, as stated, fails: `Tar` on a set whose `ProvisionPlan` is nil
leaves the caller's struct with `ProvisionPlan` set to the apply sequence. -/
theorem tar_overwrites_nil_plan :
    (Tar sampleDeps (some plainResponses)).responses
      = some { plainResponses with
          ProvisionPlan := some [.Complete "first", .Complete "second"] } ∧
    (Tar sampleDeps (some plainResponses)).responses ≠ some plainResponses := by
  decide

/-- Claim C9, amended: `Tar` leaves `Parse`, `ProvisionApply` and both
transition maps of its argument as they were; it leaves `ProvisionPlan` as it
was when it is not nil, and writes `ProvisionApply` into it when it is nil. A
nil argument stays nil. -/
theorem tar_writes_only_nil_plan (d : Deps) (r : Responses) :
    (Tar d none).responses = none ∧
    ∃ after, (Tar d (some r)).responses = some after ∧
      after.Parse = r.Parse ∧ after.ProvisionApply = r.ProvisionApply ∧
      after.ProvisionApplyMap = r.ProvisionApplyMap ∧
      after.ProvisionPlanMap = r.ProvisionPlanMap ∧
      after.ProvisionPlan
        = if r.ProvisionPlan = none then r.ProvisionApply else r.ProvisionPlan := by
  refine ⟨rfl, tarDefaults (some r), rfl, ?_⟩
  unfold tarDefaults
  by_cases h : r.ProvisionPlan = none <;> simp [h]

/-- Claim C10: when the first request of a provision stream is neither a
plan nor an apply, `Provision` returns nil at once: nothing is sent, the
result is the same for every store, and no fuel is needed since the loop is
not entered. -/
theorem short_circuit_non_plan_non_apply (d : Deps) (fs : Fs) (stream : ProvisionStream)
    (msg : Provision_Request) (fuel : Nat)
    (hrecv : stream.Recv = .ok msg) (hplan : msg.isPlan = false) (happly : msg.isApply = false) :
    Provision d fs stream fuel = some ⟨[], false, .returned none⟩ := by
  unfold Provision
  rw [hrecv]
  cases msg with
  | Plan c => simp [Provision_Request.isPlan] at hplan
  | Apply c => simp [Provision_Request.isApply] at happly
  | Cancel => rfl
  | Unset => rfl

/-- Witness of claim C10: a cancel request on the empty store. -/
theorem short_circuit_non_plan_non_apply_witness :
    Provision sampleDeps (Fs.ofArchive []) ⟨.ok .Cancel, Stream.reliable _ none⟩ 0
      = some ⟨[], false, .returned none⟩ :=
  short_circuit_non_plan_non_apply sampleDeps (Fs.ofArchive [])
    ⟨.ok .Cancel, Stream.reliable _ none⟩ .Cancel 0 rfl rfl rfl

/-- Claim C11, as stated, fails: on a cancel request `Provision` returns nil
without passing through the wait on the context, although the context of the
stream is cancelled with an error, which the final wait state would have
returned. -/
theorem short_circuit_does_not_wait :
    Provision sampleDeps (Fs.ofArchive [])
        ⟨.ok .Cancel, cancelledStream Provision_Response⟩ 1
      = some ⟨[], false, .returned none⟩ ∧
    awaitDone (cancelledStream Provision_Response) []
      = ⟨[], true, .returned (some (.external "context canceled"))⟩ ∧
    (some ⟨[], false, .returned none⟩ : Option (Run Provision_Response))
      ≠ some (awaitDone (cancelledStream Provision_Response) []) := by
  decide

/-- Claim C11, amended: in the short-circuit case (the first request is
neither a plan nor an apply) the handler does not enter the final wait state:
it returns at once, with no error and nothing sent, whatever the cancellation
signal of the stream and its error are. -/
theorem short_circuit_returns_at_once (d : Deps) (fs : Fs) (stream : ProvisionStream)
    (msg : Provision_Request) (fuel : Nat)
    (hrecv : stream.Recv = .ok msg) (hplan : msg.isPlan = false) (happly : msg.isApply = false) :
    ∃ run, Provision d fs stream fuel = some run ∧ run.sent = [] ∧ run.waited = false ∧
      run.ret = .returned none := by
  refine ⟨⟨[], false, .returned none⟩, ?_, rfl, rfl, rfl⟩
  unfold Provision
  rw [hrecv]
  cases msg with
  | Plan c => simp [Provision_Request.isPlan] at hplan
  | Apply c => simp [Provision_Request.isApply] at happly
  | Cancel => rfl
  | Unset => rfl

/-- Witness of claim C11: a cancel request on a stream whose context is
cancelled with an error. -/
theorem short_circuit_returns_at_once_witness :
    ∃ run, Provision sampleDeps (Fs.ofArchive plainArchive)
        ⟨.ok .Cancel, cancelledStream Provision_Response⟩ 0 = some run ∧
      run.sent = [] ∧ run.waited = false ∧ run.ret = .returned none :=
  short_circuit_returns_at_once sampleDeps (Fs.ofArchive plainArchive)
    ⟨.ok .Cancel, cancelledStream Provision_Response⟩ .Cancel 0 rfl rfl rfl

/-- Claim C12: when resolution reaches exhaustion without error (the entries
below index `n > 0` resolve, decode and are sent, and index `n` is missing),
`Parse` and a plan or apply `Provision` send nothing after the message of the
last index, pass through the wait on the context, and return exactly the
error of the context once it is cancelled; a context that is never cancelled
leaves the call blocked. -/
theorem exhaustion_then_block (d : Deps) (fs : Fs) (request : Parse_Request)
    (pstream : Stream Parse_Response) (pmsgs : List Parse_Response)
    (msg : Provision_Request) (config : Provision_Config)
    (stream : Stream Provision_Response) (msgs : List Provision_Response) (fuel : Nat) :
    (pmsgs ≠ [] → ParseResolves d fs request pstream pmsgs →
      fs.Stat (d.Join request.Directory (parseName pmsgs.length)) ≠ none →
      ∃ run, Parse d fs request pstream (pmsgs.length + 1 + fuel) = some run ∧
        run.sent = pmsgs ∧ run.waited = true ∧
        run.ret = if pstream.Context.Done
          then .returned (pstream.Context.Err.map .external) else .blocked) ∧
    ((msg = .Plan (some config) ∨ msg = .Apply (some config)) → msgs ≠ [] →
      ProvisionResolves d fs msg.isPlan config stream msgs →
      firstExisting fs (provisionPaths d msg.isPlan config msgs.length) = none →
      ∃ run, Provision d fs ⟨.ok msg, stream⟩ (msgs.length + 1 + fuel) = some run ∧
        run.sent = kept d config msgs ∧ run.waited = true ∧
        run.ret = if stream.Context.Done
          then .returned (stream.Context.Err.map .external) else .blocked) := by
  constructor
  · intro hne hinit hend
    exact ⟨_, Parse_exhausted d fs request pstream pmsgs fuel hne hinit hend,
      awaitDone_sent _ _, awaitDone_waited _ _, awaitDone_ret _ _⟩
  · intro hmsg hne hinit hend
    exact ⟨_, Provision_exhausted d fs msg config stream msgs fuel hmsg hne hinit hend,
      awaitDone_sent _ _, awaitDone_waited _ _, awaitDone_ret _ _⟩

/-- Witness of claim C12: a parse sequence of one response and an apply
sequence of two, on streams whose context is cancelled with an error. -/
theorem exhaustion_then_block_witness :
    (∃ run, Parse sampleDeps (Fs.ofArchive plainArchive) ⟨""⟩ (cancelledStream Parse_Response)
        ([Parse_Response.Complete "parsed"].length + 1 + 0) = some run ∧
      run.sent = [.Complete "parsed"] ∧ run.waited = true ∧
      run.ret = if (cancelledStream Parse_Response).Context.Done
        then .returned ((cancelledStream Parse_Response).Context.Err.map .external)
        else .blocked) ∧
    (∃ run, Provision sampleDeps (Fs.ofArchive debugArchive)
        ⟨.ok (.Apply (some warnConfig)), cancelledStream Provision_Response⟩
        ([Provision_Response.Log 1 "debug line", .Complete "done"].length + 1 + 0) = some run ∧
      run.sent = kept sampleDeps warnConfig [.Log 1 "debug line", .Complete "done"] ∧
      run.waited = true ∧
      run.ret = if (cancelledStream Provision_Response).Context.Done
        then .returned ((cancelledStream Provision_Response).Context.Err.map .external)
        else .blocked) :=
  ⟨(exhaustion_then_block sampleDeps (Fs.ofArchive plainArchive) ⟨""⟩
      (cancelledStream Parse_Response) [.Complete "parsed"] .Cancel warnConfig
      (cancelledStream Provision_Response) [] 0).1 (by decide) (by decide) (by decide),
   (exhaustion_then_block sampleDeps (Fs.ofArchive debugArchive) ⟨""⟩
      (cancelledStream Parse_Response) [] (.Apply (some warnConfig)) warnConfig
      (cancelledStream Provision_Response) [.Log 1 "debug line", .Complete "done"] 0).2
      (Or.inr rfl) (by decide) (by decide) (by decide)⟩

/-- Claim C13: a failure ends the call at once with an error, and the
messages sent are those sent before the failing step. A failing `Recv` ends
`Provision` with the transport's error and nothing sent. After the indices
below `n` went through, an existing entry of index `n` that cannot be read
ends the call with the read error wrapped with the path, one that does not
decode with the decode error wrapped, and a failing `Send` with the
transport's error unchanged; in each case exactly the messages of the indices
below `n` (those that pass the filter, for `Provision`) were sent. -/
theorem failures_abort_at_once (d : Deps) (fs : Fs) (request : Parse_Request)
    (pstream : Stream Parse_Response) (pmsgs : List Parse_Response)
    (msg : Provision_Request) (config : Provision_Config)
    (stream : Stream Provision_Response) (msgs : List Provision_Response) (fuel : Nat) :
    (∀ e, Provision d fs ⟨.error e, stream⟩ fuel
      = some ⟨[], false, .returned (some (.external e))⟩) ∧
    (ParseResolves d fs request pstream pmsgs →
      fs.Stat (d.Join request.Directory (parseName pmsgs.length)) = none →
      (∀ e, fs.ReadFile (d.Join request.Directory (parseName pmsgs.length)) = .error e →
        Parse d fs request pstream (pmsgs.length + 1 + fuel)
          = some ⟨pmsgs, false, .returned (some
              (.readFile (d.Join request.Directory (parseName pmsgs.length)) e))⟩) ∧
      (∀ data e, fs.ReadFile (d.Join request.Directory (parseName pmsgs.length)) = .ok data →
        d.UnmarshalParse data = .error e →
        Parse d fs request pstream (pmsgs.length + 1 + fuel)
          = some ⟨pmsgs, false, .returned (some (.unmarshal e))⟩) ∧
      (∀ data m e, fs.ReadFile (d.Join request.Directory (parseName pmsgs.length)) = .ok data →
        d.UnmarshalParse data = .ok m → pstream.Send pmsgs.length m = some e →
        Parse d fs request pstream (pmsgs.length + 1 + fuel)
          = some ⟨pmsgs, false, .returned (some (.external e))⟩)) ∧
    ((msg = .Plan (some config) ∨ msg = .Apply (some config)) →
      ProvisionResolves d fs msg.isPlan config stream msgs →
      ∀ path, firstExisting fs (provisionPaths d msg.isPlan config msgs.length) = some path →
      (∀ e, fs.ReadFile path = .error e →
        Provision d fs ⟨.ok msg, stream⟩ (msgs.length + 1 + fuel)
          = some ⟨kept d config msgs, false, .returned (some (.readFile path e))⟩) ∧
      (∀ data e, fs.ReadFile path = .ok data → d.UnmarshalProvision data = .error e →
        Provision d fs ⟨.ok msg, stream⟩ (msgs.length + 1 + fuel)
          = some ⟨kept d config msgs, false, .returned (some (.unmarshal e))⟩) ∧
      (∀ data m e, fs.ReadFile path = .ok data → d.UnmarshalProvision data = .ok m →
        filterLogResponses d config m = some m →
        stream.Send (kept d config msgs).length m = some e →
        Provision d fs ⟨.ok msg, stream⟩ (msgs.length + 1 + fuel)
          = some ⟨kept d config msgs, false, .returned (some (.external e))⟩)) := by
  refine ⟨fun e => rfl, ?_, ?_⟩
  · intro hinit hstat
    have hstep : Parse d fs request pstream (pmsgs.length + 1 + fuel)
        = ParseLoop d fs request pstream (fuel + 1) pmsgs.length pmsgs := by
      rw [Nat.add_assoc, Parse_after_initial d fs request pstream pmsgs hinit,
        Nat.add_comm 1 fuel]
    refine ⟨?_, ?_, ?_⟩
    · intro e hread
      rw [hstep, ParseLoop]
      simp only [hstat, hread]
    · intro data e hread hun
      rw [hstep, ParseLoop]
      simp only [hstat, hread, hun]
    · intro data m e hread hun hsend
      rw [hstep, ParseLoop]
      simp only [hstat, hread, hun, hsend]
  · intro hmsg hinit path hpath
    have hstep : Provision d fs ⟨.ok msg, stream⟩ (msgs.length + 1 + fuel)
        = ProvisionLoop d fs msg.isPlan config stream (fuel + 1) msgs.length
            (kept d config msgs) := by
      rw [Nat.add_assoc, Provision_after_initial d fs msg config stream msgs hmsg hinit,
        Nat.add_comm 1 fuel]
    refine ⟨?_, ?_, ?_⟩
    · intro e hread
      rw [hstep, ProvisionLoop, hpath]
      simp only [readAndSend, hread]
    · intro data e hread hun
      rw [hstep, ProvisionLoop, hpath]
      simp only [readAndSend, hread, hun]
    · intro data m e hread hun hfilter hsend
      rw [hstep, ProvisionLoop, hpath]
      simp only [readAndSend, hread, hun, hfilter, hsend]

/-- Witness of claim C13: a failing `Recv`, and for each handler an
unreadable entry, an entry that does not decode, and a failing `Send`. -/
theorem failures_abort_at_once_witness :
    Provision sampleDeps unreadableFs ⟨.error "stream closed", Stream.reliable _ none⟩ 0
      = some ⟨[], false, .returned (some (.external "stream closed"))⟩ ∧
    Parse sampleDeps unreadableFs ⟨""⟩ (Stream.reliable _ none) (1 + 1 + 0)
      = some ⟨[.Complete "first"], false,
          .returned (some (.readFile "1.parse.protobuf" "input/output error"))⟩ ∧
    Parse sampleDeps (Fs.ofArchive garbledArchive) ⟨""⟩ (Stream.reliable _ none) (1 + 1 + 0)
      = some ⟨[.Complete "parsed"], false,
          .returned (some (.unmarshal "proto: cannot parse invalid wire-format data"))⟩ ∧
    Parse sampleDeps (Fs.ofArchive plainArchive) ⟨""⟩ (brokenStream _ 0) (0 + 1 + 0)
      = some ⟨[], false, .returned (some (.external "broken pipe"))⟩ ∧
    Provision sampleDeps unreadableFs
        ⟨.ok (.Apply (some startConfig)), Stream.reliable _ none⟩ (1 + 1 + 0)
      = some ⟨[.Complete "first"], false,
          .returned (some (.readFile "1.start.provision.apply.protobuf"
            "input/output error"))⟩ ∧
    Provision sampleDeps (Fs.ofArchive garbledArchive)
        ⟨.ok (.Apply (some startConfig)), Stream.reliable _ none⟩ (1 + 1 + 0)
      = some ⟨[.Complete "first"], false,
          .returned (some (.unmarshal "proto: cannot parse invalid wire-format data"))⟩ ∧
    Provision sampleDeps (Fs.ofArchive plainArchive)
        ⟨.ok (.Apply (some startConfig)), brokenStream _ 1⟩ (1 + 1 + 0)
      = some ⟨[.Complete "first"], false, .returned (some (.external "broken pipe"))⟩ :=
  ⟨(failures_abort_at_once sampleDeps unreadableFs ⟨""⟩ (Stream.reliable _ none) []
      .Cancel startConfig (Stream.reliable _ none) [] 0).1 "stream closed",
   ((failures_abort_at_once sampleDeps unreadableFs ⟨""⟩ (Stream.reliable _ none)
      [.Complete "first"] .Cancel startConfig (Stream.reliable _ none) [] 0).2.1
      (by decide) (by decide)).1 "input/output error" (by decide),
   ((failures_abort_at_once sampleDeps (Fs.ofArchive garbledArchive) ⟨""⟩
      (Stream.reliable _ none) [.Complete "parsed"] .Cancel startConfig
      (Stream.reliable _ none) [] 0).2.1 (by decide) (by decide)).2.1 [7]
      "proto: cannot parse invalid wire-format data" (by decide) (by decide),
   ((failures_abort_at_once sampleDeps (Fs.ofArchive plainArchive) ⟨""⟩ (brokenStream _ 0) []
      .Cancel startConfig (Stream.reliable _ none) [] 0).2.1 (by decide) (by decide)).2.2
      (2 :: encodeString "parsed") (.Complete "parsed") "broken pipe"
      (by decide) (by decide) (by decide),
   ((failures_abort_at_once sampleDeps unreadableFs ⟨""⟩ (Stream.reliable _ none) []
      (.Apply (some startConfig)) startConfig (Stream.reliable _ none) [.Complete "first"] 0).2.2
      (Or.inr rfl) (by decide) "1.start.provision.apply.protobuf" (by decide)).1
      "input/output error" (by decide),
   ((failures_abort_at_once sampleDeps (Fs.ofArchive garbledArchive) ⟨""⟩
      (Stream.reliable _ none) [] (.Apply (some startConfig)) startConfig
      (Stream.reliable _ none) [.Complete "first"] 0).2.2
      (Or.inr rfl) (by decide) "1.provision.apply.protobuf" (by decide)).2.1 [7]
      "proto: cannot parse invalid wire-format data" (by decide) (by decide),
   ((failures_abort_at_once sampleDeps (Fs.ofArchive plainArchive) ⟨""⟩
      (Stream.reliable _ none) [] (.Apply (some startConfig)) startConfig
      (brokenStream _ 1) [.Complete "first"] 0).2.2
      (Or.inr rfl) (by decide) "1.provision.apply.protobuf" (by decide)).2.2
      (2 :: encodeString "second") (.Complete "second") "broken pipe"
      (by decide) (by decide) (by decide) (by decide)⟩

/-- Claim C14: for a plan or an apply for which the indices below `n > 0`
resolve and decode to `msgs` without a read, decode or send error, and at
index `n` neither the transition-specific nor the default name exists, the
call ends as an exhausted replay does: the messages sent are exactly the
messages of `msgs` except the log responses below the threshold of the
request, unmodified and in increasing index order, and the call then waits
for the cancellation and returns the context's error. A suppressed log, at
index 0 too, neither ends the replay nor raises an error, and nothing above
`n` is sent, whatever the store holds there. -/
theorem dense_prefix_replay (d : Deps) (fs : Fs) (msg : Provision_Request)
    (config : Provision_Config) (stream : Stream Provision_Response)
    (msgs : List Provision_Response) (fuel : Nat)
    (hmsg : msg = .Plan (some config) ∨ msg = .Apply (some config))
    (hzero : msgs ≠ [])
    (hinit : ProvisionResolves d fs msg.isPlan config stream msgs)
    (hend : firstExisting fs (provisionPaths d msg.isPlan config msgs.length) = none) :
    ∃ run, Provision d fs ⟨.ok msg, stream⟩ (msgs.length + 1 + fuel) = some run ∧
      run.sent = msgs.filter (fun m => !suppresses d config m) ∧
      run.waited = true ∧
      run.ret = if stream.Context.Done then .returned (stream.Context.Err.map .external)
        else .blocked := by
  refine ⟨_, Provision_exhausted d fs msg config stream msgs fuel hmsg hzero hinit hend,
    ?_, awaitDone_waited _ _, awaitDone_ret _ _⟩
  rw [awaitDone_sent, kept_eq_filter]

/-- Witness of claim C14: a debug log at index 0 under the threshold "warn",
followed by a completion; the completion alone is sent and the call returns
without an error once the context is done. -/
theorem dense_prefix_replay_witness :
    ProvisionResolves sampleDeps (Fs.ofArchive debugArchive) false warnConfig
      (Stream.reliable _ none) [.Log 1 "debug line", .Complete "done"] ∧
    firstExisting (Fs.ofArchive debugArchive) (provisionPaths sampleDeps false warnConfig 2)
      = none ∧
    [Provision_Response.Log 1 "debug line", .Complete "done"].filter
        (fun m => !suppresses sampleDeps warnConfig m) = [.Complete "done"] ∧
    ∃ run, Provision sampleDeps (Fs.ofArchive debugArchive)
        ⟨.ok (.Apply (some warnConfig)), Stream.reliable _ none⟩
        ([Provision_Response.Log 1 "debug line", .Complete "done"].length + 1 + 0) = some run ∧
      run.sent = [Provision_Response.Log 1 "debug line", .Complete "done"].filter
        (fun m => !suppresses sampleDeps warnConfig m) ∧
      run.waited = true ∧
      run.ret = if (Stream.reliable Provision_Response none).Context.Done
        then .returned ((Stream.reliable Provision_Response none).Context.Err.map .external)
        else .blocked :=
  ⟨by decide, by decide, by decide,
   dense_prefix_replay sampleDeps (Fs.ofArchive debugArchive) (.Apply (some warnConfig))
     warnConfig (Stream.reliable _ none) [.Log 1 "debug line", .Complete "done"] 0
     (Or.inr rfl) (by decide) (by decide) (by decide)⟩

/-- Claim C15: the outcome of a plan (resp. apply) depends on the store only
through the entries `{i}.{t}.provision.plan.protobuf` and
`{i}.provision.plan.protobuf` (resp. `.apply.`) of the request's directory:
two stores in which the same of these entries exist, with the same content,
give the same messages and the same result, whatever else they hold. -/
theorem provision_reads_only_its_entries (d : Deps) (fs1 fs2 : Fs) (msg : Provision_Request)
    (config : Provision_Config) (stream : Stream Provision_Response) (fuel : Nat)
    (hmsg : msg = .Plan (some config) ∨ msg = .Apply (some config))
    (hagree : ∀ i, ∀ name,
      name = transitionName d msg.isPlan config.GetWorkspaceTransition i ∨
        name = defaultName msg.isPlan i →
      (fs1.Stat (d.Join config.Directory name) = none
        ↔ fs2.Stat (d.Join config.Directory name) = none) ∧
      (fs1.Stat (d.Join config.Directory name) = none →
        fs1.ReadFile (d.Join config.Directory name)
          = fs2.ReadFile (d.Join config.Directory name))) :
    Provision d fs1 ⟨.ok msg, stream⟩ fuel = Provision d fs2 ⟨.ok msg, stream⟩ fuel := by
  rw [provision_some d fs1 msg config stream fuel hmsg,
    provision_some d fs2 msg config stream fuel hmsg]
  apply ProvisionLoop_agree
  intro i p hp
  simp only [provisionPaths, List.mem_cons, List.mem_singleton, List.not_mem_nil,
    or_false] at hp
  rcases hp with rfl | rfl
  · exact hagree i _ (Or.inl rfl)
  · exact hagree i _ (Or.inr rfl)

/-- Witness of claim C15: a store and the same store without its parse
entry. -/
theorem provision_reads_only_its_entries_witness :
    (Fs.ofArchive overrideArchive).Stat "0.parse.protobuf" = none ∧
    ((Fs.ofArchive overrideArchive).without "0.parse.protobuf").Stat "0.parse.protobuf"
      ≠ none ∧
    Provision sampleDeps (Fs.ofArchive overrideArchive)
        ⟨.ok (.Apply (some startConfig)), Stream.reliable _ none⟩ 3
      = Provision sampleDeps ((Fs.ofArchive overrideArchive).without "0.parse.protobuf")
        ⟨.ok (.Apply (some startConfig)), Stream.reliable _ none⟩ 3 :=
  ⟨by decide, by decide,
   provision_reads_only_its_entries sampleDeps (Fs.ofArchive overrideArchive)
     ((Fs.ofArchive overrideArchive).without "0.parse.protobuf") (.Apply (some startConfig))
     startConfig (Stream.reliable _ none) 3 (Or.inr rfl)
     (by
       intro i name hname
       have hne : sampleDeps.Join startConfig.Directory name ≠ "0.parse.protobuf" := by
         have hparse : parseName 0 = "0.parse.protobuf" := by decide
         rw [show startConfig.Directory = "" from rfl, sample_join_empty, ← hparse]
         rcases hname with rfl | rfl
         · exact fun h => parseName_ne_transitionName _ _ _ _ _ h.symm
         · exact fun h => parseName_ne_defaultName _ _ _ h.symm
       simp [Fs.without, hne])⟩

/-- Claim C16: when `0.parse.protobuf` exists, the entries below index `n`
decode to `msgs` without a read, decode or send error, and the entry of index
`n` is missing, `Parse` sends exactly `msgs`, in increasing index order, logs
included: no log-level filter applies to `Parse`. -/
theorem parse_replays_without_filtering (d : Deps) (fs : Fs) (request : Parse_Request)
    (stream : Stream Parse_Response) (msgs : List Parse_Response) (fuel : Nat)
    (hzero : msgs ≠ []) (hinit : ParseResolves d fs request stream msgs)
    (hend : fs.Stat (d.Join request.Directory (parseName msgs.length)) ≠ none) :
    ∃ run, Parse d fs request stream (msgs.length + 1 + fuel) = some run ∧
      run.sent = msgs := by
  exact ⟨_, Parse_exhausted d fs request stream msgs fuel hzero hinit hend,
    awaitDone_sent _ _⟩

/-- Witness of claim C16: a parse sequence that starts with a trace log. -/
theorem parse_replays_without_filtering_witness :
    ParseResolves sampleDeps (Fs.ofArchive loggedParseArchive) ⟨""⟩ (Stream.reliable _ none)
      [.Log 0 "trace line", .Complete "parsed"] ∧
    (Fs.ofArchive loggedParseArchive).Stat (sampleDeps.Join "" (parseName 2)) ≠ none ∧
    ∃ run, Parse sampleDeps (Fs.ofArchive loggedParseArchive) ⟨""⟩ (Stream.reliable _ none)
        ([Parse_Response.Log 0 "trace line", .Complete "parsed"].length + 1 + 0) = some run ∧
      run.sent = [.Log 0 "trace line", .Complete "parsed"] :=
  ⟨by decide, by decide,
   parse_replays_without_filtering sampleDeps (Fs.ofArchive loggedParseArchive)
     ⟨""⟩ (Stream.reliable _ none) [.Log 0 "trace line", .Complete "parsed"] 0
     (by decide) (by decide) (by decide)⟩

/-- Claim C17: when distinct transitions have distinct lower-cased names,
the entry name is an injective function of the key (operation kind,
transition tag, index); a transition-specific name never equals a default
name or a parse name, whatever the transition names are; and the entries of
an archive that `Tar` returns for a response set (whose maps have each key
once) have pairwise different names. -/
theorem entry_naming_injective (d : Deps) (r : Responses) (archive : Archive)
    (hinj : Function.Injective (fun t : Int => d.ToLower (d.TransitionString t)))
    (happly : (r.ProvisionApplyMap.map Prod.fst).Nodup)
    (hplan : (r.ProvisionPlanMap.map Prod.fst).Nodup)
    (htar : (Tar d (some r)).ret = .ok archive) :
    Function.Injective (EntryKey.name d) ∧
    (∀ plan t i q j, transitionName d plan t i ≠ defaultName q j ∧
      transitionName d plan t i ≠ parseName j) ∧
    (archive.map Prod.fst).Nodup := by
  refine ⟨EntryKey.name_injective d hinj, ?_, ?_⟩
  · intro plan t i q j
    exact ⟨transitionName_ne_defaultName d plan q t i j,
      fun h => parseName_ne_transitionName d plan t j i h.symm⟩
  · obtain ⟨-, rfl⟩ := tar_ok d r archive htar
    obtain ⟨-, -, -, hAM, hPM⟩ := tarDefaults_some r
    rw [catalog_names]
    exact (responseKeys_nodup _ (by rw [hAM]; exact happly) (by rw [hPM]; exact hplan)).map
      (EntryKey.name_injective d hinj)

/-- Witness of claim C17: the sample transition names, and a response set
with default sequences and a start sequence. -/
theorem entry_naming_injective_witness :
    (overrideResponses.ProvisionApplyMap.map Prod.fst).Nodup ∧
    (Tar sampleDeps (some overrideResponses)).ret = .ok overrideArchive ∧
    Function.Injective (EntryKey.name sampleDeps) ∧
    (overrideArchive.map Prod.fst).Nodup :=
  ⟨by decide, by decide,
   (entry_naming_injective sampleDeps overrideResponses overrideArchive
      sample_transition_names_injective (by decide) (by decide) (by decide)).1,
   (entry_naming_injective sampleDeps overrideResponses overrideArchive
      sample_transition_names_injective (by decide) (by decide) (by decide)).2.2⟩

/-- Claim C18, as stated, fails: on a stream whose second `Send` fails, the
apply sequence made of a debug log and a completion is cut after the log
under the threshold "debug", while under the threshold "warn" the log is
suppressed and the completion, now the first message, is sent: the messages
of the higher threshold are not a subsequence of those of the lower one,
and the two runs do not send the same non-log messages. -/
theorem failed_send_breaks_monotonicity :
    Provision sampleDeps (Fs.ofArchive debugArchive)
        ⟨.ok (.Apply (some debugConfig)), brokenStream _ 1⟩ 3
      = some ⟨[.Log 1 "debug line"], false, .returned (some (.external "broken pipe"))⟩ ∧
    Provision sampleDeps (Fs.ofArchive debugArchive)
        ⟨.ok (.Apply (some warnConfig)), brokenStream _ 1⟩ 3
      = some ⟨[.Complete "done"], true, .returned none⟩ ∧
    sampleDeps.LogLevel_value (sampleDeps.ToUpper debugConfig.ProvisionerLogLevel) = some 1 ∧
    sampleDeps.LogLevel_value (sampleDeps.ToUpper warnConfig.ProvisionerLogLevel) = some 3 ∧
    ¬ [Provision_Response.Complete "done"].Sublist [Provision_Response.Log 1 "debug line"] ∧
    nonLogs [Provision_Response.Log 1 "debug line"] ≠ nonLogs [.Complete "done"] := by
  decide

/-- Claim C18, amended: for two requests that differ in the threshold only,
naming the levels `l1 ≤ l2`, on a stream whose sends succeed and a store in
which some index `n` has neither entry: `Provision` ends under both
thresholds within `n + 1` iterations, the messages it sends under the higher
threshold are a subsequence of those it sends under the lower one, and both
runs send the same messages that are not logs. -/
theorem filtering_monotone_in_threshold (d : Deps) (fs : Fs) (msg1 msg2 : Provision_Request)
    (config1 config2 : Provision_Config) (stream : Stream Provision_Response) (l1 l2 : Int)
    (n fuel : Nat)
    (hmsg : (msg1 = .Plan (some config1) ∧ msg2 = .Plan (some config2)) ∨
      (msg1 = .Apply (some config1) ∧ msg2 = .Apply (some config2)))
    (hdir : config1.Directory = config2.Directory) (hmeta : config1.Metadata = config2.Metadata)
    (h2 : config2.ProvisionerLogLevel ≠ "")
    (hl1 : d.LogLevel_value (d.ToUpper config1.ProvisionerLogLevel) = some l1)
    (hl2 : d.LogLevel_value (d.ToUpper config2.ProvisionerLogLevel) = some l2)
    (hle : l1 ≤ l2) (hsend : ∀ k r, stream.Send k r = none)
    (hend : firstExisting fs (provisionPaths d msg1.isPlan config1 n) = none) :
    ∃ run1 run2, Provision d fs ⟨.ok msg1, stream⟩ (n + 1 + fuel) = some run1 ∧
      Provision d fs ⟨.ok msg2, stream⟩ (n + 1 + fuel) = some run2 ∧
      run2.sent.Sublist run1.sent ∧ nonLogs run1.sent = nonLogs run2.sent := by
  have hplan : msg1.isPlan = msg2.isPlan := by
    rcases hmsg with ⟨rfl, rfl⟩ | ⟨rfl, rfl⟩ <;> rfl
  have h1 : msg1 = .Plan (some config1) ∨ msg1 = .Apply (some config1) := by
    rcases hmsg with ⟨h, -⟩ | ⟨h, -⟩
    · exact Or.inl h
    · exact Or.inr h
  have h2' : msg2 = .Plan (some config2) ∨ msg2 = .Apply (some config2) := by
    rcases hmsg with ⟨-, h⟩ | ⟨-, h⟩
    · exact Or.inl h
    · exact Or.inr h
  obtain ⟨run1, hrun1⟩ := ProvisionLoop_terminates d fs msg1.isPlan config1 stream n hend
    (n + 1 + fuel) 0 [] (Nat.zero_le _) (by omega)
  obtain ⟨run2, hrun2, hsub, hnon, -, -⟩ := ProvisionLoop_monotone d fs msg1.isPlan config1
    config2 stream l1 l2 hdir hmeta h2 hl1 hl2 hle hsend (n + 1 + fuel) 0 [] []
    (List.Sublist.refl _) rfl run1 hrun1
  refine ⟨run1, run2, ?_, ?_, hsub, hnon⟩
  · rw [provision_some d fs msg1 config1 stream _ h1]
    exact hrun1
  · rw [provision_some d fs msg2 config2 stream _ h2', ← hplan]
    exact hrun2

/-- Witness of claim C18: the thresholds "debug" and "warn" on an apply
sequence made of a debug log and a completion, which index 2 ends. -/
theorem filtering_monotone_in_threshold_witness :
    Provision sampleDeps (Fs.ofArchive debugArchive)
        ⟨.ok (.Plan (some debugConfig)), Stream.reliable _ none⟩ 3
      = some ⟨[.Log 1 "debug line", .Complete "done"], true, .returned none⟩ ∧
    Provision sampleDeps (Fs.ofArchive debugArchive)
        ⟨.ok (.Plan (some warnConfig)), Stream.reliable _ none⟩ 3
      = some ⟨[.Complete "done"], true, .returned none⟩ ∧
    ∃ run1 run2, Provision sampleDeps (Fs.ofArchive debugArchive)
        ⟨.ok (.Plan (some debugConfig)), Stream.reliable _ none⟩ (2 + 1 + 0) = some run1 ∧
      Provision sampleDeps (Fs.ofArchive debugArchive)
        ⟨.ok (.Plan (some warnConfig)), Stream.reliable _ none⟩ (2 + 1 + 0) = some run2 ∧
      run2.sent.Sublist run1.sent ∧ nonLogs run1.sent = nonLogs run2.sent :=
  ⟨by decide, by decide,
   filtering_monotone_in_threshold sampleDeps (Fs.ofArchive debugArchive)
     (.Plan (some debugConfig)) (.Plan (some warnConfig)) debugConfig warnConfig
     (Stream.reliable _ none) 1 3 2 0
     (Or.inl ⟨rfl, rfl⟩) rfl rfl (by decide) (by decide) (by decide) (by decide)
     (fun _ _ => rfl) (by decide)⟩

/-- Claim C19: a non-empty threshold string that, upper-cased, is not a key
of the level table stands for level 0, so `filterLogResponses` keeps every
log whose level is not negative, as it does with the empty threshold. -/
theorem unrecognised_threshold_filters_nothing (d : Deps) (config : Provision_Config)
    (level : Int) (output : String)
    (hne : config.ProvisionerLogLevel ≠ "")
    (hunknown : d.LogLevel_value (d.ToUpper config.ProvisionerLogLevel) = none)
    (hlevel : 0 ≤ level) :
    (d.LogLevel_value (d.ToUpper config.ProvisionerLogLevel)).getD 0 = 0 ∧
    filterLogResponses d config (.Log level output) = some (.Log level output) ∧
    filterLogResponses d config (.Log level output)
      = filterLogResponses d { config with ProvisionerLogLevel := "" } (.Log level output) := by
  refine ⟨by rw [hunknown]; rfl, ?_, ?_⟩
  · simp [filterLogResponses, hne, hunknown, not_lt.mpr hlevel]
  · simp [filterLogResponses, hne, hunknown, not_lt.mpr hlevel]

/-- Witness of claim C19: the threshold "verbose" and a trace log. -/
theorem unrecognised_threshold_filters_nothing_witness :
    sampleDeps.LogLevel_value (sampleDeps.ToUpper "verbose") = none ∧
    filterLogResponses sampleDeps ⟨"", none, "verbose"⟩ (.Log 0 "trace line")
      = some (.Log 0 "trace line") :=
  ⟨by decide,
   (unrecognised_threshold_filters_nothing sampleDeps ⟨"", none, "verbose"⟩ 0 "trace line"
      (by decide) (by decide) (by decide)).2.1⟩

/-- Claim C20: `Tar` of a nil pointer returns what it returns for the set
with `Parse = ParseComplete`, `ProvisionApply = ProvisionComplete`,
`ProvisionPlan = ProvisionComplete` and no transition map: when the two empty
completions serialise, exactly the three entries `0.parse.protobuf`,
`0.provision.apply.protobuf` and `0.provision.plan.protobuf`, each holding
the serialisation of an empty completion. -/
theorem tar_of_nil (d : Deps) (parsed applied : Bytes)
    (hparse : d.MarshalParse (.Complete "") = .ok parsed)
    (hprov : d.MarshalProvision (.Complete "") = .ok applied) :
    (Tar d none).ret = (Tar d (some defaultResponses)).ret ∧
    (Tar d none).ret = .ok
      [("0.parse.protobuf", parsed), ("0.provision.apply.protobuf", applied),
       ("0.provision.plan.protobuf", applied)] := by
  refine ⟨rfl, ?_⟩
  simp [Tar, tarDefaults, tarWrite, ParseComplete, ProvisionComplete, Slice.elems, writeAll,
    writeProto, writeMap, hparse, hprov]
  decide

/-- Witness of claim C20: the sample codec. -/
theorem tar_of_nil_witness :
    (Tar sampleDeps none).ret = (Tar sampleDeps (some defaultResponses)).ret ∧
    (Tar sampleDeps none).ret = .ok
      [("0.parse.protobuf", [2]), ("0.provision.apply.protobuf", [2]),
       ("0.provision.plan.protobuf", [2])] :=
  tar_of_nil sampleDeps [2] [2] (by decide) (by decide)

end Echo
